import Mathlib

/-!
Expression trees, differentiation and the shunting-yard parser of `expr.cpp`

A shallow embedding of `src/expr.cpp` (SolveSpace): the `Expr` node, `Eval`,
`PartialWrt`, the printer `Print`, the lexer `Lex`, the two-stack parser `Parse`
and the entry point `FromString`, followed by theorems about them.

Conventions of the embedding.

* A value of type `Expr` stands for a C++ `Expr *`: either `NULL` or a node with
  its tag `op`, its union `x` and its two child pointers `a`, `b`.
* `double` values are read as exact numbers: constants are rationals, and `Eval`
  is generic in the field it computes in.
* The file-scope arrays `Unparsed`, `Operands`, `Operators` together with their
  counters `UnparsedCnt`, `OperandsP`, `OperatorsP` are lists: the list is the
  live part of the array (indices below the counter) and its length is the
  counter. The two stacks are kept top first. `UnparsedP` is a separate number.
* A C++ `throw "..."` is `Res.throw`, and `oops()` or the dereference of a `NULL`
  pointer is `Res.oops`. No handler of the file catches what the file throws, so
  a `Res.throw` of `FromString` is a call that does not return. Loops run on a fuel that is computed from the state at
  loop entry; `Res.timeout` is the result of a loop that ran out of it, and
  `FromString_ne_timeout` shows that `FromString` never ends that way.
* `StringBuffer` is the list of the characters in front of its terminating NUL;
  `%.3f` and `%08x` are the texts that the C library's `printf` produces, the
  former for the exact value of the constant.
-/

namespace SolveSpace

/-- The tags stored in `Expr::op` that `expr.cpp` uses. -/
inductive Op where
  | PARAM | PARAM_PTR | CONSTANT
  | PLUS | MINUS | TIMES | DIV
  | NEGATE | SQRT | SQUARE | SIN | COS
  | ALL_RESOLVED | PAREN | BINARY_OP | UNARY_OP
  deriving DecidableEq, Repr

/-- A parameter handle; `expr.cpp` compares handles through their field `v`. -/
structure hParam where
  v : Nat
  deriving DecidableEq, Repr

/-- The union `Expr::x`. `zero` is the union of a freshly allocated node, before
any member was written. -/
inductive XUnion where
  | zero
  | v (d : ℚ)
  | parh (h : hParam)
  | parp (p : Nat)
  | c (ch : Char)
  deriving DecidableEq, Repr

/-- An `Expr *`: `NULL`, or a pointer to a node `{op, x, a, b}`. -/
inductive Expr where
  | null : Expr
  | node (op : Op) (x : XUnion) (a b : Expr) : Expr
  deriving DecidableEq, Repr

namespace XUnion

/-- Reading `x.v`. A member that was not the one written reads as zero. -/
def getV : XUnion → ℚ
  | .v d => d
  | _ => 0

/-- Reading `x.parh`. -/
def getParh : XUnion → hParam
  | .parh h => h
  | _ => ⟨0⟩

/-- Reading `x.parp`, the address of a parameter record. -/
def getParp : XUnion → Nat
  | .parp p => p
  | _ => 0

/-- Reading `x.c`. -/
def getC : XUnion → Char
  | .c ch => ch
  | _ => Char.ofNat 0

end XUnion

namespace Expr

/-- `Expr::FromParam`. -/
def FromParam (p : hParam) : Expr := .node .PARAM (.parh p) .null .null

/-- `Expr::FromConstant`. -/
def FromConstant (v : ℚ) : Expr := .node .CONSTANT (.v v) .null .null

/-- `Expr::AnyOp`: a fresh node with tag `newOp`, `a = this` and `b`. -/
def AnyOp (this : Expr) (newOp : Op) (b : Expr) : Expr := .node newOp .zero this b

/-- Modelled from the spec: the binary combinators are declared in the header,
which is not part of the sources; each builds a BinaryOp node through `AnyOp`. -/
def Plus (this b : Expr) : Expr := this.AnyOp .PLUS b

/-- Modelled from the spec: binary combinator of the header, see `Plus`. -/
def Minus (this b : Expr) : Expr := this.AnyOp .MINUS b

/-- Modelled from the spec: binary combinator of the header, see `Plus`. -/
def Times (this b : Expr) : Expr := this.AnyOp .TIMES b

/-- Modelled from the spec: binary combinator of the header, see `Plus`. -/
def Div (this b : Expr) : Expr := this.AnyOp .DIV b

/-- Modelled from the spec: the unary combinators are declared in the header,
which is not part of the sources; each wraps its single operand through `AnyOp`
with no second child. -/
def Negate (this : Expr) : Expr := this.AnyOp .NEGATE .null

/-- Modelled from the spec: unary combinator of the header, see `Negate`. -/
def Sqrt (this : Expr) : Expr := this.AnyOp .SQRT .null

/-- Modelled from the spec: unary combinator of the header, see `Negate`. -/
def Square (this : Expr) : Expr := this.AnyOp .SQUARE .null

/-- Modelled from the spec: unary combinator of the header, see `Negate`. -/
def Sin (this : Expr) : Expr := this.AnyOp .SIN .null

/-- Modelled from the spec: unary combinator of the header, see `Negate`. -/
def Cos (this : Expr) : Expr := this.AnyOp .COS .null

end Expr

/-- The functions of the C math library that `Eval` calls. -/
structure Libm (α : Type) where
  sqrt : α → α
  sin : α → α
  cos : α → α

/-- `Expr::Eval`. `GetParam h` is `SS.GetParam(h)->val` and `deref p` is the `val`
of the record at address `p`. The result is `none` where the C++ reaches `oops()`
or dereferences `NULL`. -/
def Eval {α : Type} [DivisionRing α] (m : Libm α) (GetParam : hParam → α)
    (deref : Nat → α) : Expr → Option α
  | .null => none
  | .node op x a b =>
    match op with
    | .PARAM => some (GetParam x.getParh)
    | .PARAM_PTR => some (deref x.getParp)
    | .CONSTANT => some (x.getV : α)
    | .PLUS => do
        let va ← Eval m GetParam deref a
        let vb ← Eval m GetParam deref b
        pure (va + vb)
    | .MINUS => do
        let va ← Eval m GetParam deref a
        let vb ← Eval m GetParam deref b
        pure (va - vb)
    | .TIMES => do
        let va ← Eval m GetParam deref a
        let vb ← Eval m GetParam deref b
        pure (va * vb)
    | .DIV => do
        let va ← Eval m GetParam deref a
        let vb ← Eval m GetParam deref b
        pure (va / vb)
    | .NEGATE => do
        let va ← Eval m GetParam deref a
        pure (-va)
    | .SQRT => do
        let va ← Eval m GetParam deref a
        pure (m.sqrt va)
    | .SQUARE => do
        let r ← Eval m GetParam deref a
        pure (r * r)
    | .SIN => do
        let va ← Eval m GetParam deref a
        pure (m.sin va)
    | .COS => do
        let va ← Eval m GetParam deref a
        pure (m.cos va)
    | _ => none

/-- `Expr::PartialWrt`. The result is `none` where the C++ reaches `oops()` or
dereferences `NULL`. -/
def PartialWrt (p : hParam) : Expr → Option Expr
  | .null => none
  | .node op x a b =>
    match op with
    | .PARAM_PTR => none
    | .PARAM => some (Expr.FromConstant (if p.v = x.getParh.v then 1 else 0))
    | .CONSTANT => some (Expr.FromConstant 0)
    | .PLUS => do
        let da ← PartialWrt p a
        let db ← PartialWrt p b
        pure (da.Plus db)
    | .MINUS => do
        let da ← PartialWrt p a
        let db ← PartialWrt p b
        pure (da.Minus db)
    | .TIMES => do
        let da ← PartialWrt p a
        let db ← PartialWrt p b
        pure ((a.Times db).Plus (b.Times da))
    | .DIV => do
        let da ← PartialWrt p a
        let db ← PartialWrt p b
        pure (((da.Times b).Minus (a.Times db)).Div b.Square)
    | .SQRT => do
        let da ← PartialWrt p a
        pure (((Expr.FromConstant (1/2)).Div a.Sqrt).Times da)
    | .SQUARE => do
        let da ← PartialWrt p a
        pure (((Expr.FromConstant 2).Times a).Times da)
    | .NEGATE => do
        let da ← PartialWrt p a
        pure da.Negate
    | .SIN => do
        let da ← PartialWrt p a
        pure (a.Cos.Times da)
    | .COS => do
        let da ← PartialWrt p a
        pure ((a.Sin.Times da).Negate)
    | _ => none

/-! ## The file-scope state of the lexer and parser -/

/-- `MAX_UNPARSED`. -/
def MAX_UNPARSED : Nat := 1024

/-- The file-scope variables of `expr.cpp`. `Unparsed` holds the entries
`0 .. UnparsedCnt-1` of the token array, `Operands` and `Operators` hold the live
entries of the two stacks, top first. -/
structure Statics where
  Unparsed : List Expr
  UnparsedP : Nat
  Operands : List Expr
  Operators : List Expr
  deriving DecidableEq, Repr

/-- The outcome of running a piece of the lexer or parser. -/
inductive Res (α : Type) where
  /-- The code returned `a` and left the statics `s`. -/
  | ok (a : α) (s : Statics)
  /-- The code left through `throw e`, with the statics `s` at that moment. -/
  | throw (e : String) (s : Statics)
  /-- The code reached `oops()` or dereferenced `NULL`. -/
  | oops
  /-- A loop of the model ran out of fuel. -/
  | timeout
  deriving DecidableEq, Repr

/-- A computation over the statics. -/
def M (α : Type) : Type := Statics → Res α

/-- Sequencing: the second computation runs only after a normal return. -/
def M.bind {α β : Type} (m : M α) (f : α → M β) : M β := fun s =>
  match m s with
  | .ok a s1 => f a s1
  | .throw e s1 => .throw e s1
  | .oops => .oops
  | .timeout => .timeout

instance : Monad M where
  pure a := fun s => .ok a s
  bind := M.bind

/-- The C++ statement `throw e`. -/
def raise {α : Type} (e : String) : M α := fun s => .throw e s

/-- The call `oops()`, also used for the dereference of a `NULL` pointer. -/
def oops {α : Type} : M α := fun _ => .oops

/-- A loop that ran out of fuel. -/
def outOfFuel {α : Type} : M α := fun _ => .timeout

/-- `Expr::PushOperator`. -/
def PushOperator (e : Expr) : M Unit := fun s =>
  if s.Operators.length ≥ MAX_UNPARSED then .throw "operator stack full!" s
  else .ok () { s with Operators := e :: s.Operators }

/-- `Expr::TopOperator`. -/
def TopOperator : M Expr := fun s =>
  match s.Operators with
  | [] => .throw "operator stack empty (get top)" s
  | e :: _ => .ok e s

/-- `Expr::PopOperator`. -/
def PopOperator : M Expr := fun s =>
  match s.Operators with
  | [] => .throw "operator stack empty (pop)" s
  | e :: rest => .ok e { s with Operators := rest }

/-- `Expr::PushOperand`. -/
def PushOperand (e : Expr) : M Unit := fun s =>
  if s.Operands.length ≥ MAX_UNPARSED then .throw "operand stack full" s
  else .ok () { s with Operands := e :: s.Operands }

/-- `Expr::PopOperand`. -/
def PopOperand : M Expr := fun s =>
  match s.Operands with
  | [] => .throw "operand stack empty" s
  | e :: rest => .ok e { s with Operands := rest }

/-- `Expr::Next`. -/
def Next : M Expr := fun s =>
  if s.UnparsedP ≥ s.Unparsed.length then .ok .null s
  else .ok (s.Unparsed.getD s.UnparsedP .null) s

/-- `Expr::Consume`. -/
def Consume : M Unit := fun s =>
  if s.UnparsedP ≥ s.Unparsed.length then .throw "no token to consume" s
  else .ok () { s with UnparsedP := s.UnparsedP + 1 }

/-- `Expr::Precedence`. -/
def Precedence (e : Expr) : M Int :=
  match e with
  | .null => oops
  | .node op x _ _ =>
    if op = .ALL_RESOLVED then pure (-1)
    else if op ≠ .BINARY_OP ∧ op ≠ .UNARY_OP then oops
    else if x.getC = 's' ∨ x.getC = 'n' then pure 30
    else if x.getC = '*' ∨ x.getC = '/' then pure 20
    else if x.getC = '+' ∨ x.getC = '-' then pure 10
    else oops

/-- `Expr::Reduce`. -/
def Reduce : M Unit := do
  let op ← PopOperator
  match op with
  | .null => oops
  | .node _ x _ _ =>
    if x.getC = '+' ∨ x.getC = '-' ∨ x.getC = '*' ∨ x.getC = '/' then do
      let o : Op :=
        if x.getC = '+' then .PLUS
        else if x.getC = '-' then .MINUS
        else if x.getC = '*' then .TIMES
        else .DIV
      let b ← PopOperand
      let a ← PopOperand
      PushOperand (a.AnyOp o b)
    else if x.getC = 'n' then do
      let a ← PopOperand
      PushOperand a.Negate
    else if x.getC = 's' then do
      let a ← PopOperand
      PushOperand a.Sqrt
    else oops

/-- The `while` loop of `Expr::ReduceAndPush`; the left operand of `<=` is
evaluated first. -/
def ReduceWhile (n : Expr) : Nat → M Unit
  | 0 => outOfFuel
  | fuel + 1 => do
    let pn ← Precedence n
    let top ← TopOperator
    let pt ← Precedence top
    if pn ≤ pt then do
      Reduce
      ReduceWhile n fuel
    else pure ()

/-- `Expr::ReduceAndPush`. Every round of the loop pops one operator, so the
height of the operator stack bounds the number of rounds. -/
def ReduceAndPush (n : Expr) : M Unit := do
  (fun s => ReduceWhile n (s.Operators.length + 1) s)
  PushOperator n

/-- The loop `while(TopOperator()->op != ALL_RESOLVED) Reduce();` that ends
`Expr::Parse`. -/
def Drain : Nat → M Unit
  | 0 => outOfFuel
  | fuel + 1 => do
    let top ← TopOperator
    match top with
    | .null => oops
    | .node op _ _ _ =>
      if op ≠ .ALL_RESOLVED then do
        Reduce
        Drain fuel
      else pure ()

/-- Lines 248-254 of `Expr::Parse`: after an operand, a binary operator is
reduced-and-pushed and the loop goes on (`loop`); anything else ends it. -/
def AfterOperand (loop : M Unit) : M Unit := do
  let n ← Next
  match n with
  | .null => pure ()
  | .node op _ _ _ =>
    if op = .BINARY_OP then do
      ReduceAndPush n
      Consume
      loop
    else pure ()

/-- The assignment `n->op = UNARY_OP; n->x.c = 'n';` on the node that
`Unparsed[UnparsedP]` points to. -/
def Retag (n : Expr) : M Unit := fun s =>
  .ok () { s with Unparsed := s.Unparsed.set s.UnparsedP n }

mutual
/-- `Expr::Parse`. -/
def Parse : Nat → M Unit
  | 0 => outOfFuel
  | fuel + 1 => do
    PushOperator (.node .ALL_RESOLVED .zero .null .null)
    ParseLoop fuel
    (fun s => Drain (s.Operators.length + 1) s)
    let _ ← PopOperator
    pure ()
/-- The `for(;;)` loop of `Expr::Parse`. -/
def ParseLoop : Nat → M Unit
  | 0 => outOfFuel
  | fuel + 1 => do
    let n ← Next
    match n with
    | .null => raise "end of expression unexpected"
    | .node op x a b =>
      if op = .CONSTANT then do
        PushOperand n
        Consume
        AfterOperand (ParseLoop fuel)
      else if op = .PAREN ∧ x.getC = '(' then do
        Consume
        Parse fuel
        let n ← Next
        match n with
        | .null => oops
        | .node op x _ _ =>
          if op ≠ .PAREN ∨ x.getC ≠ ')' then raise "expected: )"
          else do
            Consume
            AfterOperand (ParseLoop fuel)
      else if op = .UNARY_OP then do
        PushOperator n
        Consume
        ParseLoop fuel
      else if op = .BINARY_OP ∧ x.getC = '-' then do
        let n : Expr := .node .UNARY_OP (.c 'n') a b
        Retag n
        PushOperator n
        Consume
        ParseLoop fuel
      else raise "expected expression"
end

/-! ## The lexer -/

/-- The C library `isdigit`, in the C locale. -/
def isdigit (c : Char) : Bool := decide ('0' ≤ c ∧ c ≤ '9')

/-- The C library `isalpha`, in the C locale. -/
def isalpha (c : Char) : Bool := decide (('a' ≤ c ∧ c ≤ 'z') ∨ ('A' ≤ c ∧ c ≤ 'Z'))

/-- The C library `isspace`, in the C locale: space, tab, newline, vertical tab,
form feed, carriage return. -/
def isspace (c : Char) : Bool :=
  decide (c = ' ' ∨ (9 ≤ c.toNat ∧ c.toNat ≤ 13))

/-- Modelled from the spec: `isforname` is a macro of the header, which is not
part of the sources; an identifier character is a letter, a digit or `_`. -/
def isforname (c : Char) : Bool := isalpha c || isdigit c || c == '_'

/-- The loop `while((isdigit(*in) || *in == '.') && len < 30)`: the characters
copied to `number` and the rest of the input. -/
def scanNumber : List Char → Nat → List Char × List Char
  | [], _ => ([], [])
  | c :: cs, len =>
    if (isdigit c || c == '.') && decide (len < 30) then
      ((c :: (scanNumber cs (len + 1)).1), (scanNumber cs (len + 1)).2)
    else ([], c :: cs)

/-- The loop `while(isforname(*in) && len < 30)`: the characters copied to `name`
and the rest of the input. -/
def scanName : List Char → Nat → List Char × List Char
  | [], _ => ([], [])
  | c :: cs, len =>
    if isforname c && decide (len < 30) then
      ((c :: (scanName cs (len + 1)).1), (scanName cs (len + 1)).2)
    else ([], c :: cs)

/-- The fraction digits read by `atof` after the decimal point. -/
def atofFrac : List Char → ℚ → ℚ → ℚ
  | [], _, acc => acc
  | c :: cs, scale, acc =>
    if isdigit c then atofFrac cs (scale / 10) (acc + (c.toNat - 48 : ℕ) * (scale / 10))
    else acc

/-- The integer digits read by `atof`, then the fraction. -/
def atofInt : List Char → ℚ → ℚ
  | [], acc => acc
  | c :: cs, acc =>
    if isdigit c then atofInt cs (acc * 10 + (c.toNat - 48 : ℕ))
    else if c = '.' then atofFrac cs 1 acc
    else acc

/-- The C library `atof` on the strings the lexer passes to it (digits and
dots), with the value taken exactly: the digits before the first dot, then the
digits up to a second dot as the fraction. -/
def atof (number : List Char) : ℚ := atofInt number 0

/-- The statement `Unparsed[UnparsedCnt++] = e`. -/
def Emit (e : Expr) : M Unit := fun s =>
  .ok () { s with Unparsed := s.Unparsed ++ [e] }

/-- `Expr::Lex`. Every round of the outer loop moves `in` forward or throws, so
the length of the input bounds the number of rounds. -/
def Lex : Nat → List Char → M Unit
  | _, [] => pure ()
  | 0, _ :: _ => outOfFuel
  | fuel + 1, c :: cs => do
    let cnt ← (fun s => Res.ok s.Unparsed.length s : M Nat)
    if cnt ≥ MAX_UNPARSED then raise "too long"
    else if isdigit c || c == '.' then do
      let number := (scanNumber (c :: cs) 0).1
      Emit (.node .CONSTANT (.v (atof number)) .null .null)
      Lex fuel (scanNumber (c :: cs) 0).2
    else if isalpha c || c == '_' then do
      let name := (scanName (c :: cs) 0).1
      if name = ['s', 'q', 'r', 't'] then do
        Emit (.node .UNARY_OP (.c 's') .null .null)
        Lex fuel (scanName (c :: cs) 0).2
      else raise "unknown name"
    else if c = '+' ∨ c = '-' ∨ c = '*' ∨ c = '/' ∨ c = '(' ∨ c = ')' then do
      Emit (.node (if c = '(' ∨ c = ')' then .PAREN else .BINARY_OP) (.c c) .null .null)
      Lex fuel cs
    else if isspace c then Lex fuel cs
    else raise "unexpected characters"

/-- The statements inside the `try` block of `Expr::FromString`. The fuel of
`Parse` is computed from the number of tokens in front of the cursor. -/
def TryBlock (inp : List Char) : M Expr := do
  Lex inp.length inp
  (fun s1 => Parse (2 * (s1.Unparsed.length - s1.UnparsedP) + 2) s1)
  let r ← PopOperand
  pure r

/-- `Expr::FromString`, as a function of the text and of the statics an earlier
call left behind. It sets `UnparsedCnt`, `OperandsP` and `OperatorsP` to zero;
`UnparsedP` keeps its value. Every `throw` of the lexer and of the parser throws
a string literal, an exception of type `const char *`; the handler
`catch (char *e)` does not match that type, so the exception leaves `FromString`
uncaught: the call does not return, and with no handler further out the program
terminates. Nothing in the `try` block throws a `char *`, so the body of the
handler, which returns `NULL`, is never entered. -/
def FromString (inp : List Char) : M Expr := fun s =>
  match TryBlock inp { s with Unparsed := [], Operands := [], Operators := [] } with
  | .ok r s1 => .ok r s1
  | .throw e s1 => .throw e s1
  | .oops => .oops
  | .timeout => .timeout

/-- The statics before the first call: all counters are zero. -/
def Statics.init : Statics := ⟨[], 0, [], []⟩

/-- The value a run returned, when it returned normally. -/
def Res.value {α : Type} : Res α → Option α
  | .ok a _ => some a
  | _ => none

/-- The message of the `throw` a run ended with, when it ended with one. -/
def Res.thrown {α : Type} : Res α → Option String
  | .throw e _ => some e
  | _ => none

/-- The statics a run left behind, when it returned normally. -/
def Res.final {α : Type} : Res α → Option Statics
  | .ok _ s => some s
  | _ => none

/-- The tail of `Expr::Parse` after its `for(;;)` loop: drain the operator stack
down to the marker, then discard the marker. -/
def finishParse : M Unit :=
  (fun s => Drain (s.Operators.length + 1) s) >>= fun _ => PopOperator >>= fun _ => pure ()

/-- The `for(;;)` loop of `Expr::Parse` followed by the tail of `Expr::Parse`. -/
def LoopThen (fuel : Nat) : M Unit := ParseLoop fuel >>= fun _ => finishParse

/-- The loop of `Expr::Parse` entered right after an operand, followed by the
tail of `Expr::Parse`. -/
def AfterThen (fuel : Nat) : M Unit := AfterOperand (ParseLoop fuel) >>= fun _ => finishParse

/-- The marker node that `Expr::Parse` pushes on entry. -/
def marker : Expr := .node .ALL_RESOLVED .zero .null .null

/-- The value of `Precedence(e)`, or `none` where it reaches `oops()`. -/
def prec : Expr → Option Int
  | .null => none
  | .node op x _ _ =>
    if op = .ALL_RESOLVED then some (-1)
    else if op ≠ .BINARY_OP ∧ op ≠ .UNARY_OP then none
    else if x.getC = 's' ∨ x.getC = 'n' then some 30
    else if x.getC = '*' ∨ x.getC = '/' then some 20
    else if x.getC = '+' ∨ x.getC = '-' then some 10
    else none

/-! ## The grammar of the specification

`expr := term (('+' | '-') term)*`, `term := factor (('*' | '/') factor)*`,
`factor := number | '(' expr ')' | '-' factor | 'sqrt' '(' expr ')'`. -/

/-- The terminal symbols of the grammar. -/
inductive Terminal where
  | number (lit : List Char)
  | plus | minus | star | slash
  | lparen | rparen
  | sqrt
  deriving DecidableEq, Repr

/-- The nonterminals of the grammar. -/
inductive Cat where
  | expr | term | factor
  deriving DecidableEq, Repr

/-- A number literal is a nonempty run of digits and dots. -/
def isNumber (lit : List Char) : Bool :=
  !lit.isEmpty && lit.all (fun c => isdigit c || c == '.')

/-- The characters that spell a terminal. -/
def Terminal.spell : Terminal → List Char
  | .number lit => lit
  | .plus => ['+']
  | .minus => ['-']
  | .star => ['*']
  | .slash => ['/']
  | .lparen => ['(']
  | .rparen => [')']
  | .sqrt => ['s', 'q', 'r', 't']

/-- The text of a sequence of terminals. -/
def spellAll : List Terminal → List Char
  | [] => []
  | t :: ts => t.spell ++ spellAll ts

/-- The token node the lexer allocates for a terminal. -/
def Terminal.tok : Terminal → Expr
  | .number lit => .node .CONSTANT (.v (atof lit)) .null .null
  | .plus => .node .BINARY_OP (.c '+') .null .null
  | .minus => .node .BINARY_OP (.c '-') .null .null
  | .star => .node .BINARY_OP (.c '*') .null .null
  | .slash => .node .BINARY_OP (.c '/') .null .null
  | .lparen => .node .PAREN (.c '(') .null .null
  | .rparen => .node .PAREN (.c ')') .null .null
  | .sqrt => .node .UNARY_OP (.c 's') .null .null

/-- A terminal is a number literal longer than `n` characters. -/
def Terminal.longerThan (n : Nat) : Terminal → Bool
  | .number lit => decide (n < lit.length)
  | _ => false

/-- `Derives c ts t`: the nonterminal `c` derives the terminal sequence `ts`, and
`t` is the tree this derivation denotes: `+`, `-`, `*`, `/` build Plus, Minus,
Times, Div with the left operand the part derived so far (left-associative), a
parenthesized expression denotes the tree of the expression, `-` factor denotes
Negate and `sqrt ( expr )` denotes Sqrt. -/
inductive Derives : Cat → List Terminal → Expr → Prop where
  | number {lit : List Char} (h : isNumber lit = true) :
      Derives .factor [.number lit] (Expr.FromConstant (atof lit))
  | paren {ts : List Terminal} {t : Expr} (h : Derives .expr ts t) :
      Derives .factor (.lparen :: ts ++ [.rparen]) t
  | negate {ts : List Terminal} {t : Expr} (h : Derives .factor ts t) :
      Derives .factor (.minus :: ts) t.Negate
  | sqrt {ts : List Terminal} {t : Expr} (h : Derives .expr ts t) :
      Derives .factor (.sqrt :: .lparen :: ts ++ [.rparen]) t.Sqrt
  | factor {ts : List Terminal} {t : Expr} (h : Derives .factor ts t) :
      Derives .term ts t
  | times {ts1 ts2 : List Terminal} {t1 t2 : Expr}
      (h1 : Derives .term ts1 t1) (h2 : Derives .factor ts2 t2) :
      Derives .term (ts1 ++ .star :: ts2) (t1.Times t2)
  | div {ts1 ts2 : List Terminal} {t1 t2 : Expr}
      (h1 : Derives .term ts1 t1) (h2 : Derives .factor ts2 t2) :
      Derives .term (ts1 ++ .slash :: ts2) (t1.Div t2)
  | term {ts : List Terminal} {t : Expr} (h : Derives .term ts t) :
      Derives .expr ts t
  | plus {ts1 ts2 : List Terminal} {t1 t2 : Expr}
      (h1 : Derives .expr ts1 t1) (h2 : Derives .term ts2 t2) :
      Derives .expr (ts1 ++ .plus :: ts2) (t1.Plus t2)
  | minus {ts1 ts2 : List Terminal} {t1 t2 : Expr}
      (h1 : Derives .expr ts1 t1) (h2 : Derives .term ts2 t2) :
      Derives .expr (ts1 ++ .minus :: ts2) (t1.Minus t2)

/-- What the token after a derived phrase may be, for the phrase to be read as a
whole: a binary operator there must not bind tighter than the operators of the
phrase. -/
def RestOK : Cat → List Expr → Prop
  | .factor, _ => True
  | .term, rest => ∀ x a b r k, rest = .node .BINARY_OP x a b :: r →
      prec (.node .BINARY_OP x a b) = some k → k ≤ 20
  | .expr, rest => ∀ x a b r k, rest = .node .BINARY_OP x a b :: r →
      prec (.node .BINARY_OP x a b) = some k → k ≤ 10

/-- What the top of the operator stack may be when a derived phrase starts: an
entry of lower precedence than the operators of the phrase. -/
def TopOK : Cat → List Expr → Prop
  | .factor, _ => True
  | .term, ops => ∃ top r kt, ops = top :: r ∧ prec top = some kt ∧ kt < 20
  | .expr, ops => ∃ top r kt, ops = top :: r ∧ prec top = some kt ∧ kt < 10

/-- The parser reads the phrase `toks` as the operand `t`: started in front of
the tokens of `toks`, the loop of `Expr::Parse` behaves as if the single operand
`t` had been pushed and the cursor moved past the phrase. -/
def ReadsAs (c : Cat) (toks : List Terminal) (t : Expr) : Prop :=
  ∀ (U : List Expr) (p : Nat) (opnds ops rest : List Expr) (f : Nat),
    U.drop p = toks.map Terminal.tok ++ rest →
    RestOK c rest → TopOK c ops →
    2 * (toks.length + rest.length) + 1 ≤ f →
    opnds.length + toks.length ≤ MAX_UNPARSED →
    ops.length + toks.length ≤ MAX_UNPARSED →
    ∃ U' f', U'.length = U.length ∧ U'.drop (p + toks.length) = rest ∧
      2 * rest.length ≤ f' ∧
      LoopThen f ⟨U, p, opnds, ops⟩ = AfterThen f' ⟨U', p + toks.length, t :: opnds, ops⟩

/-- The text `rest` does not continue a number or a name: it is empty or starts
with a character that is neither a digit, a dot nor an identifier character. -/
def delim : List Char → Bool
  | [] => true
  | c :: _ => !(isdigit c || c == '.' || isforname c)

/-- The lexer reads the text of `toks` as the tokens of `toks`: in front of a
delimiter it appends the token nodes to `Unparsed` and goes on with the rest. -/
def LexesAs (toks : List Terminal) : Prop :=
  ∀ (rest : List Char) (U : List Expr) (p : Nat) (opnds ops : List Expr) (f : Nat),
    delim rest = true →
    U.length + toks.length ≤ MAX_UNPARSED →
    (spellAll toks ++ rest).length ≤ f →
    ∃ f', rest.length ≤ f' ∧
      Lex f (spellAll toks ++ rest) ⟨U, p, opnds, ops⟩ =
        Lex f' rest ⟨U ++ toks.map Terminal.tok, p, opnds, ops⟩

/-- `EndsOpen c ts`: the terminals `ts` are the beginning of a phrase derived
from `c`, cut where an operand is expected next: the empty text, a text cut after
a unary `-` or after `sqrt`, after an opening parenthesis, or after a binary
operator that follows a complete left operand. -/
inductive EndsOpen : Cat → List Terminal → Prop where
  | nil : EndsOpen .factor []
  | negate {ts : List Terminal} (h : EndsOpen .factor ts) : EndsOpen .factor (.minus :: ts)
  | lparen {ts : List Terminal} (h : EndsOpen .expr ts) : EndsOpen .factor (.lparen :: ts)
  | sqrt : EndsOpen .factor [.sqrt]
  | sqrtLparen {ts : List Terminal} (h : EndsOpen .expr ts) :
      EndsOpen .factor (.sqrt :: .lparen :: ts)
  | factor {ts : List Terminal} (h : EndsOpen .factor ts) : EndsOpen .term ts
  | times {ts1 ts2 : List Terminal} {t1 : Expr}
      (h1 : Derives .term ts1 t1) (h2 : EndsOpen .factor ts2) :
      EndsOpen .term (ts1 ++ .star :: ts2)
  | div {ts1 ts2 : List Terminal} {t1 : Expr}
      (h1 : Derives .term ts1 t1) (h2 : EndsOpen .factor ts2) :
      EndsOpen .term (ts1 ++ .slash :: ts2)
  | term {ts : List Terminal} (h : EndsOpen .term ts) : EndsOpen .expr ts
  | plus {ts1 ts2 : List Terminal} {t1 : Expr}
      (h1 : Derives .expr ts1 t1) (h2 : EndsOpen .term ts2) :
      EndsOpen .expr (ts1 ++ .plus :: ts2)
  | minus {ts1 ts2 : List Terminal} {t1 : Expr}
      (h1 : Derives .expr ts1 t1) (h2 : EndsOpen .term ts2) :
      EndsOpen .expr (ts1 ++ .minus :: ts2)

/-! ## Finished trees -/

/-- A finished tree: every node is a ParamRef, ParamDirect or Constant leaf, a
Plus, Minus, Times or Div with two finished children, or a Negate, Sqrt, Square,
Sin or Cos with a finished operand. -/
def Expr.finished : Expr → Bool
  | .null => false
  | .node op _ a b =>
    match op with
    | .PARAM | .PARAM_PTR | .CONSTANT => true
    | .PLUS | .MINUS | .TIMES | .DIV => a.finished && b.finished
    | .NEGATE | .SQRT | .SQUARE | .SIN | .COS => a.finished
    | _ => false

/-- The tree contains a ParamDirect node. -/
def Expr.hasDirect : Expr → Bool
  | .null => false
  | .node op _ a b => decide (op = .PARAM_PTR) || a.hasDirect || b.hasDirect

/-- At the assignment `GetParam`, every divisor subtree of the tree evaluates to a
nonzero real and every operand of a Sqrt evaluates to a positive real. -/
def Regular (GetParam : hParam → ℝ) (deref : Nat → ℝ) : Expr → Prop
  | .null => True
  | .node op _ a b =>
    Regular GetParam deref a ∧ Regular GetParam deref b ∧
    (op = .DIV → ∃ v, Eval ⟨Real.sqrt, Real.sin, Real.cos⟩ GetParam deref b = some v ∧ v ≠ 0) ∧
    (op = .SQRT → ∃ v, Eval ⟨Real.sqrt, Real.sin, Real.cos⟩ GetParam deref a = some v ∧ 0 < v)

/-- The tree tag of a binary operator terminal. -/
def Terminal.binOp : Terminal → Op
  | .plus => .PLUS
  | .minus => .MINUS
  | .star => .TIMES
  | _ => .DIV

/-! ## Trees that `PartialWrt` rejects -/

/-- The tree contains, at a node or below it through the children its nodes use
(both children of Plus, Minus, Times, Div, the operand of Negate, Sqrt, Square,
Sin, Cos), a ParamDirect node or a node with a transient token tag. -/
def Expr.hasIllegal : Expr → Bool
  | .null => false
  | .node op _ a b =>
    match op with
    | .PARAM | .CONSTANT => false
    | .PARAM_PTR => true
    | .PLUS | .MINUS | .TIMES | .DIV => a.hasIllegal || b.hasIllegal
    | .NEGATE | .SQRT | .SQUARE | .SIN | .COS => a.hasIllegal
    | _ => true

/-- The pointer is a tree: it is not `NULL`, and every child that a node uses is
a tree again. -/
def Expr.proper : Expr → Bool
  | .null => false
  | .node op _ a b =>
    match op with
    | .PLUS | .MINUS | .TIMES | .DIV => a.proper && b.proper
    | .NEGATE | .SQRT | .SQUARE | .SIN | .COS => a.proper
    | _ => true

/-! ## Texts the lexer rejects -/

/-- The characters the lexer knows: a digit, `.`, a letter, `_`, one of `+-*/()`,
or whitespace. -/
def lexable (c : Char) : Bool :=
  isdigit c || c == '.' || isalpha c || c == '_' ||
    (c == '+' || c == '-' || c == '*' || c == '/' || c == '(' || c == ')') || isspace c

/-- `name` is an identifier of `text`: a maximal run of letters, digits and `_`
that starts with a letter or `_`. -/
def IsIdentifierOf (text name : List Char) : Prop :=
  ∃ pre post, text = pre ++ name ++ post ∧
    (∃ c cs, name = c :: cs ∧ (isalpha c || c == '_') = true) ∧
    name.all isforname = true ∧
    (∀ c, pre.getLast? = some c → isforname c = false) ∧
    (∀ c, post.head? = some c → isforname c = false)

/-- The lexer cannot get past the head of the text: the first character is one
it does not know, or the text starts with a name other than `sqrt`. -/
def StuckHead (inp : List Char) : Prop :=
  ∃ c cs, inp = c :: cs ∧ (isdigit c || c == '.') = false ∧
    (lexable c = false ∨
      ((isalpha c || c == '_') = true ∧ (scanName inp 0).1 ≠ ['s', 'q', 'r', 't']))

/-- Somewhere in the text the lexer will be stuck: the text is `pre ++ suf` with
the lexer stuck at the head of `suf`, and no name that starts in `pre` runs into
`suf`. -/
def Bad (inp : List Char) : Prop :=
  ∃ pre suf, inp = pre ++ suf ∧ StuckHead suf ∧
    ((∃ c cs, suf = c :: cs ∧ isforname c = false) ∨
      (∀ c, pre.getLast? = some c → isforname c = false))

/-! ## Hoare triples over the statics -/

/-- A run of `m` from statics that satisfy `P` ends, when it returns `a`, in
statics that satisfy `Q a`, and when it throws, in statics that satisfy `E`. -/
def Triple {α : Type} (P : Statics → Prop) (m : M α) (Q : α → Statics → Prop)
    (E : Statics → Prop) : Prop :=
  ∀ s, P s →
    match m s with
    | .ok a s1 => Q a s1
    | .throw _ s1 => E s1
    | .oops => True
    | .timeout => True

/-- Every run of `m` from statics that satisfy `I` ends, by a return or by a
`throw`, in statics that satisfy `I`. -/
def Keeps {α : Type} (I : Statics → Prop) (m : M α) : Prop :=
  Triple I m (fun _ s => I s) I

/-- The primitives that change the statics keep `I`, where the operands that are
pushed satisfy `φ` and the operands that are popped are known to satisfy `φ`. -/
def Respects (I : Statics → Prop) (φ : Expr → Prop) : Prop :=
  (∀ e, Keeps I (PushOperator e)) ∧ Keeps I PopOperator ∧
  (∀ e, φ e → Keeps I (PushOperand e)) ∧
  Triple I PopOperand (fun a s => I s ∧ φ a) I ∧
  Keeps I Consume ∧ (∀ n, Keeps I (Retag n)) ∧
  (∀ x a b, φ (.node .CONSTANT x a b)) ∧
  (∀ a b o, φ a → φ b → o = .PLUS ∨ o = .MINUS ∨ o = .TIMES ∨ o = .DIV → φ (a.AnyOp o b)) ∧
  (∀ a, φ a → φ a.Negate) ∧ (∀ a, φ a → φ a.Sqrt)

/-! ## Invariants of the counters, the operands and the tokens -/

/-- The token count, the operand stack pointer and the operator stack pointer
are within `0 .. MAX_UNPARSED`. -/
def Bounded (s : Statics) : Prop :=
  s.Unparsed.length ≤ MAX_UNPARSED ∧ s.Operands.length ≤ MAX_UNPARSED ∧
    s.Operators.length ≤ MAX_UNPARSED

/-- A tree as the parser builds it: every node is a Constant, a Plus, Minus,
Times or Div with both children present, or a Negate or Sqrt with its operand
present. -/
def Expr.parsed : Expr → Bool
  | .null => false
  | .node op _ a b =>
    match op with
    | .CONSTANT => true
    | .PLUS | .MINUS | .TIMES | .DIV => a.parsed && b.parsed
    | .NEGATE | .SQRT => a.parsed
    | _ => false

/-- Every entry of the operand stack is a tree as the parser builds it. -/
def OperandsParsed (s : Statics) : Prop := ∀ e ∈ s.Operands, e.parsed = true

/-! ## Texts laid out in tokens -/

/-- A text given as its tokens, each followed by the whitespace after it. -/
def layout : List (Terminal × List Char) → List Char
  | [] => []
  | (t, ws) :: r => t.spell ++ (ws ++ layout r)

/-- A terminal the lexer reads as one token: a number literal is a nonempty run
of digits and dots of at most 30 characters. -/
def okTerminal : Terminal → Bool
  | .number lit => isNumber lit && decide (lit.length ≤ 30)
  | _ => true

/-- A number literal and the name `sqrt` end where the text ends or goes on with
a character that continues neither a number nor a name. -/
def needsDelim : Terminal → Bool
  | .number _ => true
  | .sqrt => true
  | _ => false

/-- The text `layout l ++ rest` splits into the tokens of `l`: every terminal is
one the lexer reads as one token, what follows it is whitespace, and a number
literal or `sqrt` is followed by a delimiter. -/
def wellLaid : List (Terminal × List Char) → List Char → Bool
  | [], _ => true
  | (t, ws) :: r, rest =>
    okTerminal t && ws.all isspace &&
      (!needsDelim t || delim (ws ++ (layout r ++ rest))) && wellLaid r rest

/-- A token as the lexer emits it, or a `-` token that the parser has retagged
as the unary operator `n`. -/
def isTokenNode : Expr → Bool
  | .null => false
  | .node op x _ _ =>
    match op with
    | .CONSTANT => true
    | .BINARY_OP => decide (x.getC = '+' ∨ x.getC = '-' ∨ x.getC = '*' ∨ x.getC = '/')
    | .PAREN => decide (x.getC = '(' ∨ x.getC = ')')
    | .UNARY_OP => decide (x.getC = 's' ∨ x.getC = 'n')
    | _ => false

/-! ## The stack discipline of `Parse` -/

/-- Every entry of the token array is a token of the lexer, possibly retagged. -/
def Tokens (s : Statics) : Prop := ∀ e ∈ s.Unparsed, isTokenNode e = true

/-- An operator that waits on the operator stack: a binary operator token or a
unary operator token. -/
def isPending : Expr → Bool
  | .null => false
  | .node op x _ _ =>
    match op with
    | .BINARY_OP => decide (x.getC = '+' ∨ x.getC = '-' ∨ x.getC = '*' ∨ x.getC = '/')
    | .UNARY_OP => decide (x.getC = 's' ∨ x.getC = 'n')
    | _ => false

/-- The number of binary operators among the entries. -/
def nbin : List Expr → Nat
  | [] => 0
  | .node .BINARY_OP _ _ _ :: r => nbin r + 1
  | _ :: r => nbin r

/-- The statics inside an invocation of `Parse` that was entered with the
operator stack `ops0` and the operand stack `opnds0`: above `ops0` lie the marker
of the invocation and its waiting operators `us`, above `opnds0` lie the operands
`xs` of the invocation, one for each waiting binary operator, and `k` more. -/
def Open (ops0 opnds0 : List Expr) (k : Nat) (s : Statics) : Prop :=
  Tokens s ∧ ∃ us xs, s.Operators = us ++ marker :: ops0 ∧ s.Operands = xs ++ opnds0 ∧
    (∀ u ∈ us, isPending u = true) ∧ xs.length = nbin us + k

/-! ## The printer -/

/-- The character of the decimal digit `n % 10`. -/
def digit (n : Nat) : Char := Char.ofNat (48 + n % 10)

/-- The decimal digits of `n`, most significant first; `fuel` bounds the number
of digits after the first. -/
def decimalF : Nat → Nat → List Char
  | 0, n => [digit n]
  | fuel + 1, n => if n < 10 then [digit n] else decimalF fuel (n / 10) ++ [digit n]

/-- The decimal digits of `n`, as `printf` writes an integer part. -/
def decimal (n : Nat) : List Char := decimalF n n

/-- The number of thousandths that the C library's `%.3f` prints for `v`:
`|v| * 1000` rounded to the nearest integer, a tie to the even one (the default
rounding mode). -/
def roundMilli (v : ℚ) : Nat :=
  let n : ℚ := abs v * 1000
  let fl : Nat := (Int.floor n).toNat
  if n - fl < 1 / 2 then fl
  else if 1 / 2 < n - fl then fl + 1
  else if fl % 2 = 0 then fl else fl + 1

/-- The digits and the decimal point that `%.3f` prints for `v`, without the
sign. -/
def fmtAbs (v : ℚ) : List Char :=
  decimal (roundMilli v / 1000) ++
    ['.', digit (roundMilli v / 100), digit (roundMilli v / 10), digit (roundMilli v)]

/-- The tokens of the printed tree, each with the whitespace that follows it;
`ws` is the whitespace after the last one. A negative constant prints as a `-`
and a number literal. -/
def Expr.ptoks : Expr → List Char → List (Terminal × List Char)
  | .null, _ => []
  | .node op x a b, ws =>
    match op with
    | .CONSTANT =>
      if x.getV < 0 then [(.minus, []), (.number (fmtAbs x.getV), ws)]
      else [(.number (fmtAbs x.getV), ws)]
    | .PLUS => (.lparen, []) :: (a.ptoks [' '] ++ (.plus, [' ']) :: (b.ptoks [] ++ [(.rparen, ws)]))
    | .MINUS => (.lparen, []) :: (a.ptoks [' '] ++ (.minus, [' ']) :: (b.ptoks [] ++ [(.rparen, ws)]))
    | .TIMES => (.lparen, []) :: (a.ptoks [' '] ++ (.star, [' ']) :: (b.ptoks [] ++ [(.rparen, ws)]))
    | .DIV => (.lparen, []) :: (a.ptoks [' '] ++ (.slash, [' ']) :: (b.ptoks [] ++ [(.rparen, ws)]))
    | .NEGATE => (.lparen, []) :: (.minus, [' ']) :: (a.ptoks [] ++ [(.rparen, ws)])
    | .SQRT => (.lparen, []) :: (.sqrt, [' ']) :: (a.ptoks [] ++ [(.rparen, ws)])
    | _ => []

/-- The tokens of the printed tree. -/
def Expr.toks (t : Expr) : List Terminal := (t.ptoks []).map Prod.fst

@[simp] theorem M.pure_apply {α : Type} (a : α) (s : Statics) : (pure a : M α) s = .ok a s := rfl

theorem M.bind_apply {α β : Type} (m : M α) (f : α → M β) (s : Statics) :
    (m >>= f) s = (match m s with
      | .ok a s1 => f a s1
      | .throw e s1 => .throw e s1
      | .oops => .oops
      | .timeout => .timeout) := rfl

theorem drop_cons_get {U : List Expr} {p : Nat} {tk : Expr} {rest : List Expr}
    (h : U.drop p = tk :: rest) : p < U.length ∧ U[p]? = some tk ∧ U.drop (p + 1) = rest := by
  have h1 : U[p]? = some tk := by
    have := List.getElem?_drop U p 0
    rw [h] at this
    simpa using this.symm
  refine ⟨?_, h1, ?_⟩
  · by_contra hc
    rw [List.drop_eq_nil_of_le (by omega)] at h
    cases h
  · rw [← List.tail_drop, h]; rfl

theorem Next_cons {U : List Expr} {p : Nat} {tk : Expr} {rest : List Expr}
    (opnds ops : List Expr) (h : U.drop p = tk :: rest) :
    Next ⟨U, p, opnds, ops⟩ = .ok tk ⟨U, p, opnds, ops⟩ := by
  obtain ⟨hp, h1, -⟩ := drop_cons_get h
  have h2 : ¬ (p ≥ U.length) := by omega
  simp only [Next, h2, if_false, List.getD_eq_getElem?_getD, h1, Option.getD_some]

theorem Next_nil {U : List Expr} {p : Nat} (opnds ops : List Expr)
    (h : U.drop p = []) :
    Next ⟨U, p, opnds, ops⟩ = .ok .null ⟨U, p, opnds, ops⟩ := by
  have h2 : p ≥ U.length := by simpa using h
  simp only [Next, h2, if_true]

theorem Consume_cons {U : List Expr} {p : Nat} {tk : Expr} {rest : List Expr}
    (opnds ops : List Expr) (h : U.drop p = tk :: rest) :
    Consume ⟨U, p, opnds, ops⟩ = .ok () ⟨U, p + 1, opnds, ops⟩ := by
  obtain ⟨hp, -, -⟩ := drop_cons_get h
  have h2 : ¬ (p ≥ U.length) := by omega
  simp only [Consume, h2, if_false]

theorem PushOperand_ok {opnds : List Expr} (U : List Expr) (p : Nat) (e : Expr)
    (ops : List Expr) (h : opnds.length < MAX_UNPARSED) :
    PushOperand e ⟨U, p, opnds, ops⟩ = .ok () ⟨U, p, e :: opnds, ops⟩ := by
  have h2 : ¬ (opnds.length ≥ MAX_UNPARSED) := by omega
  simp only [PushOperand, h2, if_false]

theorem PushOperator_ok {ops : List Expr} (U : List Expr) (p : Nat) (e : Expr)
    (opnds : List Expr) (h : ops.length < MAX_UNPARSED) :
    PushOperator e ⟨U, p, opnds, ops⟩ = .ok () ⟨U, p, opnds, e :: ops⟩ := by
  have h2 : ¬ (ops.length ≥ MAX_UNPARSED) := by omega
  simp only [PushOperator, h2, if_false]

theorem Precedence_eq (e : Expr) (s : Statics) :
    Precedence e s = (match prec e with
      | some k => .ok k s
      | none => .oops) := by
  cases e with
  | null => rfl
  | node op x a b =>
    simp only [Precedence, prec]
    split_ifs <;> rfl

/-- A unary operator token: tag `UNARY_OP` with character `n` or `s`. -/
theorem prec_unary {x : XUnion} (a b : Expr) (h : x.getC = 'n' ∨ x.getC = 's') :
    prec (.node .UNARY_OP x a b) = some 30 := by
  rcases h with h | h <;> simp [prec, h]

theorem prec_le_30 {e : Expr} {k : Int} (h : prec e = some k) : k ≤ 30 := by
  cases e with
  | null => simp [prec] at h
  | node op x a b =>
    simp only [prec] at h
    split_ifs at h <;> simp at h <;> omega

theorem prec_marker : prec marker = some (-1) := by simp [prec, marker]

/-- The operand that `Reduce` builds for a unary operator token. -/
theorem Reduce_unary {U : List Expr} {p : Nat} {x : XUnion} {a b t : Expr}
    {opnds ops : List Expr} (h : x.getC = 'n' ∨ x.getC = 's')
    (hcap : opnds.length < MAX_UNPARSED) :
    Reduce ⟨U, p, t :: opnds, .node .UNARY_OP x a b :: ops⟩ =
      .ok () ⟨U, p, (if x.getC = 'n' then t.Negate else t.Sqrt) :: opnds, ops⟩ := by
  rcases h with h | h <;>
    simp [Reduce, bind, M.bind, PopOperator, PopOperand, PushOperand_ok _ _ _ _ hcap, h]

/-- The tree tag `Reduce` chooses for a binary operator character. -/
theorem Reduce_binary {U : List Expr} {p : Nat} {x : XUnion} {op : Op} {a b t1 t2 : Expr}
    {opnds ops : List Expr}
    (h : x.getC = '+' ∨ x.getC = '-' ∨ x.getC = '*' ∨ x.getC = '/')
    (hcap : opnds.length < MAX_UNPARSED) :
    Reduce ⟨U, p, t2 :: t1 :: opnds, .node op x a b :: ops⟩ =
      .ok () ⟨U, p, t1.AnyOp (if x.getC = '+' then .PLUS else if x.getC = '-' then .MINUS
          else if x.getC = '*' then .TIMES else .DIV) t2 :: opnds, ops⟩ := by
  simp [Reduce, bind, M.bind, PopOperator, PopOperand, PushOperand_ok _ _ _ _ hcap, h]

theorem ReduceAndPush_oops {n : Expr} (s : Statics) (h : prec n = none) :
    ReduceAndPush n s = .oops := by
  simp [ReduceAndPush, bind, M.bind, ReduceWhile, Precedence_eq, h]

theorem ReduceAndPush_push {n top : Expr} {k kt : Int} {U : List Expr} {p : Nat}
    {opnds ops : List Expr} (hn : prec n = some k) (ht : prec top = some kt) (hlt : kt < k)
    (hcap : (top :: ops).length < MAX_UNPARSED) :
    ReduceAndPush n ⟨U, p, opnds, top :: ops⟩ = .ok () ⟨U, p, opnds, n :: top :: ops⟩ := by
  have h1 : ¬ (k ≤ kt) := by omega
  simp [ReduceAndPush, bind, M.bind, ReduceWhile, Precedence_eq, hn, ht, TopOperator, h1,
    PushOperator_ok _ _ _ _ hcap]

theorem ReduceAndPush_step {n top : Expr} {k kt : Int} {U : List Expr} {p : Nat}
    {opnds opnds' ops : List Expr} (hn : prec n = some k) (ht : prec top = some kt)
    (hle : k ≤ kt)
    (hR : Reduce ⟨U, p, opnds, top :: ops⟩ = .ok () ⟨U, p, opnds', ops⟩) :
    ReduceAndPush n ⟨U, p, opnds, top :: ops⟩ = ReduceAndPush n ⟨U, p, opnds', ops⟩ := by
  simp [ReduceAndPush, bind, M.bind, ReduceWhile, Precedence_eq, hn, ht, TopOperator, hle, hR]

theorem finishParse_step {top : Expr} {op : Op} {x : XUnion} {a b : Expr} {U : List Expr}
    {p : Nat} {opnds opnds' ops : List Expr} (htop : top = .node op x a b)
    (hop : op ≠ .ALL_RESOLVED)
    (hR : Reduce ⟨U, p, opnds, top :: ops⟩ = .ok () ⟨U, p, opnds', ops⟩) :
    finishParse ⟨U, p, opnds, top :: ops⟩ = finishParse ⟨U, p, opnds', ops⟩ := by
  subst htop
  simp [finishParse, bind, M.bind, Drain, TopOperator, hop, hR]

theorem finishParse_marker (U : List Expr) (p : Nat) (opnds ops : List Expr) :
    finishParse ⟨U, p, opnds, marker :: ops⟩ = .ok () ⟨U, p, opnds, ops⟩ := by
  simp [finishParse, bind, M.bind, Drain, TopOperator, marker, PopOperator]

/-- Reducing the top operator before looking at the next token changes nothing,
when the next token, if it is a binary operator, does not bind tighter than the
top operator. -/
theorem AfterThen_early (f : Nat) {top : Expr} {op : Op} {x : XUnion} {a b : Expr} {kt : Int}
    {U : List Expr} {p : Nat} {opnds opnds' ops : List Expr}
    (htop : top = .node op x a b) (hop : op ≠ .ALL_RESOLVED) (ht : prec top = some kt)
    (hR : Reduce ⟨U, p, opnds, top :: ops⟩ = .ok () ⟨U, p, opnds', ops⟩)
    (hnext : ∀ xn an bn rest k, U.drop p = .node .BINARY_OP xn an bn :: rest →
      prec (.node .BINARY_OP xn an bn) = some k → k ≤ kt) :
    AfterThen f ⟨U, p, opnds, top :: ops⟩ = AfterThen f ⟨U, p, opnds', ops⟩ := by
  have hfin := finishParse_step htop hop hR
  unfold AfterThen AfterOperand
  cases hd : U.drop p with
  | nil =>
    simp only [bind, M.bind, Next_nil _ _ hd]
    exact hfin
  | cons n rest =>
    cases n with
    | null =>
      simp only [bind, M.bind, Next_cons _ _ hd]
      exact hfin
    | node opn xn an bn =>
      by_cases hb : opn = .BINARY_OP
      · subst hb
        cases hk : prec (.node .BINARY_OP xn an bn) with
        | none => simp [bind, M.bind, Next_cons _ _ hd, ReduceAndPush_oops _ hk]
        | some k =>
          have hle := hnext xn an bn rest k hd hk
          simp only [bind, M.bind, Next_cons _ _ hd, if_true,
            ReduceAndPush_step hk ht hle hR]
      · simp only [bind, M.bind, Next_cons _ _ hd, hb, if_false]
        exact hfin

theorem Parse_succ (f : Nat) (s : Statics) :
    Parse (f + 1) s = (PushOperator marker >>= fun _ => LoopThen f) s := by
  rw [Parse]
  rfl

theorem LoopThen_end (f : Nat) {U : List Expr} {p : Nat} (opnds ops : List Expr)
    (h : U.drop p = []) :
    LoopThen (f + 1) ⟨U, p, opnds, ops⟩ =
      .throw "end of expression unexpected" ⟨U, p, opnds, ops⟩ := by
  unfold LoopThen
  rw [ParseLoop]
  simp [bind, M.bind, Next_nil _ _ h, raise]

theorem LoopThen_const (f : Nat) {U : List Expr} {p : Nat} {x : XUnion} {a b : Expr}
    {rest opnds : List Expr} (ops : List Expr)
    (h : U.drop p = .node .CONSTANT x a b :: rest) (hcap : opnds.length < MAX_UNPARSED) :
    LoopThen (f + 1) ⟨U, p, opnds, ops⟩ =
      AfterThen f ⟨U, p + 1, .node .CONSTANT x a b :: opnds, ops⟩ := by
  unfold LoopThen AfterThen
  rw [ParseLoop]
  simp [bind, M.bind, Next_cons _ _ h, PushOperand_ok _ _ _ _ hcap, Consume_cons _ _ h]

theorem LoopThen_unary (f : Nat) {U : List Expr} {p : Nat} {x : XUnion} {a b : Expr}
    {rest ops : List Expr} (opnds : List Expr)
    (h : U.drop p = .node .UNARY_OP x a b :: rest) (hcap : ops.length < MAX_UNPARSED) :
    LoopThen (f + 1) ⟨U, p, opnds, ops⟩ =
      LoopThen f ⟨U, p + 1, opnds, .node .UNARY_OP x a b :: ops⟩ := by
  unfold LoopThen
  rw [ParseLoop]
  simp [bind, M.bind, Next_cons _ _ h, PushOperator_ok _ _ _ _ hcap, Consume_cons _ _ h]

theorem Consume_set {U : List Expr} {p : Nat} {tk : Expr} {rest : List Expr}
    (n : Expr) (opnds ops : List Expr) (h : U.drop p = tk :: rest) :
    Consume ⟨U.set p n, p, opnds, ops⟩ = .ok () ⟨U.set p n, p + 1, opnds, ops⟩ := by
  obtain ⟨hp, -, -⟩ := drop_cons_get h
  have h2 : ¬ (p ≥ (U.set p n).length) := by simp; omega
  simp only [Consume, h2, if_false]

theorem LoopThen_minus (f : Nat) {U : List Expr} {p : Nat} {x : XUnion} {a b : Expr}
    {rest ops : List Expr} (opnds : List Expr)
    (h : U.drop p = .node .BINARY_OP x a b :: rest) (hx : x.getC = '-')
    (hcap : ops.length < MAX_UNPARSED) :
    LoopThen (f + 1) ⟨U, p, opnds, ops⟩ =
      LoopThen f ⟨U.set p (.node .UNARY_OP (.c 'n') a b), p + 1, opnds,
        .node .UNARY_OP (.c 'n') a b :: ops⟩ := by
  unfold LoopThen
  rw [ParseLoop]
  simp [bind, M.bind, Next_cons _ _ h, PushOperator_ok _ _ _ _ hcap, Consume_set _ _ _ h,
    Retag, hx]

theorem AfterThen_push (f : Nat) {n top : Expr} {xn : XUnion} {an bn : Expr} {k kt : Int}
    {U : List Expr} {p : Nat} {rest : List Expr} (opnds ops : List Expr)
    (hd : U.drop p = n :: rest) (hn : n = .node .BINARY_OP xn an bn)
    (hk : prec n = some k) (ht : prec top = some kt) (hlt : kt < k)
    (hcap : (top :: ops).length < MAX_UNPARSED) :
    AfterThen f ⟨U, p, opnds, top :: ops⟩ = LoopThen f ⟨U, p + 1, opnds, n :: top :: ops⟩ := by
  subst hn
  unfold AfterThen LoopThen AfterOperand
  simp [bind, M.bind, Next_cons _ _ hd, ReduceAndPush_push hk ht hlt hcap, Consume_cons _ _ hd]

theorem AfterThen_close_nil (f : Nat) {U : List Expr} {p : Nat} (opnds ops : List Expr)
    (hd : U.drop p = []) :
    AfterThen f ⟨U, p, opnds, marker :: ops⟩ = .ok () ⟨U, p, opnds, ops⟩ := by
  unfold AfterThen AfterOperand
  simp only [bind, M.bind, Next_nil _ _ hd]
  exact finishParse_marker U p opnds ops

theorem AfterThen_close_cons (f : Nat) {U : List Expr} {p : Nat} {op : Op} {x : XUnion}
    {a b : Expr} {rest : List Expr} (opnds ops : List Expr)
    (hd : U.drop p = .node op x a b :: rest) (hop : op ≠ .BINARY_OP) :
    AfterThen f ⟨U, p, opnds, marker :: ops⟩ = .ok () ⟨U, p, opnds, ops⟩ := by
  unfold AfterThen AfterOperand
  simp only [bind, M.bind, Next_cons _ _ hd, hop, if_false]
  exact finishParse_marker U p opnds ops

theorem LoopThen_lparen (f : Nat) {U U' : List Expr} {p p' : Nat} {x x' : XUnion}
    {a b a' b' : Expr} {rest rest' opnds ops opnds' ops' : List Expr}
    (h : U.drop p = .node .PAREN x a b :: rest) (hx : x.getC = '(')
    (hP : Parse f ⟨U, p + 1, opnds, ops⟩ = .ok () ⟨U', p', opnds', ops'⟩)
    (h' : U'.drop p' = .node .PAREN x' a' b' :: rest') (hx' : x'.getC = ')') :
    LoopThen (f + 1) ⟨U, p, opnds, ops⟩ = AfterThen f ⟨U', p' + 1, opnds', ops'⟩ := by
  unfold LoopThen AfterThen
  rw [ParseLoop]
  simp [bind, M.bind, Next_cons _ _ h, Consume_cons _ _ h, hx, hP, Next_cons _ _ h',
    Consume_cons _ _ h', hx']

theorem ReadsAs_number {lit : List Char} :
    ReadsAs .factor [.number lit] (Expr.FromConstant (atof lit)) := by
  intro U p opnds ops rest f hd _ _ hf hc1 _
  obtain ⟨f0, rfl⟩ : ∃ f0, f = f0 + 1 := ⟨f - 1, by omega⟩
  simp only [List.map_cons, List.map_nil, List.singleton_append, Terminal.tok] at hd
  simp only [List.length_singleton] at hc1 hf ⊢
  refine ⟨U, f0, rfl, (drop_cons_get hd).2.2, by omega, ?_⟩
  exact LoopThen_const f0 ops hd (by omega)

/-- A parenthesized group: the nested call of `Parse` reads the expression and
returns at the closing parenthesis. -/
theorem ReadsAs_group {ts : List Terminal} {t : Expr} (ih : ReadsAs .expr ts t)
    (U : List Expr) (p : Nat) (opnds ops rest : List Expr) (f : Nat)
    (hd : U.drop p = Terminal.tok .lparen :: (ts.map Terminal.tok ++ Terminal.tok .rparen :: rest))
    (hf : 2 * (ts.length + 2 + rest.length) + 1 ≤ f)
    (hc1 : opnds.length + ts.length + 2 ≤ MAX_UNPARSED)
    (hc2 : ops.length + ts.length + 2 ≤ MAX_UNPARSED) :
    ∃ U' f', U'.length = U.length ∧ U'.drop (p + ts.length + 2) = rest ∧
      2 * rest.length ≤ f' ∧
      LoopThen f ⟨U, p, opnds, ops⟩ = AfterThen f' ⟨U', p + ts.length + 2, t :: opnds, ops⟩ := by
  obtain ⟨f1, rfl⟩ : ∃ f1, f = f1 + 1 + 1 := ⟨f - 2, by omega⟩
  have hd1 := (drop_cons_get hd).2.2
  have hR : RestOK .expr (Terminal.tok .rparen :: rest) := by
    intro x a b r k h
    simp [Terminal.tok] at h
  have hT : TopOK .expr (marker :: ops) := ⟨marker, ops, -1, rfl, prec_marker, by omega⟩
  obtain ⟨U1, f1', hl1, hdrop1, -, he1⟩ := ih U (p + 1) opnds (marker :: ops)
    (Terminal.tok .rparen :: rest) f1 hd1 hR hT
    (by simp only [List.length_cons]; omega) (by omega)
    (by simp only [List.length_cons]; omega)
  have hP : Parse (f1 + 1) ⟨U, p + 1, opnds, ops⟩ =
      .ok () ⟨U1, p + 1 + ts.length, t :: opnds, ops⟩ := by
    rw [Parse_succ, M.bind_apply, PushOperator_ok _ _ _ _ (by omega)]
    simp only
    rw [he1]
    exact AfterThen_close_cons f1' (t :: opnds) ops hdrop1 (by decide)
  have e : p + 1 + ts.length + 1 = p + ts.length + 2 := by omega
  refine ⟨U1, f1 + 1, hl1, ?_, by omega, ?_⟩
  · rw [← e]; exact (drop_cons_get hdrop1).2.2
  · rw [← e]
    exact LoopThen_lparen (f1 + 1) hd rfl hP hdrop1 rfl

theorem ReadsAs_paren {ts : List Terminal} {t : Expr} (ih : ReadsAs .expr ts t) :
    ReadsAs .factor (.lparen :: ts ++ [.rparen]) t := by
  intro U p opnds ops rest f hd _ _ hf hc1 hc2
  have hlen : (Terminal.lparen :: ts ++ [Terminal.rparen]).length = ts.length + 2 := by simp
  rw [hlen] at hf hc1 hc2 ⊢
  have hd0 : U.drop p = Terminal.tok .lparen ::
      (ts.map Terminal.tok ++ Terminal.tok .rparen :: rest) := by
    rw [hd]; simp
  exact ReadsAs_group ih U p opnds ops rest f hd0 (by omega) (by omega) (by omega)

/-- A prefix operator in front of a phrase: the operator waits on the operator
stack while the phrase is read, and is reduced before the next token counts. -/
theorem AfterThen_unary (f : Nat) {x : XUnion} {a b t : Expr}
    {U : List Expr} {p : Nat} {opnds ops : List Expr}
    (h : x.getC = 'n' ∨ x.getC = 's') (hcap : opnds.length < MAX_UNPARSED) :
    AfterThen f ⟨U, p, t :: opnds, .node .UNARY_OP x a b :: ops⟩ =
      AfterThen f ⟨U, p, (if x.getC = 'n' then t.Negate else t.Sqrt) :: opnds, ops⟩ :=
  AfterThen_early f rfl (by decide) (prec_unary a b h) (Reduce_unary h hcap)
    (fun _ _ _ _ _ _ hk => prec_le_30 hk)

theorem ReadsAs_negate {ts : List Terminal} {t : Expr} (ih : ReadsAs .factor ts t) :
    ReadsAs .factor (.minus :: ts) t.Negate := by
  intro U p opnds ops rest f hd _ _ hf hc1 hc2
  obtain ⟨f0, rfl⟩ : ∃ f0, f = f0 + 1 := ⟨f - 1, by omega⟩
  have hlen : (Terminal.minus :: ts).length = ts.length + 1 := by simp
  rw [hlen] at hf hc1 hc2 ⊢
  have hd0 : U.drop p = .node .BINARY_OP (.c '-') .null .null ::
      (ts.map Terminal.tok ++ rest) := hd
  have hd1 : (U.set p (.node .UNARY_OP (.c 'n') .null .null)).drop (p + 1) =
      ts.map Terminal.tok ++ rest := by
    rw [List.drop_set_of_lt _ _ (by omega)]
    exact (drop_cons_get hd0).2.2
  obtain ⟨U1, f1, hl1, hdrop1, hf1, he1⟩ := ih _ (p + 1) opnds
    (.node .UNARY_OP (.c 'n') .null .null :: ops) rest f0 hd1 trivial trivial
    (by omega) (by omega) (by simp only [List.length_cons]; omega)
  have e : p + 1 + ts.length = p + (ts.length + 1) := by omega
  refine ⟨U1, f1, by rw [hl1, List.length_set], by rw [← e]; exact hdrop1, hf1, ?_⟩
  rw [LoopThen_minus f0 opnds hd0 rfl (by omega), he1, ← e]
  exact AfterThen_unary f1 (x := .c 'n') (Or.inl rfl) (by omega)

theorem ReadsAs_sqrt {ts : List Terminal} {t : Expr} (ih : ReadsAs .expr ts t) :
    ReadsAs .factor (.sqrt :: .lparen :: ts ++ [.rparen]) t.Sqrt := by
  intro U p opnds ops rest f hd _ _ hf hc1 hc2
  obtain ⟨f0, rfl⟩ : ∃ f0, f = f0 + 1 := ⟨f - 1, by omega⟩
  have hlen : (Terminal.sqrt :: Terminal.lparen :: ts ++ [Terminal.rparen]).length = ts.length + 3 := by simp
  rw [hlen] at hf hc1 hc2 ⊢
  have hd0 : U.drop p = .node .UNARY_OP (.c 's') .null .null :: Terminal.tok .lparen ::
      (ts.map Terminal.tok ++ Terminal.tok .rparen :: rest) := by
    rw [hd]; simp [Terminal.tok]
  have hd1 := (drop_cons_get hd0).2.2
  obtain ⟨U1, f1, hl1, hdrop1, hf1, he1⟩ := ReadsAs_group ih U (p + 1) opnds
    (.node .UNARY_OP (.c 's') .null .null :: ops) rest f0 hd1 (by omega) (by omega)
    (by simp only [List.length_cons]; omega)
  have e : p + 1 + ts.length + 2 = p + (ts.length + 3) := by omega
  refine ⟨U1, f1, hl1, by rw [← e]; exact hdrop1, hf1, ?_⟩
  rw [LoopThen_unary f0 opnds hd0 (by omega), he1, ← e]
  exact AfterThen_unary f1 (x := .c 's') (Or.inr rfl) (by omega)

/-- A binary operator between two phrases: the operator is pushed after the left
phrase, waits while the right phrase is read, and is reduced before the next
token counts. -/
theorem ReadsAs_binary {c1 c2 : Cat} {ts1 ts2 : List Terminal} {t1 t2 : Expr}
    (bt : Terminal) (ch : Char) (kb : Int)
    (ih1 : ReadsAs c1 ts1 t1) (ih2 : ReadsAs c2 ts2 t2)
    (hbt : bt.tok = .node .BINARY_OP (.c ch) .null .null)
    (hch : ch = '+' ∨ ch = '-' ∨ ch = '*' ∨ ch = '/')
    (hkb : prec bt.tok = some kb)
    (U : List Expr) (p : Nat) (opnds ops rest : List Expr) (f : Nat)
    (hd : U.drop p = (ts1 ++ bt :: ts2).map Terminal.tok ++ rest)
    (hrest : ∀ x a b r k, rest = .node .BINARY_OP x a b :: r →
      prec (.node .BINARY_OP x a b) = some k → k ≤ kb)
    (htop : ∃ top r kt, ops = top :: r ∧ prec top = some kt ∧ kt < kb)
    (hT1 : TopOK c1 ops) (hR1 : RestOK c1 (bt.tok :: (ts2.map Terminal.tok ++ rest)))
    (hT2 : TopOK c2 (bt.tok :: ops)) (hR2 : RestOK c2 rest)
    (hf : 2 * ((ts1 ++ bt :: ts2).length + rest.length) + 1 ≤ f)
    (hc1 : opnds.length + (ts1 ++ bt :: ts2).length ≤ MAX_UNPARSED)
    (hc2 : ops.length + (ts1 ++ bt :: ts2).length ≤ MAX_UNPARSED) :
    ∃ U' f', U'.length = U.length ∧ U'.drop (p + (ts1 ++ bt :: ts2).length) = rest ∧
      2 * rest.length ≤ f' ∧
      LoopThen f ⟨U, p, opnds, ops⟩ =
        AfterThen f' ⟨U', p + (ts1 ++ bt :: ts2).length,
          t1.AnyOp (if ch = '+' then .PLUS else if ch = '-' then .MINUS
            else if ch = '*' then .TIMES else .DIV) t2 :: opnds, ops⟩ := by
  have hlen : (ts1 ++ bt :: ts2).length = ts1.length + 1 + ts2.length := by
    simp; omega
  rw [hlen] at hf hc1 hc2 ⊢
  have hd0 : U.drop p = ts1.map Terminal.tok ++ (bt.tok :: (ts2.map Terminal.tok ++ rest)) := by
    rw [hd]; simp
  obtain ⟨U1, f1, hl1, hdrop1, hf1, he1⟩ := ih1 U p opnds ops _ f hd0 hR1 hT1
    (by simp only [List.length_cons, List.length_append, List.length_map]; omega)
    (by omega) (by omega)
  simp only [List.length_cons, List.length_append, List.length_map] at hf1
  obtain ⟨top, r, kt, rfl, hkt, hlt⟩ := htop
  simp only [List.length_cons] at hc2
  have hpush := AfterThen_push f1 (t1 :: opnds) r hdrop1 hbt hkb hkt hlt
    (by simp only [List.length_cons]; omega)
  obtain ⟨U2, f2, hl2, hdrop2, hf2, he2⟩ := ih2 U1 (p + ts1.length + 1) (t1 :: opnds)
    (bt.tok :: top :: r) rest f1 (drop_cons_get hdrop1).2.2 hR2 hT2 (by omega)
    (by simp only [List.length_cons]; omega) (by simp only [List.length_cons]; omega)
  have e : p + ts1.length + 1 + ts2.length = p + (ts1.length + 1 + ts2.length) := by omega
  refine ⟨U2, f2, by rw [hl2, hl1], by rw [← e]; exact hdrop2, hf2, ?_⟩
  rw [he1, hpush, he2, ← e]
  have hred := @Reduce_binary U2 (p + ts1.length + 1 + ts2.length) (.c ch) .BINARY_OP .null
    .null t1 t2 opnds (top :: r) hch (by omega)
  rw [← hbt] at hred
  refine AfterThen_early f2 hbt (by decide) hkb hred ?_
  intro xn an bn rest' k hdn hk
  exact hrest xn an bn rest' k (hdrop2.symm.trans hdn) hk

theorem readsAs_of_derives {c : Cat} {toks : List Terminal} {t : Expr}
    (h : Derives c toks t) : ReadsAs c toks t := by
  induction h with
  | number _ => exact ReadsAs_number
  | paren _ ih => exact ReadsAs_paren ih
  | negate _ ih => exact ReadsAs_negate ih
  | sqrt _ ih => exact ReadsAs_sqrt ih
  | factor _ ih =>
    intro U p opnds ops rest f hd _ _ hf hc1 hc2
    exact ih U p opnds ops rest f hd trivial trivial hf hc1 hc2
  | times _ _ ih1 ih2 =>
    intro U p opnds ops rest f hd hR hT hf hc1 hc2
    exact ReadsAs_binary .star '*' 20 ih1 ih2 rfl (by decide) (by decide)
      U p opnds ops rest f hd hR hT hT
      (by intro x a b r k h hk; simp [Terminal.tok] at h; obtain ⟨⟨rfl, rfl, rfl⟩, -⟩ := h
          simp [prec, XUnion.getC] at hk; omega)
      trivial trivial hf hc1 hc2
  | div _ _ ih1 ih2 =>
    intro U p opnds ops rest f hd hR hT hf hc1 hc2
    exact ReadsAs_binary .slash '/' 20 ih1 ih2 rfl (by decide) (by decide)
      U p opnds ops rest f hd hR hT hT
      (by intro x a b r k h hk; simp [Terminal.tok] at h; obtain ⟨⟨rfl, rfl, rfl⟩, -⟩ := h
          simp [prec, XUnion.getC] at hk; omega)
      trivial trivial hf hc1 hc2
  | term _ ih =>
    intro U p opnds ops rest f hd hR hT hf hc1 hc2
    refine ih U p opnds ops rest f hd ?_ ?_ hf hc1 hc2
    · intro x a b r k h hk
      have := hR x a b r k h hk
      omega
    · obtain ⟨top, r, kt, h1, h2, h3⟩ := hT
      exact ⟨top, r, kt, h1, h2, by omega⟩
  | plus _ _ ih1 ih2 =>
    intro U p opnds ops rest f hd hR hT hf hc1 hc2
    exact ReadsAs_binary .plus '+' 10 ih1 ih2 rfl (by decide) (by decide)
      U p opnds ops rest f hd hR hT hT
      (by intro x a b r k h hk; simp [Terminal.tok] at h; obtain ⟨⟨rfl, rfl, rfl⟩, -⟩ := h
          simp [prec, XUnion.getC] at hk; omega)
      ⟨_, _, 10, rfl, by decide, by omega⟩
      (by intro x a b r k h hk; have := hR x a b r k h hk; omega)
      hf hc1 hc2
  | minus _ _ ih1 ih2 =>
    intro U p opnds ops rest f hd hR hT hf hc1 hc2
    exact ReadsAs_binary .minus '-' 10 ih1 ih2 rfl (by decide) (by decide)
      U p opnds ops rest f hd hR hT hT
      (by intro x a b r k h hk; simp [Terminal.tok] at h; obtain ⟨⟨rfl, rfl, rfl⟩, -⟩ := h
          simp [prec, XUnion.getC] at hk; omega)
      ⟨_, _, 10, rfl, by decide, by omega⟩
      (by intro x a b r k h hk; have := hR x a b r k h hk; omega)
      hf hc1 hc2

/-! ## The lexer on the text of a derivation -/

theorem scanNumber_append (lit rest : List Char) (k : Nat)
    (hall : lit.all (fun c => isdigit c || c == '.') = true)
    (hk : k + lit.length ≤ 30) (hrest : delim rest = true) :
    scanNumber (lit ++ rest) k = (lit, rest) := by
  induction lit generalizing k with
  | nil =>
    cases rest with
    | nil => rfl
    | cons c cs =>
      simp only [delim, Bool.not_eq_true', Bool.or_eq_false_iff] at hrest
      simp [scanNumber, hrest.1.1, hrest.1.2]
  | cons c cs ih =>
    simp only [List.all_cons, Bool.and_eq_true] at hall
    simp only [List.length_cons] at hk
    have h30 : k < 30 := by omega
    have := ih (k + 1) hall.2 (by omega)
    simp [scanNumber, hall.1, h30, this]

theorem Lex_number (f : Nat) (lit rest : List Char) (U : List Expr) (p : Nat)
    (opnds ops : List Expr) (hnum : isNumber lit = true) (hlen : lit.length ≤ 30)
    (hrest : delim rest = true) (hU : U.length < MAX_UNPARSED) :
    Lex (f + 1) (lit ++ rest) ⟨U, p, opnds, ops⟩ =
      Lex f rest ⟨U ++ [Terminal.tok (.number lit)], p, opnds, ops⟩ := by
  simp only [isNumber, Bool.and_eq_true, Bool.not_eq_true', List.isEmpty_eq_false] at hnum
  cases lit with
  | nil => simp at hnum
  | cons c cs =>
    have hs := scanNumber_append (c :: cs) rest 0 hnum.2 (by omega) hrest
    have hc : (isdigit c || c == '.') = true := by
      have := hnum.2
      simp only [List.all_cons, Bool.and_eq_true] at this
      exact this.1
    have hU' : ¬ (U.length ≥ MAX_UNPARSED) := by omega
    simp only [List.cons_append] at hs ⊢
    rw [Lex]
    simp only [bind, M.bind, hU', if_false, hc, if_true, hs, Emit, Terminal.tok]

theorem Lex_op (f : Nat) (tm : Terminal) (rest : List Char) (U : List Expr) (p : Nat)
    (opnds ops : List Expr)
    (htm : tm = .plus ∨ tm = .minus ∨ tm = .star ∨ tm = .slash ∨ tm = .lparen ∨ tm = .rparen)
    (hU : U.length < MAX_UNPARSED) :
    Lex (f + 1) (tm.spell ++ rest) ⟨U, p, opnds, ops⟩ =
      Lex f rest ⟨U ++ [tm.tok], p, opnds, ops⟩ := by
  have hU' : ¬ (U.length ≥ MAX_UNPARSED) := by omega
  rcases htm with rfl | rfl | rfl | rfl | rfl | rfl <;>
  · simp only [Terminal.spell, List.cons_append, List.nil_append]
    rw [Lex]
    simp [bind, M.bind, hU', Emit, Terminal.tok, isdigit, isalpha]

theorem Lex_sqrt (f : Nat) (rest : List Char) (U : List Expr) (p : Nat)
    (opnds ops : List Expr) (hrest : delim rest = true) (hU : U.length < MAX_UNPARSED) :
    Lex (f + 1) (Terminal.spell .sqrt ++ rest) ⟨U, p, opnds, ops⟩ =
      Lex f rest ⟨U ++ [Terminal.tok .sqrt], p, opnds, ops⟩ := by
  have hU' : ¬ (U.length ≥ MAX_UNPARSED) := by omega
  have hs : scanName ('s' :: 'q' :: 'r' :: 't' :: rest) 0 = (['s', 'q', 'r', 't'], rest) := by
    have h4 : scanName rest 4 = ([], rest) := by
      cases rest with
      | nil => rfl
      | cons c cs =>
        simp only [delim, Bool.not_eq_true', Bool.or_eq_false_iff] at hrest
        simp [scanName, hrest.2]
    have e1 : isforname 's' = true := by decide
    have e2 : isforname 'q' = true := by decide
    have e3 : isforname 'r' = true := by decide
    have e4 : isforname 't' = true := by decide
    simp [scanName, e1, e2, e3, e4, h4]
  have d1 : isdigit 's' = false := by decide
  have a1 : isalpha 's' = true := by decide
  simp only [Terminal.spell, List.cons_append, List.nil_append]
  rw [Lex]
  simp [bind, M.bind, hU', Emit, Terminal.tok, d1, a1, hs]

theorem spellAll_append (a b : List Terminal) : spellAll (a ++ b) = spellAll a ++ spellAll b := by
  induction a with
  | nil => rfl
  | cons t ts ih => simp [spellAll, ih]

theorem LexesAs_nil : LexesAs [] := by
  intro rest U p opnds ops f _ _ hf
  exact ⟨f, by simpa [spellAll] using hf, by simp [spellAll]⟩

theorem delim_op (tm : Terminal) (rest : List Char)
    (htm : tm = .plus ∨ tm = .minus ∨ tm = .star ∨ tm = .slash ∨ tm = .lparen ∨ tm = .rparen) :
    delim (tm.spell ++ rest) = true := by
  rcases htm with rfl | rfl | rfl | rfl | rfl | rfl <;> rfl

theorem LexesAs_number {lit : List Char} (hnum : isNumber lit = true) (hlen : lit.length ≤ 30) :
    LexesAs [.number lit] := by
  intro rest U p opnds ops f hdelim hcap hf
  have hpos : 0 < lit.length := by
    cases lit with
    | nil => simp [isNumber] at hnum
    | cons c cs => simp
  simp only [spellAll, Terminal.spell, List.append_nil, List.length_append,
    List.length_singleton] at hf hcap ⊢
  obtain ⟨f0, rfl⟩ : ∃ f0, f = f0 + 1 := ⟨f - 1, by omega⟩
  refine ⟨f0, by omega, ?_⟩
  rw [Lex_number f0 lit rest U p opnds ops hnum hlen hdelim (by omega)]
  simp

theorem LexesAs_op_cons {tm : Terminal} {ts : List Terminal}
    (htm : tm = .plus ∨ tm = .minus ∨ tm = .star ∨ tm = .slash ∨ tm = .lparen ∨ tm = .rparen)
    (ih : LexesAs ts) : LexesAs (tm :: ts) := by
  intro rest U p opnds ops f hdelim hcap hf
  have hsp : 0 < tm.spell.length := by
    rcases htm with rfl | rfl | rfl | rfl | rfl | rfl <;> simp [Terminal.spell]
  simp only [spellAll, List.append_assoc, List.length_append, List.length_cons] at hf hcap ⊢
  obtain ⟨f0, rfl⟩ : ∃ f0, f = f0 + 1 := ⟨f - 1, by omega⟩
  obtain ⟨f1, hf1, he1⟩ := ih rest (U ++ [tm.tok]) p opnds ops f0 hdelim
    (by simp only [List.length_append, List.length_singleton]; omega)
    (by simp only [List.length_append]; omega)
  refine ⟨f1, hf1, ?_⟩
  rw [Lex_op f0 tm _ U p opnds ops htm (by omega), he1]
  simp

theorem LexesAs_sqrt_cons {ts : List Terminal} (ih : LexesAs (.lparen :: ts)) :
    LexesAs (.sqrt :: .lparen :: ts) := by
  intro rest U p opnds ops f hdelim hcap hf
  have e : spellAll (.sqrt :: .lparen :: ts) ++ rest =
      Terminal.spell .sqrt ++ (spellAll (.lparen :: ts) ++ rest) := by
    simp [spellAll]
  rw [e] at hf ⊢
  simp only [List.length_append, List.length_cons, Terminal.spell, List.length_nil] at hf hcap
  obtain ⟨f0, rfl⟩ : ∃ f0, f = f0 + 1 := ⟨f - 1, by omega⟩
  obtain ⟨f1, hf1, he1⟩ := ih rest (U ++ [Terminal.tok .sqrt]) p opnds ops f0 hdelim
    (by simp only [List.length_append, List.length_cons, List.length_nil]; omega)
    (by simp only [List.length_append]; omega)
  refine ⟨f1, hf1, ?_⟩
  rw [Lex_sqrt f0 _ U p opnds ops (by rfl) (by omega), he1]
  simp

theorem LexesAs_append_op (tm : Terminal) {ts1 ts2 : List Terminal}
    (htm : tm = .plus ∨ tm = .minus ∨ tm = .star ∨ tm = .slash ∨ tm = .lparen ∨ tm = .rparen)
    (ih1 : LexesAs ts1) (ih2 : LexesAs ts2) : LexesAs (ts1 ++ tm :: ts2) := by
  intro rest U p opnds ops f hdelim hcap hf
  have e : spellAll (ts1 ++ tm :: ts2) ++ rest = spellAll ts1 ++ (spellAll (tm :: ts2) ++ rest) := by
    rw [spellAll_append, List.append_assoc]
  rw [e] at hf ⊢
  simp only [List.length_append, List.length_cons] at hcap
  have hd1 : delim (spellAll (tm :: ts2) ++ rest) = true := by
    simp only [spellAll, List.append_assoc]
    exact delim_op tm _ htm
  obtain ⟨f1, hf1, he1⟩ := ih1 _ U p opnds ops f hd1 (by omega) hf
  obtain ⟨f2, hf2, he2⟩ := LexesAs_op_cons htm ih2 rest (U ++ ts1.map Terminal.tok) p opnds ops
    f1 hdelim (by simp only [List.length_append, List.length_map, List.length_cons]; omega) hf1
  refine ⟨f2, hf2, ?_⟩
  rw [he1, he2]
  simp

theorem lexesAs_of_derives {c : Cat} {toks : List Terminal} {t : Expr}
    (h : Derives c toks t) :
    (∀ tm ∈ toks, Terminal.longerThan 30 tm = false) → LexesAs toks := by
  induction h with
  | @number lit hn =>
    intro hb
    have := hb (.number lit) (by simp)
    simp only [Terminal.longerThan, decide_eq_false_iff_not, not_lt] at this
    exact LexesAs_number hn this
  | paren _ ih =>
    intro hb
    have hts := ih (fun tm hm => hb tm (by simp [hm]))
    exact LexesAs_op_cons (by simp) (LexesAs_append_op .rparen (by simp) hts LexesAs_nil)
  | negate _ ih =>
    intro hb
    exact LexesAs_op_cons (by simp) (ih (fun tm hm => hb tm (by simp [hm])))
  | sqrt _ ih =>
    intro hb
    have hts := ih (fun tm hm => hb tm (by simp [hm]))
    exact LexesAs_sqrt_cons
      (LexesAs_op_cons (by simp) (LexesAs_append_op .rparen (by simp) hts LexesAs_nil))
  | factor _ ih => exact ih
  | times _ _ ih1 ih2 =>
    intro hb
    exact LexesAs_append_op _ (by simp) (ih1 (fun tm hm => hb tm (by simp [hm])))
      (ih2 (fun tm hm => hb tm (by simp [hm])))
  | div _ _ ih1 ih2 =>
    intro hb
    exact LexesAs_append_op _ (by simp) (ih1 (fun tm hm => hb tm (by simp [hm])))
      (ih2 (fun tm hm => hb tm (by simp [hm])))
  | term _ ih => exact ih
  | plus _ _ ih1 ih2 =>
    intro hb
    exact LexesAs_append_op _ (by simp) (ih1 (fun tm hm => hb tm (by simp [hm])))
      (ih2 (fun tm hm => hb tm (by simp [hm])))
  | minus _ _ ih1 ih2 =>
    intro hb
    exact LexesAs_append_op _ (by simp) (ih1 (fun tm hm => hb tm (by simp [hm])))
      (ih2 (fun tm hm => hb tm (by simp [hm])))

theorem Lex_nil (f : Nat) (s : Statics) : Lex f [] s = .ok () s := by
  cases f <;> simp [Lex]

/-- The lexer on the whole text of a derivation, from an empty token array. -/
theorem Lex_of_derives {c : Cat} {toks : List Terminal} {t : Expr} (h : Derives c toks t)
    (hlen : toks.length ≤ MAX_UNPARSED)
    (hb : ∀ tm ∈ toks, Terminal.longerThan 30 tm = false) (p : Nat) (opnds ops : List Expr) :
    Lex (spellAll toks).length (spellAll toks) ⟨[], p, opnds, ops⟩ =
      .ok () ⟨toks.map Terminal.tok, p, opnds, ops⟩ := by
  obtain ⟨f', -, he⟩ := lexesAs_of_derives h hb [] [] p opnds ops (spellAll toks).length rfl
    (by simpa using hlen) (by simp)
  simp only [List.append_nil, List.nil_append] at he
  rw [he, Lex_nil]

/-- The parser on the tokens of an expression derivation, from empty stacks. -/
theorem Parse_of_derives {toks : List Terminal} {t : Expr} (h : Derives .expr toks t)
    (hlen : toks.length < MAX_UNPARSED) :
    ∃ U', U'.length = toks.length ∧
      Parse (2 * toks.length + 2) ⟨toks.map Terminal.tok, 0, [], []⟩ =
        .ok () ⟨U', toks.length, [t], []⟩ := by
  have hR : RestOK .expr [] := by
    intro x a b r k h
    cases h
  have hT : TopOK .expr [marker] := ⟨marker, [], -1, rfl, prec_marker, by omega⟩
  obtain ⟨U', f', hl, hdrop, -, he⟩ := readsAs_of_derives h (toks.map Terminal.tok) 0 [] [marker]
    [] (2 * toks.length + 1) (by simp) hR hT (by simp) (by simp; omega)
    (by simp only [List.length_cons, List.length_nil]; omega)
  refine ⟨U', by simpa using hl, ?_⟩
  rw [Parse_succ, M.bind_apply, PushOperator_ok _ _ _ _ (by simp [MAX_UNPARSED])]
  simp only
  rw [he]
  simp only [Nat.zero_add] at hdrop ⊢
  exact AfterThen_close_nil f' [t] [] hdrop

/-- The `try` block on the text of an expression derivation with fewer than
`MAX_UNPARSED` tokens and literals of at most 30 characters, entered with empty
arrays and the cursor at zero: it returns the tree of the derivation. -/
theorem TryBlock_of_derives {toks : List Terminal} {t : Expr} (h : Derives .expr toks t)
    (hlen : toks.length < MAX_UNPARSED)
    (hb : ∀ tm ∈ toks, Terminal.longerThan 30 tm = false) :
    ∃ U', TryBlock (spellAll toks) ⟨[], 0, [], []⟩ = .ok t ⟨U', toks.length, [], []⟩ := by
  obtain ⟨U', -, hP⟩ := Parse_of_derives h hlen
  refine ⟨U', ?_⟩
  simp only [TryBlock, bind, M.bind, Lex_of_derives h (by omega) hb, List.length_map,
    Nat.sub_zero, hP, PopOperand, M.pure_apply]

/-- The core of the grammar claims: `FromString` entered with the cursor at zero
returns the tree of the derivation. -/
theorem FromString_of_derives {toks : List Terminal} {t : Expr} (h : Derives .expr toks t)
    (hlen : toks.length < MAX_UNPARSED)
    (hb : ∀ tm ∈ toks, Terminal.longerThan 30 tm = false)
    (s : Statics) (hp : s.UnparsedP = 0) :
    (FromString (spellAll toks) s).value = some t := by
  obtain ⟨U', hT⟩ := TryBlock_of_derives h hlen hb
  simp only [FromString, hp, hT, Res.value]

theorem derives_ne_null {c : Cat} {toks : List Terminal} {t : Expr} (h : Derives c toks t) :
    t ≠ .null := by
  induction h <;> simp_all [Expr.FromConstant, Expr.Negate, Expr.Sqrt, Expr.Times, Expr.Div,
    Expr.Plus, Expr.Minus, Expr.AnyOp]

/-! ## Texts that end where an operand is expected -/

theorem LoopThen_lparen_throw (f : Nat) {U : List Expr} {p : Nat} {x : XUnion}
    {a b : Expr} {rest opnds ops : List Expr} {e : String} {s' : Statics}
    (h : U.drop p = .node .PAREN x a b :: rest) (hx : x.getC = '(')
    (hP : Parse f ⟨U, p + 1, opnds, ops⟩ = .throw e s') :
    LoopThen (f + 1) ⟨U, p, opnds, ops⟩ = .throw e s' := by
  unfold LoopThen
  rw [ParseLoop]
  simp [bind, M.bind, Next_cons _ _ h, Consume_cons _ _ h, hx, hP]

/-- The statement proved for every open prefix: the loop of `Expr::Parse` runs
into the end of the tokens while it looks for an operand. -/
theorem throws_of_open {c : Cat} {toks : List Terminal} (h : EndsOpen c toks) :
    ∀ (U : List Expr) (p : Nat) (opnds ops : List Expr) (f : Nat),
      U.drop p = toks.map Terminal.tok → TopOK c ops →
      2 * toks.length + 1 ≤ f →
      opnds.length + toks.length ≤ MAX_UNPARSED →
      ops.length + toks.length ≤ MAX_UNPARSED →
      ∃ s', LoopThen f ⟨U, p, opnds, ops⟩ = .throw "end of expression unexpected" s' := by
  have group : ∀ {ts : List Terminal},
      (∀ (U : List Expr) (p : Nat) (opnds ops : List Expr) (f : Nat),
        U.drop p = ts.map Terminal.tok → TopOK .expr ops →
        2 * ts.length + 1 ≤ f →
        opnds.length + ts.length ≤ MAX_UNPARSED →
        ops.length + ts.length ≤ MAX_UNPARSED →
        ∃ s', LoopThen f ⟨U, p, opnds, ops⟩ = .throw "end of expression unexpected" s') →
      ∀ (U : List Expr) (p : Nat) (opnds ops : List Expr) (f : Nat),
        U.drop p = Terminal.tok .lparen :: ts.map Terminal.tok →
        2 * ts.length + 3 ≤ f →
        opnds.length + ts.length + 1 ≤ MAX_UNPARSED →
        ops.length + ts.length + 1 ≤ MAX_UNPARSED →
        ∃ s', LoopThen f ⟨U, p, opnds, ops⟩ = .throw "end of expression unexpected" s' := by
    intro ts ih U p opnds ops f hd hf hc1 hc2
    obtain ⟨f1, rfl⟩ : ∃ f1, f = f1 + 1 + 1 := ⟨f - 2, by omega⟩
    obtain ⟨s', hs'⟩ := ih U (p + 1) opnds (marker :: ops) f1 (drop_cons_get hd).2.2
      ⟨marker, ops, -1, rfl, prec_marker, by omega⟩ (by omega) (by omega)
      (by simp only [List.length_cons]; omega)
    refine ⟨s', LoopThen_lparen_throw (f1 + 1) hd rfl ?_⟩
    rw [Parse_succ, M.bind_apply, PushOperator_ok _ _ _ _ (by omega)]
    simp only
    rw [hs']
  have binary : ∀ (c1 c2 : Cat) (bt : Terminal) (ch : Char) (kb : Int)
      {ts1 ts2 : List Terminal} {t1 : Expr},
      Derives c1 ts1 t1 →
      bt.tok = .node .BINARY_OP (.c ch) .null .null → prec bt.tok = some kb →
      (∀ r, RestOK c1 (bt.tok :: r)) → (∀ ops, TopOK c2 (bt.tok :: ops)) →
      (∀ (U : List Expr) (p : Nat) (opnds ops : List Expr) (f : Nat),
        U.drop p = ts2.map Terminal.tok → TopOK c2 ops →
        2 * ts2.length + 1 ≤ f →
        opnds.length + ts2.length ≤ MAX_UNPARSED →
        ops.length + ts2.length ≤ MAX_UNPARSED →
        ∃ s', LoopThen f ⟨U, p, opnds, ops⟩ = .throw "end of expression unexpected" s') →
      ∀ (U : List Expr) (p : Nat) (opnds ops : List Expr) (f : Nat),
        U.drop p = (ts1 ++ bt :: ts2).map Terminal.tok → TopOK c1 ops →
        (∃ top r kt, ops = top :: r ∧ prec top = some kt ∧ kt < kb) →
        2 * (ts1 ++ bt :: ts2).length + 1 ≤ f →
        opnds.length + (ts1 ++ bt :: ts2).length ≤ MAX_UNPARSED →
        ops.length + (ts1 ++ bt :: ts2).length ≤ MAX_UNPARSED →
        ∃ s', LoopThen f ⟨U, p, opnds, ops⟩ = .throw "end of expression unexpected" s' := by
    intro c1 c2 bt ch kb ts1 ts2 t1 h1 hbt hkb hR1 hT2 ih U p opnds ops f hd hT1 htop hf hc1 hc2
    have hlen : (ts1 ++ bt :: ts2).length = ts1.length + 1 + ts2.length := by
      simp; omega
    rw [hlen] at hf hc1 hc2
    have hd0 : U.drop p = ts1.map Terminal.tok ++ (bt.tok :: ts2.map Terminal.tok) := by
      rw [hd]; simp
    obtain ⟨U1, f1, -, hdrop1, hf1, he1⟩ := readsAs_of_derives h1 U p opnds ops _ f hd0
      (hR1 _) hT1
      (by simp only [List.length_cons, List.length_map]; omega) (by omega) (by omega)
    simp only [List.length_cons, List.length_map] at hf1
    obtain ⟨top, r, kt, rfl, hkt, hlt⟩ := htop
    simp only [List.length_cons] at hc2
    have hpush := AfterThen_push f1 (t1 :: opnds) r hdrop1 hbt hkb hkt hlt
      (by simp only [List.length_cons]; omega)
    obtain ⟨s', hs'⟩ := ih U1 (p + ts1.length + 1) (t1 :: opnds) (bt.tok :: top :: r) f1
      (drop_cons_get hdrop1).2.2 (hT2 _) (by omega)
      (by simp only [List.length_cons]; omega) (by simp only [List.length_cons]; omega)
    exact ⟨s', by rw [he1, hpush, hs']⟩
  have rest20 : ∀ (bt : Terminal), (bt = .star ∨ bt = .slash) → ∀ r, RestOK .term (bt.tok :: r) := by
    intro bt hb r x a b r' k h hk
    rcases hb with rfl | rfl <;>
    · simp [Terminal.tok] at h
      obtain ⟨⟨rfl, rfl, rfl⟩, -⟩ := h
      simp [prec, XUnion.getC] at hk
      omega
  have rest10 : ∀ (bt : Terminal), (bt = .plus ∨ bt = .minus) → ∀ r, RestOK .expr (bt.tok :: r) := by
    intro bt hb r x a b r' k h hk
    rcases hb with rfl | rfl <;>
    · simp [Terminal.tok] at h
      obtain ⟨⟨rfl, rfl, rfl⟩, -⟩ := h
      simp [prec, XUnion.getC] at hk
      omega
  induction h with
  | nil =>
    intro U p opnds ops f hd _ hf _ _
    obtain ⟨f0, rfl⟩ : ∃ f0, f = f0 + 1 := ⟨f - 1, by omega⟩
    exact ⟨_, LoopThen_end f0 opnds ops (by simpa using hd)⟩
  | @negate ts _ ih =>
    intro U p opnds ops f hd _ hf hc1 hc2
    obtain ⟨f0, rfl⟩ : ∃ f0, f = f0 + 1 := ⟨f - 1, by omega⟩
    simp only [List.length_cons] at hf hc1 hc2
    have hd0 : U.drop p = .node .BINARY_OP (.c '-') .null .null :: ts.map Terminal.tok := hd
    have hd1 : (U.set p (.node .UNARY_OP (.c 'n') .null .null)).drop (p + 1) =
        ts.map Terminal.tok := by
      rw [List.drop_set_of_lt _ _ (by omega)]
      exact (drop_cons_get hd0).2.2
    obtain ⟨s', hs'⟩ := ih _ (p + 1) opnds (.node .UNARY_OP (.c 'n') .null .null :: ops) f0
      hd1 trivial (by omega) (by omega) (by simp only [List.length_cons]; omega)
    exact ⟨s', by rw [LoopThen_minus f0 opnds hd0 rfl (by omega), hs']⟩
  | @lparen ts _ ih =>
    intro U p opnds ops f hd _ hf hc1 hc2
    simp only [List.length_cons] at hf hc1 hc2
    exact group ih U p opnds ops f hd (by omega) (by omega) (by omega)
  | sqrt =>
    intro U p opnds ops f hd _ hf hc1 hc2
    obtain ⟨f1, rfl⟩ : ∃ f1, f = f1 + 1 + 1 := ⟨f - 2, by simp at hf; omega⟩
    simp only [List.length_singleton] at hc2
    have hd0 : U.drop p = [.node .UNARY_OP (.c 's') .null .null] := hd
    exact ⟨_, by
      rw [LoopThen_unary (f1 + 1) opnds hd0 (by omega)]
      exact LoopThen_end f1 opnds _ (drop_cons_get hd0).2.2⟩
  | @sqrtLparen ts _ ih =>
    intro U p opnds ops f hd _ hf hc1 hc2
    obtain ⟨f0, rfl⟩ : ∃ f0, f = f0 + 1 := ⟨f - 1, by omega⟩
    simp only [List.length_cons] at hf hc1 hc2
    have hd0 : U.drop p = .node .UNARY_OP (.c 's') .null .null :: Terminal.tok .lparen ::
        ts.map Terminal.tok := hd
    obtain ⟨s', hs'⟩ := group ih U (p + 1) opnds (.node .UNARY_OP (.c 's') .null .null :: ops)
      f0 (drop_cons_get hd0).2.2 (by omega) (by omega) (by simp only [List.length_cons]; omega)
    exact ⟨s', by rw [LoopThen_unary f0 opnds hd0 (by omega), hs']⟩
  | factor _ ih =>
    intro U p opnds ops f hd _ hf hc1 hc2
    exact ih U p opnds ops f hd trivial hf hc1 hc2
  | times h1 _ ih =>
    intro U p opnds ops f hd hT hf hc1 hc2
    exact binary .term .factor .star '*' 20 h1 rfl (by decide)
      (rest20 _ (Or.inl rfl)) (fun _ => trivial) ih U p opnds ops f hd hT hT hf hc1 hc2
  | div h1 _ ih =>
    intro U p opnds ops f hd hT hf hc1 hc2
    exact binary .term .factor .slash '/' 20 h1 rfl (by decide)
      (rest20 _ (Or.inr rfl)) (fun _ => trivial) ih U p opnds ops f hd hT hT hf hc1 hc2
  | term _ ih =>
    intro U p opnds ops f hd hT hf hc1 hc2
    obtain ⟨top, r, kt, e1, e2, e3⟩ := hT
    exact ih U p opnds ops f hd ⟨top, r, kt, e1, e2, by omega⟩ hf hc1 hc2
  | plus h1 _ ih =>
    intro U p opnds ops f hd hT hf hc1 hc2
    exact binary .expr .term .plus '+' 10 h1 rfl (by decide)
      (rest10 _ (Or.inl rfl)) (fun _ => ⟨_, _, 10, rfl, by decide, by omega⟩)
      ih U p opnds ops f hd hT hT hf hc1 hc2
  | minus h1 _ ih =>
    intro U p opnds ops f hd hT hf hc1 hc2
    exact binary .expr .term .minus '-' 10 h1 rfl (by decide)
      (rest10 _ (Or.inr rfl)) (fun _ => ⟨_, _, 10, rfl, by decide, by omega⟩)
      ih U p opnds ops f hd hT hT hf hc1 hc2

theorem LexesAs_sqrt_end : LexesAs [.sqrt] := by
  intro rest U p opnds ops f hdelim hcap hf
  simp only [spellAll, List.append_nil, List.length_append, List.length_singleton] at hf hcap ⊢
  simp only [Terminal.spell, List.length_cons, List.length_nil] at hf
  obtain ⟨f0, rfl⟩ : ∃ f0, f = f0 + 1 := ⟨f - 1, by omega⟩
  refine ⟨f0, by omega, ?_⟩
  rw [Lex_sqrt f0 rest U p opnds ops hdelim (by omega)]
  simp

theorem lexesAs_of_open {c : Cat} {toks : List Terminal} (h : EndsOpen c toks) :
    (∀ tm ∈ toks, Terminal.longerThan 30 tm = false) → LexesAs toks := by
  induction h with
  | nil => exact fun _ => LexesAs_nil
  | negate _ ih =>
    intro hb
    exact LexesAs_op_cons (by simp) (ih (fun tm hm => hb tm (by simp [hm])))
  | lparen _ ih =>
    intro hb
    exact LexesAs_op_cons (by simp) (ih (fun tm hm => hb tm (by simp [hm])))
  | sqrt => exact fun _ => LexesAs_sqrt_end
  | sqrtLparen _ ih =>
    intro hb
    exact LexesAs_sqrt_cons (LexesAs_op_cons (by simp) (ih (fun tm hm => hb tm (by simp [hm]))))
  | factor _ ih => exact ih
  | times h1 _ ih =>
    intro hb
    exact LexesAs_append_op _ (by simp) (lexesAs_of_derives h1 (fun tm hm => hb tm (by simp [hm])))
      (ih (fun tm hm => hb tm (by simp [hm])))
  | div h1 _ ih =>
    intro hb
    exact LexesAs_append_op _ (by simp) (lexesAs_of_derives h1 (fun tm hm => hb tm (by simp [hm])))
      (ih (fun tm hm => hb tm (by simp [hm])))
  | term _ ih => exact ih
  | plus h1 _ ih =>
    intro hb
    exact LexesAs_append_op _ (by simp) (lexesAs_of_derives h1 (fun tm hm => hb tm (by simp [hm])))
      (ih (fun tm hm => hb tm (by simp [hm])))
  | minus h1 _ ih =>
    intro hb
    exact LexesAs_append_op _ (by simp) (lexesAs_of_derives h1 (fun tm hm => hb tm (by simp [hm])))
      (ih (fun tm hm => hb tm (by simp [hm])))

/-- The `try` block on an open prefix with fewer than `MAX_UNPARSED` tokens and
literals of at most 30 characters ends with "end of expression unexpected". -/
theorem TryBlock_of_open {toks : List Terminal} (h : EndsOpen .expr toks)
    (hlen : toks.length < MAX_UNPARSED)
    (hb : ∀ tm ∈ toks, Terminal.longerThan 30 tm = false) :
    ∃ s', TryBlock (spellAll toks) ⟨[], 0, [], []⟩ =
      .throw "end of expression unexpected" s' := by
  obtain ⟨f', -, he⟩ := lexesAs_of_open h hb [] [] 0 [] [] (spellAll toks).length rfl
    (by simp; omega) (by simp)
  simp only [List.append_nil, List.nil_append] at he
  obtain ⟨s', hs'⟩ := throws_of_open h (toks.map Terminal.tok) 0 [] [marker]
    (2 * toks.length + 1) (by simp) ⟨marker, [], -1, rfl, prec_marker, by omega⟩ (by omega)
    (by simp; omega) (by simp only [List.length_cons, List.length_nil]; omega)
  refine ⟨s', ?_⟩
  simp only [TryBlock, bind, M.bind, he, Lex_nil, List.length_map, Nat.sub_zero]
  rw [Parse_succ, M.bind_apply, PushOperator_ok _ _ _ _ (by simp [MAX_UNPARSED])]
  simp only
  rw [hs']

/-! ## Differentiation -/

theorem Eval_at_self {p : hParam} {σ : hParam → ℝ} {deref : ℕ → ℝ} {t : Expr} {F : ℝ → ℝ}
    (h : ∀ v, Eval ⟨Real.sqrt, Real.sin, Real.cos⟩ (Function.update σ p v) deref t = some (F v)) :
    Eval ⟨Real.sqrt, Real.sin, Real.cos⟩ σ deref t = some (F (σ p)) := by
  have := h (σ p)
  rwa [Function.update_eq_self] at this

/-- The derivative tree evaluates to the derivative of the evaluation. -/
theorem PartialWrt_hasDerivAt (p : hParam) (σ : hParam → ℝ) (deref : ℕ → ℝ) :
    ∀ t : Expr, t.finished = true → t.hasDirect = false → Regular σ deref t →
      ∃ t' d F, PartialWrt p t = some t' ∧
        Eval ⟨Real.sqrt, Real.sin, Real.cos⟩ σ deref t' = some d ∧
        (∀ v, Eval ⟨Real.sqrt, Real.sin, Real.cos⟩ (Function.update σ p v) deref t = some (F v)) ∧
        HasDerivAt F d (σ p) := by
  intro t
  induction t with
  | null => intro h; simp [Expr.finished] at h
  | node op x a b iha ihb =>
    intro hfin hnd hreg
    obtain ⟨hra, hrb, hdiv, hsqrt⟩ := hreg
    simp only [Expr.hasDirect, Bool.or_eq_false_iff, decide_eq_false_iff_not] at hnd
    obtain ⟨⟨hop, hna⟩, hnb⟩ := hnd
    cases op <;> simp only [Expr.finished, Bool.and_eq_true] at hfin <;>
      first
        | exact absurd rfl hop
        | exact absurd hfin (by decide)
        | skip
    case PARAM =>
      by_cases hq : p.v = x.getParh.v
      · have hqe : x.getParh = p := by
          cases p; cases hx : x.getParh; simp_all
        refine ⟨Expr.FromConstant 1, 1, fun v => v, by simp [PartialWrt, hq], by simp [Eval, Expr.FromConstant,
          XUnion.getV], ?_, hasDerivAt_id _⟩
        intro v
        simp only [Eval]
        rw [hqe, Function.update_same]
      · have hqe : x.getParh ≠ p := by
          intro h; exact hq (by rw [h])
        refine ⟨Expr.FromConstant 0, 0, fun _ => σ x.getParh, by simp [PartialWrt, hq], by simp [Eval,
          Expr.FromConstant, XUnion.getV], ?_, hasDerivAt_const _ _⟩
        intro v
        simp [Eval, Function.update_noteq hqe]
    case CONSTANT =>
      refine ⟨Expr.FromConstant 0, 0, fun _ => (x.getV : ℝ), by simp [PartialWrt], by simp [Eval,
        Expr.FromConstant, XUnion.getV], ?_, hasDerivAt_const _ _⟩
      intro v
      simp [Eval]
    case PLUS =>
      obtain ⟨ta, da, Fa, hpa, hea, hFa, hda⟩ := iha hfin.1 hna hra
      obtain ⟨tb, db, Fb, hpb, heb, hFb, hdb⟩ := ihb hfin.2 hnb hrb
      refine ⟨ta.Plus tb, da + db, fun v => Fa v + Fb v, by simp [PartialWrt, hpa, hpb], ?_, ?_,
        hda.add hdb⟩
      · simp [Eval, Expr.Plus, Expr.AnyOp, hea, heb]
      · intro v; simp [Eval, hFa v, hFb v]
    case MINUS =>
      obtain ⟨ta, da, Fa, hpa, hea, hFa, hda⟩ := iha hfin.1 hna hra
      obtain ⟨tb, db, Fb, hpb, heb, hFb, hdb⟩ := ihb hfin.2 hnb hrb
      refine ⟨ta.Minus tb, da - db, fun v => Fa v - Fb v, by simp [PartialWrt, hpa, hpb], ?_, ?_,
        hda.sub hdb⟩
      · simp [Eval, Expr.Minus, Expr.AnyOp, hea, heb]
      · intro v; simp [Eval, hFa v, hFb v]
    case TIMES =>
      obtain ⟨ta, da, Fa, hpa, hea, hFa, hda⟩ := iha hfin.1 hna hra
      obtain ⟨tb, db, Fb, hpb, heb, hFb, hdb⟩ := ihb hfin.2 hnb hrb
      refine ⟨(a.Times tb).Plus (b.Times ta), Fa (σ p) * db + Fb (σ p) * da, fun v => Fa v * Fb v,
        by simp [PartialWrt, hpa, hpb], ?_, ?_, ?_⟩
      · simp [Eval, Expr.Plus, Expr.Times, Expr.AnyOp, hea, heb, Eval_at_self hFa,
          Eval_at_self hFb]
      · intro v; simp [Eval, hFa v, hFb v]
      · have := hda.mul hdb
        convert this using 1
        ring
    case DIV =>
      obtain ⟨ta, da, Fa, hpa, hea, hFa, hda⟩ := iha hfin.1 hna hra
      obtain ⟨tb, db, Fb, hpb, heb, hFb, hdb⟩ := ihb hfin.2 hnb hrb
      obtain ⟨vb, hvb, hvb0⟩ := hdiv rfl
      have hFb0 : Fb (σ p) ≠ 0 := by
        rw [Eval_at_self hFb] at hvb
        cases hvb
        exact hvb0
      refine ⟨((ta.Times b).Minus (a.Times tb)).Div b.Square, (da * Fb (σ p) - Fa (σ p) * db) / (Fb (σ p) * Fb (σ p)), fun v => Fa v / Fb v,
        by simp [PartialWrt, hpa, hpb], ?_, ?_, ?_⟩
      · simp [Eval, Expr.Div, Expr.Minus, Expr.Times, Expr.Square, Expr.AnyOp, hea, heb,
          Eval_at_self hFa, Eval_at_self hFb]
      · intro v; simp [Eval, hFa v, hFb v]
      · have := hda.div hdb hFb0
        convert this using 1
        ring
    case NEGATE =>
      obtain ⟨ta, da, Fa, hpa, hea, hFa, hda⟩ := iha hfin hna hra
      refine ⟨ta.Negate, -da, fun v => -Fa v, by simp [PartialWrt, hpa], ?_, ?_, hda.neg⟩
      · simp [Eval, Expr.Negate, Expr.AnyOp, hea]
      · intro v; simp [Eval, hFa v]
    case SQRT =>
      obtain ⟨ta, da, Fa, hpa, hea, hFa, hda⟩ := iha hfin hna hra
      obtain ⟨va, hva, hva0⟩ := hsqrt rfl
      have hFa0 : 0 < Fa (σ p) := by
        rw [Eval_at_self hFa] at hva
        cases hva
        exact hva0
      refine ⟨((Expr.FromConstant (1/2)).Div a.Sqrt).Times ta, (1 / 2) / Real.sqrt (Fa (σ p)) * da, fun v => Real.sqrt (Fa v),
        by simp [PartialWrt, hpa], ?_, ?_, ?_⟩
      · simp [Eval, Expr.Div, Expr.Times, Expr.Sqrt, Expr.FromConstant, Expr.AnyOp, hea,
          Eval_at_self hFa, XUnion.getV]
      · intro v; simp [Eval, hFa v]
      · have := hda.sqrt hFa0.ne'
        convert this using 1
        field_simp
    case SQUARE =>
      obtain ⟨ta, da, Fa, hpa, hea, hFa, hda⟩ := iha hfin hna hra
      refine ⟨((Expr.FromConstant 2).Times a).Times ta, 2 * Fa (σ p) * da, fun v => Fa v * Fa v,
        by simp [PartialWrt, hpa], ?_, ?_, ?_⟩
      · simp [Eval, Expr.Times, Expr.FromConstant, Expr.AnyOp, hea,
          Eval_at_self hFa, XUnion.getV]
      · intro v; simp [Eval, hFa v]
      · have := hda.mul hda
        convert this using 1
        ring
    case SIN =>
      obtain ⟨ta, da, Fa, hpa, hea, hFa, hda⟩ := iha hfin hna hra
      refine ⟨a.Cos.Times ta, Real.cos (Fa (σ p)) * da, fun v => Real.sin (Fa v),
        by simp [PartialWrt, hpa], ?_, ?_, hda.sin⟩
      · simp [Eval, Expr.Times, Expr.Cos, Expr.AnyOp, hea, Eval_at_self hFa]
      · intro v; simp [Eval, hFa v]
    case COS =>
      obtain ⟨ta, da, Fa, hpa, hea, hFa, hda⟩ := iha hfin hna hra
      refine ⟨(a.Sin.Times ta).Negate, -(Real.sin (Fa (σ p)) * da), fun v => Real.cos (Fa v),
        by simp [PartialWrt, hpa], ?_, ?_, ?_⟩
      · simp [Eval, Expr.Times, Expr.Sin, Expr.Negate, Expr.AnyOp, hea, Eval_at_self hFa]
      · intro v; simp [Eval, hFa v]
      · have := hda.cos
        convert this using 1
        ring

/-! ## A text of opening parentheses -/

theorem spellAll_replicate_lparen (n : Nat) :
    spellAll (List.replicate n Terminal.lparen) = List.replicate n '(' := by
  induction n with
  | zero => rfl
  | succ n ih =>
    rw [List.replicate_succ, List.replicate_succ, spellAll, ih]
    rfl

theorem LexesAs_replicate_lparen (n : Nat) : LexesAs (List.replicate n Terminal.lparen) := by
  induction n with
  | zero => exact LexesAs_nil
  | succ n ih =>
    rw [List.replicate_succ]
    exact LexesAs_op_cons (Or.inr (Or.inr (Or.inr (Or.inr (Or.inl rfl))))) ih

/-- Every opening parenthesis makes the nested `Parse` push a marker: when the
parentheses in front of the cursor are more than the free room of the operator
stack, a push throws. -/
theorem parens_overflow (n : Nat) :
    ∀ (U : List Expr) (p : Nat) (opnds ops : List Expr) (f : Nat),
      U.drop p = List.replicate n (Terminal.tok .lparen) →
      ops.length ≤ MAX_UNPARSED → MAX_UNPARSED + 1 ≤ ops.length + n →
      2 * n + 1 ≤ f →
      ∃ s', LoopThen f ⟨U, p, opnds, ops⟩ = .throw "operator stack full!" s' := by
  induction n with
  | zero =>
    intro U p opnds ops f _ h1 h2 _
    omega
  | succ n ih =>
    intro U p opnds ops f hd h1 h2 hf
    obtain ⟨f1, rfl⟩ : ∃ f1, f = f1 + 1 + 1 := ⟨f - 2, by omega⟩
    rw [List.replicate_succ] at hd
    by_cases hfull : ops.length ≥ MAX_UNPARSED
    · refine ⟨⟨U, p + 1, opnds, ops⟩, LoopThen_lparen_throw (f1 + 1) hd rfl ?_⟩
      rw [Parse_succ, M.bind_apply]
      simp only [PushOperator, hfull, if_true]
    · obtain ⟨s', hs'⟩ := ih U (p + 1) opnds (marker :: ops) f1 (drop_cons_get hd).2.2
        (by simp only [List.length_cons]; omega) (by simp only [List.length_cons]; omega)
        (by omega)
      refine ⟨s', LoopThen_lparen_throw (f1 + 1) hd rfl ?_⟩
      rw [Parse_succ, M.bind_apply, PushOperator_ok _ _ _ _ (by omega)]
      simp only
      rw [hs']

/-- The `try` block on a text of `MAX_UNPARSED` opening parentheses ends with
"operator stack full!". -/
theorem TryBlock_parens (n : Nat) (hn : n = MAX_UNPARSED) :
    (TryBlock (List.replicate n '(') ⟨[], 0, [], []⟩).thrown =
      some "operator stack full!" := by
  have hlen : (List.replicate n Terminal.lparen).length = n := List.length_replicate _ _
  obtain ⟨f', -, he⟩ := LexesAs_replicate_lparen n [] [] 0 [] []
    (spellAll (List.replicate n Terminal.lparen)).length rfl
    (by rw [hlen, hn]; exact Nat.le_of_eq (Nat.zero_add _)) (by rw [List.append_nil])
  rw [List.append_nil, List.nil_append, List.map_replicate] at he
  have hM : ([] : List Expr).length < MAX_UNPARSED := by decide
  obtain ⟨s', hs'⟩ := parens_overflow n (List.replicate n (Terminal.tok .lparen)) 0 []
    [marker] (2 * n + 1) rfl (by simp only [List.length_singleton]; omega)
    (by simp only [List.length_singleton]; omega) (Nat.le_refl _)
  rw [← spellAll_replicate_lparen]
  simp only [TryBlock, bind, M.bind, he, Lex_nil, List.length_replicate, Nat.sub_zero]
  rw [Parse_succ, M.bind_apply, PushOperator_ok _ _ _ _ hM]
  simp only
  rw [hs']
  rfl

/-! ## The loops of the model never run out of fuel -/

theorem M.bind_ne_timeout {α β : Type} {m : M α} {k : α → M β} {s : Statics}
    (h1 : m s ≠ .timeout) (h2 : ∀ a s1, m s = .ok a s1 → k a s1 ≠ .timeout) :
    (m >>= k) s ≠ .timeout := by
  rw [M.bind_apply]
  cases h : m s with
  | ok a s1 => exact h2 a s1 h
  | throw e s1 => simp
  | oops => simp
  | timeout => exact absurd h h1

theorem M.bind_eq_ok {α β : Type} {m : M α} {k : α → M β} {s s2 : Statics} {b : β}
    (h : (m >>= k) s = .ok b s2) : ∃ a s1, m s = .ok a s1 ∧ k a s1 = .ok b s2 := by
  rw [M.bind_apply] at h
  cases hm : m s with
  | ok a s1 => rw [hm] at h; exact ⟨a, s1, rfl, h⟩
  | throw e s1 => rw [hm] at h; cases h
  | oops => rw [hm] at h; cases h
  | timeout => rw [hm] at h; cases h

/-- A push on the operator stack leaves the token array and the cursor alone. -/
theorem PushOperator_inv {e : Expr} {s s' : Statics} (h : PushOperator e s = .ok () s') :
    s'.Unparsed = s.Unparsed ∧ s'.UnparsedP = s.UnparsedP ∧
      s'.Operators.length = s.Operators.length + 1 := by
  unfold PushOperator at h
  split at h
  · cases h
  · cases h; simp

theorem PushOperand_inv {e : Expr} {s s' : Statics} (h : PushOperand e s = .ok () s') :
    s'.Unparsed = s.Unparsed ∧ s'.UnparsedP = s.UnparsedP ∧ s'.Operators = s.Operators := by
  unfold PushOperand at h
  split at h
  · cases h
  · cases h; simp

theorem PopOperator_inv {e : Expr} {s s' : Statics} (h : PopOperator s = .ok e s') :
    s'.Unparsed = s.Unparsed ∧ s'.UnparsedP = s.UnparsedP ∧
      s'.Operators.length + 1 = s.Operators.length := by
  unfold PopOperator at h
  split at h
  · cases h
  · next e' rest heq => cases h; simp [heq]

theorem PopOperand_inv {e : Expr} {s s' : Statics} (h : PopOperand s = .ok e s') :
    s'.Unparsed = s.Unparsed ∧ s'.UnparsedP = s.UnparsedP ∧ s'.Operators = s.Operators := by
  unfold PopOperand at h
  split at h
  · cases h
  · cases h; simp

theorem TopOperator_inv {e : Expr} {s s' : Statics} (h : TopOperator s = .ok e s') :
    s' = s ∧ 0 < s.Operators.length := by
  unfold TopOperator at h
  split at h
  · cases h
  · next e' rest heq => cases h; simp [heq]

theorem Precedence_inv {e : Expr} {k : Int} {s s' : Statics} (h : Precedence e s = .ok k s') :
    s' = s := by
  rw [Precedence_eq] at h
  split at h
  · cases h; rfl
  · cases h

theorem Precedence_ne_timeout (e : Expr) (s : Statics) : Precedence e s ≠ .timeout := by
  rw [Precedence_eq]
  split <;> simp

theorem Next_inv {n : Expr} {s s' : Statics} (h : Next s = .ok n s') : s' = s := by
  unfold Next at h
  split at h <;> (cases h; rfl)

theorem Next_ne_timeout (s : Statics) : Next s ≠ .timeout := by
  unfold Next
  split <;> simp

theorem Consume_inv {s s' : Statics} (h : Consume s = .ok () s') :
    s'.Unparsed = s.Unparsed ∧ s'.UnparsedP = s.UnparsedP + 1 ∧
      s.UnparsedP < s.Unparsed.length ∧ s'.Operators = s.Operators := by
  unfold Consume at h
  split at h
  · cases h
  · next hlt => cases h; simp at hlt ⊢; omega

theorem Consume_ne_timeout (s : Statics) : Consume s ≠ .timeout := by
  unfold Consume
  split <;> simp

theorem PushOperator_ne_timeout (e : Expr) (s : Statics) : PushOperator e s ≠ .timeout := by
  unfold PushOperator
  split <;> simp

theorem PushOperand_ne_timeout (e : Expr) (s : Statics) : PushOperand e s ≠ .timeout := by
  unfold PushOperand
  split <;> simp

theorem PopOperator_ne_timeout (s : Statics) : PopOperator s ≠ .timeout := by
  unfold PopOperator
  split <;> simp

theorem PopOperand_ne_timeout (s : Statics) : PopOperand s ≠ .timeout := by
  unfold PopOperand
  split <;> simp

theorem TopOperator_ne_timeout (s : Statics) : TopOperator s ≠ .timeout := by
  unfold TopOperator
  split <;> simp

theorem oops_ne_timeout {α : Type} (s : Statics) : (oops : M α) s ≠ .timeout := by
  simp [oops]

theorem raise_ne_timeout {α : Type} (e : String) (s : Statics) : (raise e : M α) s ≠ .timeout := by
  simp [raise]

theorem pure_ne_timeout {α : Type} (a : α) (s : Statics) : (pure a : M α) s ≠ .timeout := by
  simp

theorem Reduce_inv {s s' : Statics} (h : Reduce s = .ok () s') :
    s'.Unparsed = s.Unparsed ∧ s'.UnparsedP = s.UnparsedP ∧
      s'.Operators.length + 1 = s.Operators.length := by
  unfold Reduce at h
  obtain ⟨op, s1, h1, h2⟩ := M.bind_eq_ok h
  have i1 := PopOperator_inv h1
  cases op with
  | null => simp [oops] at h2
  | node o x a b =>
    simp only at h2
    split at h2
    · obtain ⟨b1, s2, h3, h4⟩ := M.bind_eq_ok h2
      obtain ⟨a1, s3, h5, h6⟩ := M.bind_eq_ok h4
      have i2 := PopOperand_inv h3
      have i3 := PopOperand_inv h5
      have i4 := PushOperand_inv h6
      refine ⟨?_, ?_, ?_⟩
      · rw [i4.1, i3.1, i2.1, i1.1]
      · rw [i4.2.1, i3.2.1, i2.2.1, i1.2.1]
      · rw [i4.2.2, i3.2.2, i2.2.2]; exact i1.2.2
    · split at h2
      · obtain ⟨a1, s2, h3, h4⟩ := M.bind_eq_ok h2
        have i2 := PopOperand_inv h3
        have i4 := PushOperand_inv h4
        refine ⟨?_, ?_, ?_⟩
        · rw [i4.1, i2.1, i1.1]
        · rw [i4.2.1, i2.2.1, i1.2.1]
        · rw [i4.2.2, i2.2.2]; exact i1.2.2
      · split at h2
        · obtain ⟨a1, s2, h3, h4⟩ := M.bind_eq_ok h2
          have i2 := PopOperand_inv h3
          have i4 := PushOperand_inv h4
          refine ⟨?_, ?_, ?_⟩
          · rw [i4.1, i2.1, i1.1]
          · rw [i4.2.1, i2.2.1, i1.2.1]
          · rw [i4.2.2, i2.2.2]; exact i1.2.2
        · simp [oops] at h2

theorem Reduce_ne_timeout (s : Statics) : Reduce s ≠ .timeout := by
  unfold Reduce
  refine M.bind_ne_timeout (PopOperator_ne_timeout s) ?_
  intro op s1 _
  cases op with
  | null => exact oops_ne_timeout s1
  | node o x a b =>
    simp only
    split
    · refine M.bind_ne_timeout (PopOperand_ne_timeout _) ?_
      intro b1 s2 _
      refine M.bind_ne_timeout (PopOperand_ne_timeout _) ?_
      intro a1 s3 _
      exact PushOperand_ne_timeout _ _
    · split
      · refine M.bind_ne_timeout (PopOperand_ne_timeout _) ?_
        intro a1 s2 _
        exact PushOperand_ne_timeout _ _
      · split
        · refine M.bind_ne_timeout (PopOperand_ne_timeout _) ?_
          intro a1 s2 _
          exact PushOperand_ne_timeout _ _
        · exact oops_ne_timeout s1

theorem ReduceWhile_inv (n : Expr) : ∀ (f : Nat) (s s' : Statics),
    ReduceWhile n f s = .ok () s' →
      s'.Unparsed = s.Unparsed ∧ s'.UnparsedP = s.UnparsedP ∧
        s'.Operators.length ≤ s.Operators.length := by
  intro f
  induction f with
  | zero => intro s s' h; simp [ReduceWhile, outOfFuel] at h
  | succ f ih =>
    intro s s' h
    rw [ReduceWhile] at h
    obtain ⟨pn, s1, h1, h2⟩ := M.bind_eq_ok h
    obtain ⟨top, s2, h3, h4⟩ := M.bind_eq_ok h2
    obtain ⟨pt, s3, h5, h6⟩ := M.bind_eq_ok h4
    have e1 := Precedence_inv h1
    have e2 := (TopOperator_inv h3).1
    have e3 := Precedence_inv h5
    subst e1 e2 e3
    split at h6
    · obtain ⟨u, s4, h7, h8⟩ := M.bind_eq_ok h6
      have i1 := Reduce_inv h7
      have i2 := ih _ _ h8
      exact ⟨by rw [i2.1, i1.1], by rw [i2.2.1, i1.2.1], by omega⟩
    · cases h6
      exact ⟨rfl, rfl, Nat.le_refl _⟩

theorem ReduceWhile_ne_timeout (n : Expr) : ∀ (f : Nat) (s : Statics),
    s.Operators.length < f → ReduceWhile n f s ≠ .timeout := by
  intro f
  induction f with
  | zero => intro s h; omega
  | succ f ih =>
    intro s h
    rw [ReduceWhile]
    refine M.bind_ne_timeout (Precedence_ne_timeout _ _) ?_
    intro pn s1 h1
    have e1 := Precedence_inv h1
    subst e1
    refine M.bind_ne_timeout (TopOperator_ne_timeout _) ?_
    intro top s2 h3
    have e2 := TopOperator_inv h3
    obtain ⟨e2, hpos⟩ := e2
    subst e2
    refine M.bind_ne_timeout (Precedence_ne_timeout _ _) ?_
    intro pt s3 h5
    have e3 := Precedence_inv h5
    subst e3
    split
    · refine M.bind_ne_timeout (Reduce_ne_timeout _) ?_
      intro u s4 h7
      have i1 := Reduce_inv h7
      exact ih _ (by omega)
    · exact pure_ne_timeout _ _

theorem ReduceAndPush_inv {n : Expr} {s s' : Statics} (h : ReduceAndPush n s = .ok () s') :
    s'.Unparsed = s.Unparsed ∧ s'.UnparsedP = s.UnparsedP := by
  unfold ReduceAndPush at h
  obtain ⟨u, s1, h1, h2⟩ := M.bind_eq_ok h
  have i1 := ReduceWhile_inv n _ _ _ h1
  have i2 := PushOperator_inv h2
  exact ⟨by rw [i2.1, i1.1], by rw [i2.2.1, i1.2.1]⟩

theorem ReduceAndPush_ne_timeout (n : Expr) (s : Statics) : ReduceAndPush n s ≠ .timeout := by
  unfold ReduceAndPush
  refine M.bind_ne_timeout (ReduceWhile_ne_timeout n _ s (Nat.lt_succ_self _)) ?_
  intro u s1 _
  exact PushOperator_ne_timeout _ _

theorem Drain_inv : ∀ (f : Nat) (s s' : Statics),
    Drain f s = .ok () s' → s'.Unparsed = s.Unparsed ∧ s'.UnparsedP = s.UnparsedP := by
  intro f
  induction f with
  | zero => intro s s' h; simp [Drain, outOfFuel] at h
  | succ f ih =>
    intro s s' h
    rw [Drain] at h
    obtain ⟨top, s1, h1, h2⟩ := M.bind_eq_ok h
    have e1 := (TopOperator_inv h1).1
    subst e1
    cases top with
    | null => simp [oops] at h2
    | node o x a b =>
      simp only at h2
      split at h2
      · obtain ⟨u, s2, h3, h4⟩ := M.bind_eq_ok h2
        have i1 := Reduce_inv h3
        have i2 := ih _ _ h4
        exact ⟨by rw [i2.1, i1.1], by rw [i2.2, i1.2.1]⟩
      · cases h2
        exact ⟨rfl, rfl⟩

theorem Drain_ne_timeout : ∀ (f : Nat) (s : Statics),
    s.Operators.length < f → Drain f s ≠ .timeout := by
  intro f
  induction f with
  | zero => intro s h; omega
  | succ f ih =>
    intro s h
    rw [Drain]
    refine M.bind_ne_timeout (TopOperator_ne_timeout _) ?_
    intro top s1 h1
    have e1 := (TopOperator_inv h1).1
    subst e1
    cases top with
    | null => exact oops_ne_timeout _
    | node o x a b =>
      simp only
      split
      · refine M.bind_ne_timeout (Reduce_ne_timeout _) ?_
        intro u s2 h3
        have i1 := Reduce_inv h3
        exact ih _ (by omega)
      · exact pure_ne_timeout _ _

theorem finishParse_inv {s s' : Statics} (h : finishParse s = .ok () s') :
    s'.Unparsed = s.Unparsed ∧ s'.UnparsedP = s.UnparsedP := by
  unfold finishParse at h
  obtain ⟨u, s1, h1, h2⟩ := M.bind_eq_ok h
  obtain ⟨e, s2, h3, h4⟩ := M.bind_eq_ok h2
  have i1 := Drain_inv _ _ _ h1
  have i2 := PopOperator_inv h3
  cases h4
  exact ⟨by rw [i2.1, i1.1], by rw [i2.2.1, i1.2]⟩

theorem finishParse_ne_timeout (s : Statics) : finishParse s ≠ .timeout := by
  unfold finishParse
  refine M.bind_ne_timeout (Drain_ne_timeout _ s (Nat.lt_succ_self _)) ?_
  intro u s1 _
  refine M.bind_ne_timeout (PopOperator_ne_timeout _) ?_
  intro e s2 _
  exact pure_ne_timeout _ _

theorem Retag_inv {n : Expr} {s s' : Statics} (h : Retag n s = .ok () s') :
    s'.Unparsed.length = s.Unparsed.length ∧ s'.UnparsedP = s.UnparsedP ∧
      s'.Operators = s.Operators := by
  unfold Retag at h
  cases h
  simp

theorem AfterOperand_inv {loop : M Unit}
    (hloop : ∀ s s', loop s = .ok () s' →
      s'.Unparsed.length = s.Unparsed.length ∧ s.UnparsedP < s'.UnparsedP ∧
        s'.UnparsedP ≤ s'.Unparsed.length)
    {s s' : Statics} (h : AfterOperand loop s = .ok () s') :
    s'.Unparsed.length = s.Unparsed.length ∧ s.UnparsedP ≤ s'.UnparsedP ∧
      (s.UnparsedP ≤ s.Unparsed.length → s'.UnparsedP ≤ s'.Unparsed.length) := by
  unfold AfterOperand at h
  obtain ⟨n, s1, h1, h2⟩ := M.bind_eq_ok h
  have e1 := Next_inv h1
  subst e1
  cases n with
  | null =>
    cases h2
    exact ⟨rfl, Nat.le_refl _, id⟩
  | node o x a b =>
    simp only at h2
    split at h2
    · obtain ⟨u, s2, h3, h4⟩ := M.bind_eq_ok h2
      obtain ⟨u2, s3, h5, h6⟩ := M.bind_eq_ok h4
      have i1 := ReduceAndPush_inv h3
      have i2 := Consume_inv h5
      have i3 := hloop _ _ h6
      refine ⟨?_, ?_, fun _ => i3.2.2⟩
      · rw [i3.1, i2.1, i1.1]
      · have := i3.2.1
        rw [i2.2.1, i1.2] at this
        omega
    · cases h2
      exact ⟨rfl, Nat.le_refl _, id⟩

/-- A call of `Parse` that returns has moved the cursor forward, inside the token
array, and has not changed the number of tokens. -/
theorem Parse_frame : ∀ (f : Nat),
    (∀ s s', ParseLoop f s = .ok () s' →
      s'.Unparsed.length = s.Unparsed.length ∧ s.UnparsedP < s'.UnparsedP ∧
        s'.UnparsedP ≤ s'.Unparsed.length) ∧
    (∀ s s', Parse f s = .ok () s' →
      s'.Unparsed.length = s.Unparsed.length ∧ s.UnparsedP < s'.UnparsedP ∧
        s'.UnparsedP ≤ s'.Unparsed.length) := by
  intro f
  induction f with
  | zero =>
    constructor <;> intro s s' h
    · simp [ParseLoop, outOfFuel] at h
    · simp [Parse, outOfFuel] at h
  | succ f ih =>
    constructor
    · intro s s' h
      rw [ParseLoop] at h
      obtain ⟨n, s1, h1, h2⟩ := M.bind_eq_ok h
      have e1 := Next_inv h1
      subst e1
      cases n with
      | null => simp [raise] at h2
      | node o x a b =>
        simp only at h2
        split at h2
        · obtain ⟨u, s2, h3, h4⟩ := M.bind_eq_ok h2
          obtain ⟨u2, s3, h5, h6⟩ := M.bind_eq_ok h4
          have i1 := PushOperand_inv h3
          have i2 := Consume_inv h5
          have i3 := AfterOperand_inv ih.1 h6
          rw [i1.1, i1.2.1] at i2
          rw [i2.1, i2.2.1] at i3
          exact ⟨i3.1, by omega, i3.2.2 (by omega)⟩
        · split at h2
          · obtain ⟨u, s2, h3, h4⟩ := M.bind_eq_ok h2
            obtain ⟨u2, s3, h5, h6⟩ := M.bind_eq_ok h4
            obtain ⟨n2, s4, h7, h8⟩ := M.bind_eq_ok h6
            have e2 := Next_inv h7
            subst e2
            have i1 := Consume_inv h3
            have i2 := ih.2 _ _ h5
            cases n2 with
            | null => simp [oops] at h8
            | node o2 x2 a2 b2 =>
              simp only at h8
              split at h8
              · simp [raise] at h8
              · obtain ⟨u3, s5, h9, h10⟩ := M.bind_eq_ok h8
                have i3 := Consume_inv h9
                have i4 := AfterOperand_inv ih.1 h10
                rw [i3.1, i3.2.1] at i4
                rw [i1.1, i1.2.1] at i2
                exact ⟨by rw [i4.1, i2.1], by omega, i4.2.2 (by omega)⟩
          · split at h2
            · obtain ⟨u, s2, h3, h4⟩ := M.bind_eq_ok h2
              obtain ⟨u2, s3, h5, h6⟩ := M.bind_eq_ok h4
              have i1 := PushOperator_inv h3
              have i2 := Consume_inv h5
              have i3 := ih.1 _ _ h6
              rw [i1.1, i1.2.1] at i2
              rw [i2.1, i2.2.1] at i3
              exact ⟨i3.1, by omega, i3.2.2⟩
            · split at h2
              · obtain ⟨u0, s0, h0, h2'⟩ := M.bind_eq_ok h2
                obtain ⟨u, s2, h3, h4⟩ := M.bind_eq_ok h2'
                obtain ⟨u2, s3, h5, h6⟩ := M.bind_eq_ok h4
                have i0 := Retag_inv h0
                have i1 := PushOperator_inv h3
                have i2 := Consume_inv h5
                have i3 := ih.1 _ _ h6
                have l2 : s3.Unparsed.length = s1.Unparsed.length := by
                  rw [i2.1, i1.1, i0.1]
                have p2 : s3.UnparsedP = s1.UnparsedP + 1 := by
                  rw [i2.2.1, i1.2.1, i0.2.1]
                exact ⟨by rw [i3.1, l2], by omega, i3.2.2⟩
              · simp [raise] at h2
    · intro s s' h
      rw [Parse_succ] at h
      obtain ⟨u, s1, h1, h2⟩ := M.bind_eq_ok h
      unfold LoopThen at h2
      obtain ⟨u2, s2, h3, h4⟩ := M.bind_eq_ok h2
      have i1 := PushOperator_inv h1
      have i2 := ih.1 _ _ h3
      have i3 := finishParse_inv h4
      rw [i1.1, i1.2.1] at i2
      exact ⟨by rw [i3.1, i2.1], by rw [i3.2]; exact i2.2.1, by rw [i3.1, i3.2]; exact i2.2.2⟩

theorem Retag_ne_timeout (n : Expr) (s : Statics) : Retag n s ≠ .timeout := by
  simp [Retag]

theorem AfterOperand_ne_timeout {loop : M Unit} {s : Statics}
    (hloop : ∀ s3 : Statics, s3.Unparsed.length = s.Unparsed.length →
      s3.UnparsedP = s.UnparsedP + 1 → s.UnparsedP < s.Unparsed.length → loop s3 ≠ .timeout) :
    AfterOperand loop s ≠ .timeout := by
  unfold AfterOperand
  refine M.bind_ne_timeout (Next_ne_timeout _) ?_
  intro n s1 h1
  have e1 := Next_inv h1
  subst e1
  cases n with
  | null => exact pure_ne_timeout _ _
  | node o x a b =>
    simp only
    split
    · refine M.bind_ne_timeout (ReduceAndPush_ne_timeout _ _) ?_
      intro u s2 h3
      refine M.bind_ne_timeout (Consume_ne_timeout _) ?_
      intro u2 s3 h5
      have i1 := ReduceAndPush_inv h3
      have i2 := Consume_inv h5
      rw [i1.1, i1.2] at i2
      exact hloop s3 (by rw [i2.1]) i2.2.1 i2.2.2.1
    · exact pure_ne_timeout _ _

/-- With a fuel of twice the number of tokens in front of the cursor plus two,
`Parse` does not run out of fuel. -/
theorem Parse_ne_timeout : ∀ (f : Nat),
    (∀ s : Statics, 2 * (s.Unparsed.length - s.UnparsedP) + 1 ≤ f →
      ParseLoop f s ≠ .timeout) ∧
    (∀ s : Statics, 2 * (s.Unparsed.length - s.UnparsedP) + 2 ≤ f →
      Parse f s ≠ .timeout) := by
  intro f
  induction f with
  | zero =>
    constructor <;> intro s h <;> omega
  | succ f ih =>
    constructor
    · intro s hf
      rw [ParseLoop]
      refine M.bind_ne_timeout (Next_ne_timeout _) ?_
      intro n s1 h1
      have e1 := Next_inv h1
      subst e1
      cases n with
      | null => exact raise_ne_timeout _ _
      | node o x a b =>
        simp only
        split
        · refine M.bind_ne_timeout (PushOperand_ne_timeout _ _) ?_
          intro u s2 h3
          refine M.bind_ne_timeout (Consume_ne_timeout _) ?_
          intro u2 s3 h5
          have i1 := PushOperand_inv h3
          have i2 := Consume_inv h5
          rw [i1.1, i1.2.1] at i2
          refine AfterOperand_ne_timeout ?_
          intro s4 g1 g2 g3
          refine ih.1 s4 ?_
          rw [g1, g2, i2.1, i2.2.1]
          omega
        · split
          · refine M.bind_ne_timeout (Consume_ne_timeout _) ?_
            intro u s2 h3
            have i1 := Consume_inv h3
            refine M.bind_ne_timeout (ih.2 s2 (by rw [i1.1, i1.2.1]; omega)) ?_
            intro u2 s3 h5
            have i2 := (Parse_frame f).2 _ _ h5
            rw [i1.1, i1.2.1] at i2
            refine M.bind_ne_timeout (Next_ne_timeout _) ?_
            intro n2 s4 h7
            have e2 := Next_inv h7
            subst e2
            cases n2 with
            | null => exact oops_ne_timeout _
            | node o2 x2 a2 b2 =>
              simp only
              split
              · exact raise_ne_timeout _ _
              · refine M.bind_ne_timeout (Consume_ne_timeout _) ?_
                intro u3 s5 h9
                have i3 := Consume_inv h9
                refine AfterOperand_ne_timeout ?_
                intro s6 g1 g2 g3
                refine ih.1 s6 ?_
                rw [g1, g2, i3.1, i3.2.1, i2.1]
                omega
          · split
            · refine M.bind_ne_timeout (PushOperator_ne_timeout _ _) ?_
              intro u s2 h3
              refine M.bind_ne_timeout (Consume_ne_timeout _) ?_
              intro u2 s3 h5
              have i1 := PushOperator_inv h3
              have i2 := Consume_inv h5
              rw [i1.1, i1.2.1] at i2
              refine ih.1 s3 ?_
              rw [i2.1, i2.2.1]
              omega
            · split
              · refine M.bind_ne_timeout (Retag_ne_timeout _ _) ?_
                intro u0 s0 h0
                refine M.bind_ne_timeout (PushOperator_ne_timeout _ _) ?_
                intro u s2 h3
                refine M.bind_ne_timeout (Consume_ne_timeout _) ?_
                intro u2 s3 h5
                have i0 := Retag_inv h0
                have i1 := PushOperator_inv h3
                have i2 := Consume_inv h5
                refine ih.1 s3 ?_
                rw [i2.1, i2.2.1, i1.1, i1.2.1, i0.1, i0.2.1]
                have := i2.2.2.1
                rw [i1.1, i1.2.1, i0.1, i0.2.1] at this
                omega
              · exact raise_ne_timeout _ _
    · intro s hf
      rw [Parse_succ]
      refine M.bind_ne_timeout (PushOperator_ne_timeout _ _) ?_
      intro u s1 h1
      have i1 := PushOperator_inv h1
      unfold LoopThen
      refine M.bind_ne_timeout (ih.1 s1 (by rw [i1.1, i1.2.1]; omega)) ?_
      intro u2 s2 _
      exact finishParse_ne_timeout _

theorem scanNumber_length : ∀ (l : List Char) (k : Nat), (scanNumber l k).2.length ≤ l.length := by
  intro l
  induction l with
  | nil => intro k; simp [scanNumber]
  | cons c cs ih =>
    intro k
    rw [scanNumber]
    split
    · have := ih (k + 1)
      simp only [List.length_cons]
      omega
    · simp

theorem scanName_length : ∀ (l : List Char) (k : Nat), (scanName l k).2.length ≤ l.length := by
  intro l
  induction l with
  | nil => intro k; simp [scanName]
  | cons c cs ih =>
    intro k
    rw [scanName]
    split
    · have := ih (k + 1)
      simp only [List.length_cons]
      omega
    · simp

theorem scanNumber_first {c : Char} (cs : List Char) (h : (isdigit c || c == '.') = true) :
    (scanNumber (c :: cs) 0).2.length ≤ cs.length := by
  rw [scanNumber]
  simp only [h, Bool.true_and, Nat.zero_lt_succ, decide_True, if_true]
  exact scanNumber_length cs _

theorem scanName_first {c : Char} (cs : List Char) (h : (isalpha c || c == '_') = true) :
    (scanName (c :: cs) 0).2.length ≤ cs.length := by
  have hf : isforname c = true := by
    simp only [isforname, Bool.or_eq_true] at h ⊢
    rcases h with h | h
    · exact Or.inl (Or.inl h)
    · exact Or.inr h
  rw [scanName]
  simp only [hf, Bool.true_and, Nat.zero_lt_succ, decide_True, if_true]
  exact scanName_length cs _

theorem Emit_ne_timeout (e : Expr) (s : Statics) : Emit e s ≠ .timeout := by
  simp [Emit]

/-- With a fuel of the length of the text, `Lex` does not run out of fuel. -/
theorem Lex_ne_timeout : ∀ (f : Nat) (inp : List Char) (s : Statics),
    inp.length ≤ f → Lex f inp s ≠ .timeout := by
  intro f
  induction f with
  | zero =>
    intro inp s h
    have : inp = [] := List.length_eq_zero.mp (by omega)
    subst this
    simp [Lex]
  | succ f ih =>
    intro inp s h
    cases inp with
    | nil => simp [Lex]
    | cons c cs =>
      simp only [List.length_cons] at h
      rw [Lex]
      refine M.bind_ne_timeout (by simp) ?_
      intro cnt s1 h1
      split
      · exact raise_ne_timeout _ _
      · split
        · next hc =>
          refine M.bind_ne_timeout (Emit_ne_timeout _ _) ?_
          intro u s2 _
          exact ih _ _ (by have := scanNumber_first cs hc; omega)
        · split
          · next hc =>
            dsimp only
            split
            · refine M.bind_ne_timeout (Emit_ne_timeout _ _) ?_
              intro u s2 _
              exact ih _ _ (by have := scanName_first cs hc; omega)
            · exact raise_ne_timeout _ _
          · split
            · refine M.bind_ne_timeout (Emit_ne_timeout _ _) ?_
              intro u s2 _
              exact ih _ _ (by omega)
            · split
              · exact ih _ _ (by omega)
              · exact raise_ne_timeout _ _

/-- The `try` block never runs out of fuel: the model of `FromString` always
ends as a return of a tree, as an uncaught `throw`, or as `oops`. -/
theorem FromString_ne_timeout (inp : List Char) (s : Statics) :
    FromString inp s ≠ .timeout := by
  have hT : ∀ s0, TryBlock inp s0 ≠ .timeout := by
    intro s0
    unfold TryBlock
    refine M.bind_ne_timeout (Lex_ne_timeout _ _ _ (Nat.le_refl _)) ?_
    intro u s1 _
    refine M.bind_ne_timeout ((Parse_ne_timeout _).2 s1 (Nat.le_refl _)) ?_
    intro u2 s2 _
    refine M.bind_ne_timeout (PopOperand_ne_timeout _) ?_
    intro r s3 _
    exact pure_ne_timeout _ _
  unfold FromString
  have := hT { s with Unparsed := [], Operands := [], Operators := [] }
  cases h : TryBlock inp { s with Unparsed := [], Operands := [], Operators := [] } with
  | ok r s1 => simp
  | throw e s1 => simp
  | oops => simp
  | timeout => exact absurd h this

/-! ## The claims -/

theorem FromString_text {toks : List Terminal} {t : Expr} (h : Derives .expr toks t)
    (hlen : toks.length < MAX_UNPARSED)
    (hb : ∀ tm ∈ toks, Terminal.longerThan 30 tm = false)
    (s : Statics) (hp : s.UnparsedP = 0) (txt : List Char) (htxt : spellAll toks = txt) :
    (FromString txt s).value = some t := by
  rw [← htxt]
  exact FromString_of_derives h hlen hb s hp

theorem longerThan_number {lit : List Char} (h : lit.length ≤ 30) :
    Terminal.longerThan 30 (.number lit) = false := by
  simp [Terminal.longerThan, h]

/-- A number literal as a factor, a term and an expression. -/
theorem Derives.numberAs (lit : List Char) (h : isNumber lit = true) :
    Derives .factor [.number lit] (Expr.FromConstant (atof lit)) ∧
    Derives .term [.number lit] (Expr.FromConstant (atof lit)) ∧
    Derives .expr [.number lit] (Expr.FromConstant (atof lit)) :=
  ⟨.number h, .factor (.number h), .term (.factor (.number h))⟩

/-- C1: for every text that the grammar derives as an expression, with fewer than
1024 tokens and number literals of at most 30 characters, `FromString` called with
the token cursor at 0 returns a tree, and the tree is the one the derivation
denotes. -/
theorem C1_grammar_refinement (toks : List Terminal) (t : Expr) (s : Statics)
    (h : Derives .expr toks t) (hlen : toks.length < 1024)
    (hlit : ∀ tm ∈ toks, Terminal.longerThan 30 tm = false) (hp : s.UnparsedP = 0) :
    (FromString (spellAll toks) s).value = some t ∧ t ≠ .null :=
  ⟨FromString_of_derives h hlen hlit s hp, derives_ne_null h⟩

/-- Witness for C1: the text `2+3*(4-1)`. -/
theorem C1_grammar_refinement_witness :
    Derives .expr
      [.number ['2'], .plus, .number ['3'], .star, .lparen, .number ['4'], .minus,
        .number ['1'], .rparen]
      ((Expr.FromConstant (atof ['2'])).Plus ((Expr.FromConstant (atof ['3'])).Times
        ((Expr.FromConstant (atof ['4'])).Minus (Expr.FromConstant (atof ['1']))))) ∧
    (FromString ['2', '+', '3', '*', '(', '4', '-', '1', ')'] Statics.init).value =
      some ((Expr.FromConstant (atof ['2'])).Plus ((Expr.FromConstant (atof ['3'])).Times
        ((Expr.FromConstant (atof ['4'])).Minus (Expr.FromConstant (atof ['1']))))) :=
  have d4 := (Derives.numberAs ['4'] rfl).2.2
  have d1 := (Derives.numberAs ['1'] rfl).2.1
  have d3 := (Derives.numberAs ['3'] rfl).2.1
  have d2 := (Derives.numberAs ['2'] rfl).2.2
  have d := Derives.plus d2 (Derives.times d3 (Derives.paren (Derives.minus d4 d1)))
  ⟨d, (C1_grammar_refinement _ _ Statics.init d (by decide) (by decide) rfl).1⟩

/-- C2: reading `Eval` over the real numbers, for every finished tree `t` with no
ParamDirect node, every handle `p` and every assignment at which every divisor
subtree is nonzero and every Sqrt operand is positive, `PartialWrt` returns a tree
`t'`, `t'` evaluates to a number `d`, and `d` is the derivative at the assigned
value of `p` of the function `F` that sends a value `v` of `p` to `Eval` of `t`. -/
theorem C2_partial_derivative (t : Expr) (p : hParam) (σ : hParam → ℝ) (deref : ℕ → ℝ)
    (hfin : t.finished = true) (hnd : t.hasDirect = false) (hreg : Regular σ deref t) :
    ∃ t' d F, PartialWrt p t = some t' ∧
      Eval ⟨Real.sqrt, Real.sin, Real.cos⟩ σ deref t' = some d ∧
      (∀ v, Eval ⟨Real.sqrt, Real.sin, Real.cos⟩ (Function.update σ p v) deref t = some (F v)) ∧
      HasDerivAt F d (σ p) :=
  PartialWrt_hasDerivAt p σ deref t hfin hnd hreg

/-- Witness for C2: the quotient `p0 / sqrt(p1)` at the assignment that gives every
parameter the value 1, differentiated with respect to `p1`. -/
theorem C2_partial_derivative_witness :
    Regular (fun _ => 1) (fun _ => 0)
      ((Expr.FromParam ⟨0⟩).Div (Expr.FromParam ⟨1⟩).Sqrt) ∧
    ∃ t' d F, PartialWrt ⟨1⟩ ((Expr.FromParam ⟨0⟩).Div (Expr.FromParam ⟨1⟩).Sqrt) = some t' ∧
      Eval ⟨Real.sqrt, Real.sin, Real.cos⟩ (fun _ => (1 : ℝ)) (fun _ => (0 : ℝ)) t' = some d ∧
      (∀ v, Eval ⟨Real.sqrt, Real.sin, Real.cos⟩
        (Function.update (fun _ => (1 : ℝ)) ⟨1⟩ v) (fun _ => (0 : ℝ))
        ((Expr.FromParam ⟨0⟩).Div (Expr.FromParam ⟨1⟩).Sqrt) = some (F v)) ∧
      HasDerivAt F d ((fun _ => (1 : ℝ)) (⟨1⟩ : hParam)) :=
  have hreg : Regular (fun _ => 1) (fun _ => 0)
      ((Expr.FromParam ⟨0⟩).Div (Expr.FromParam ⟨1⟩).Sqrt) := by
    simp [Regular, Expr.Div, Expr.Sqrt, Expr.AnyOp, Expr.FromParam, Eval]
  ⟨hreg, C2_partial_derivative _ ⟨1⟩ (fun _ => 1) (fun _ => 0) rfl rfl hreg⟩

/-- C3 (code at the failing input): the first call of `FromString` on `2` from the
initial statics returns the constant 2 and leaves the cursor at 1; the second call
on the same text, from the statics the first call left, returns nothing: `Parse`
throws "end of expression unexpected" and the throw leaves `FromString`. -/
theorem C3_second_call_fails :
    (FromString ['2'] Statics.init).value = some (Expr.FromConstant 2) ∧
    (FromString ['2'] Statics.init).final.map (fun s => s.UnparsedP) = some 1 ∧
    ((FromString ['2'] Statics.init).final.bind
      (fun s1 => (FromString ['2'] s1).value)) = none ∧
    ((FromString ['2'] Statics.init).final.bind
      (fun s1 => (FromString ['2'] s1).thrown)) = some "end of expression unexpected" := by
  decide!

/-- C4 (counterexample): with the 31-digit literal `x = 1111111111111111111111111111111`
the call on `x+2*3` returns the constant of the first 30 digits, not
`Plus(x, Times(2, 3))`: the lexer cuts a run of digits after 30 characters. -/
theorem C4_counterexample :
    isNumber "1111111111111111111111111111111".toList = true ∧
    (FromString "1111111111111111111111111111111+2*3".toList Statics.init).value =
      some (Expr.FromConstant 111111111111111111111111111111) ∧
    (FromString "1111111111111111111111111111111+2*3".toList Statics.init).value ≠
      some ((Expr.FromConstant (atof "1111111111111111111111111111111".toList)).Plus
        ((Expr.FromConstant (atof ['2'])).Times (Expr.FromConstant (atof ['3'])))) := by
  decide!

/-- C4 (amended): for all number literals `x`, `y`, `z` of at most 30 characters,
`FromString` with the token cursor at 0 returns `Plus(x, Times(y, z))` on `x+y*z`
and `Times(Plus(x, y), z)` on `(x+y)*z`; the first tree evaluates to `x + y * z`
and the second to `(x + y) * z`. -/
theorem C4_precedence (x y z : List Char) (s : Statics)
    (hx : isNumber x = true) (hy : isNumber y = true) (hz : isNumber z = true)
    (hx30 : x.length ≤ 30) (hy30 : y.length ≤ 30) (hz30 : z.length ≤ 30)
    (hp : s.UnparsedP = 0) :
    (FromString (x ++ '+' :: (y ++ '*' :: z)) s).value =
      some ((Expr.FromConstant (atof x)).Plus
        ((Expr.FromConstant (atof y)).Times (Expr.FromConstant (atof z)))) ∧
    (FromString ('(' :: (x ++ '+' :: (y ++ ')' :: '*' :: z))) s).value =
      some (((Expr.FromConstant (atof x)).Plus (Expr.FromConstant (atof y))).Times
        (Expr.FromConstant (atof z))) ∧
    (∀ (σ : hParam → ℝ) (deref : ℕ → ℝ), Eval ⟨Real.sqrt, Real.sin, Real.cos⟩ σ deref
      ((Expr.FromConstant (atof x)).Plus
        ((Expr.FromConstant (atof y)).Times (Expr.FromConstant (atof z)))) =
      some ((atof x : ℝ) + (atof y : ℝ) * (atof z : ℝ))) ∧
    (∀ (σ : hParam → ℝ) (deref : ℕ → ℝ), Eval ⟨Real.sqrt, Real.sin, Real.cos⟩ σ deref
      (((Expr.FromConstant (atof x)).Plus (Expr.FromConstant (atof y))).Times
        (Expr.FromConstant (atof z))) =
      some (((atof x : ℝ) + (atof y : ℝ)) * (atof z : ℝ))) := by
  have dx := Derives.numberAs x hx
  have dy := Derives.numberAs y hy
  have dz := Derives.numberAs z hz
  have lx := longerThan_number hx30
  have ly := longerThan_number hy30
  have lz := longerThan_number hz30
  refine ⟨?_, ?_, ?_, ?_⟩
  · refine FromString_text (Derives.plus dx.2.2 (Derives.times dy.2.1 dz.1)) (by simp [MAX_UNPARSED]) ?_ s hp
      _ (by simp [spellAll, Terminal.spell])
    intro tm hm
    simp at hm
    rcases hm with rfl | rfl | rfl | rfl | rfl <;> first | assumption | rfl
  · refine FromString_text
      (Derives.term (Derives.times (Derives.factor (Derives.paren
        (Derives.plus dx.2.2 dy.2.1))) dz.1)) (by simp [MAX_UNPARSED]) ?_ s hp
      _ (by simp [spellAll, Terminal.spell])
    intro tm hm
    simp at hm
    rcases hm with rfl | rfl | rfl | rfl | rfl | rfl | rfl <;> first | assumption | rfl
  · intro σ deref
    simp [Eval, Expr.Plus, Expr.Times, Expr.AnyOp, Expr.FromConstant, XUnion.getV]
  · intro σ deref
    simp [Eval, Expr.Plus, Expr.Times, Expr.AnyOp, Expr.FromConstant, XUnion.getV]

/-- Witness for C4: `2+3*4` evaluates to 14 and `(2+3)*4` evaluates to 20. -/
theorem C4_precedence_witness :
    (∃ t, (FromString ['2', '+', '3', '*', '4'] Statics.init).value = some t ∧
      Eval ⟨Real.sqrt, Real.sin, Real.cos⟩ (fun _ => (0 : ℝ)) (fun _ => (0 : ℝ)) t = some 14) ∧
    (∃ t, (FromString ['(', '2', '+', '3', ')', '*', '4'] Statics.init).value = some t ∧
      Eval ⟨Real.sqrt, Real.sin, Real.cos⟩ (fun _ => (0 : ℝ)) (fun _ => (0 : ℝ)) t = some 20) := by
  have h := C4_precedence ['2'] ['3'] ['4'] Statics.init rfl rfl rfl (by decide) (by decide)
    (by decide) rfl
  have e2 : atof ['2'] = 2 := by decide!
  have e3 : atof ['3'] = 3 := by decide!
  have e4 : atof ['4'] = 4 := by decide!
  refine ⟨⟨_, h.1, ?_⟩, ⟨_, h.2.1, ?_⟩⟩
  · rw [h.2.2.1, e2, e3, e4]; norm_num
  · rw [h.2.2.2, e2, e3, e4]; norm_num

/-- C5 (counterexample): with the 31-digit literal `x = 1111111111111111111111111111111`
the call on `x-3-4` returns the constant of the first 30 digits, not
`Minus(Minus(x, 3), 4)`. -/
theorem C5_counterexample :
    isNumber "1111111111111111111111111111111".toList = true ∧
    (FromString "1111111111111111111111111111111-3-4".toList Statics.init).value =
      some (Expr.FromConstant 111111111111111111111111111111) ∧
    (FromString "1111111111111111111111111111111-3-4".toList Statics.init).value ≠
      some (((Expr.FromConstant (atof "1111111111111111111111111111111".toList)).Minus
        (Expr.FromConstant (atof ['3']))).Minus (Expr.FromConstant (atof ['4']))) := by
  decide!

/-- C5 (amended): for all number literals `x`, `y`, `z` of at most 30 characters and
binary operators `b1`, `b2` of equal precedence (both among `+`, `-` or both among
`*`, `/`), `FromString` with the token cursor at 0 on `x b1 y b2 z` returns the
tree `op2(op1(x, y), z)`. -/
theorem C5_left_associativity (b1 b2 : Terminal) (x y z : List Char) (s : Statics)
    (hb : ((b1 = .plus ∨ b1 = .minus) ∧ (b2 = .plus ∨ b2 = .minus)) ∨
      ((b1 = .star ∨ b1 = .slash) ∧ (b2 = .star ∨ b2 = .slash)))
    (hx : isNumber x = true) (hy : isNumber y = true) (hz : isNumber z = true)
    (hx30 : x.length ≤ 30) (hy30 : y.length ≤ 30) (hz30 : z.length ≤ 30)
    (hp : s.UnparsedP = 0) :
    (FromString (x ++ (b1.spell ++ (y ++ (b2.spell ++ z)))) s).value =
      some (((Expr.FromConstant (atof x)).AnyOp b1.binOp (Expr.FromConstant (atof y))).AnyOp
        b2.binOp (Expr.FromConstant (atof z))) := by
  have dx := Derives.numberAs x hx
  have dy := Derives.numberAs y hy
  have dz := Derives.numberAs z hz
  have lx := longerThan_number hx30
  have ly := longerThan_number hy30
  have lz := longerThan_number hz30
  have hlit : ∀ b1 b2 : Terminal, b1.longerThan 30 = false → b2.longerThan 30 = false →
      ∀ tm ∈ ([.number x] ++ b1 :: [.number y]) ++ b2 :: [.number z],
        Terminal.longerThan 30 tm = false := by
    intro b1 b2 h1 h2 tm hm
    simp at hm
    rcases hm with rfl | rfl | rfl | rfl | rfl <;> assumption
  rcases hb with ⟨h1, h2⟩ | ⟨h1, h2⟩
  · rcases h1 with rfl | rfl <;> rcases h2 with rfl | rfl
    · exact FromString_text (Derives.plus (Derives.plus dx.2.2 dy.2.1) dz.2.1)
        (by simp [MAX_UNPARSED]) (hlit _ _ rfl rfl) s hp _ (by simp [spellAll, Terminal.spell])
    · exact FromString_text (Derives.minus (Derives.plus dx.2.2 dy.2.1) dz.2.1)
        (by simp [MAX_UNPARSED]) (hlit _ _ rfl rfl) s hp _ (by simp [spellAll, Terminal.spell])
    · exact FromString_text (Derives.plus (Derives.minus dx.2.2 dy.2.1) dz.2.1)
        (by simp [MAX_UNPARSED]) (hlit _ _ rfl rfl) s hp _ (by simp [spellAll, Terminal.spell])
    · exact FromString_text (Derives.minus (Derives.minus dx.2.2 dy.2.1) dz.2.1)
        (by simp [MAX_UNPARSED]) (hlit _ _ rfl rfl) s hp _ (by simp [spellAll, Terminal.spell])
  · rcases h1 with rfl | rfl <;> rcases h2 with rfl | rfl
    · exact FromString_text (Derives.term (Derives.times (Derives.times dx.2.1 dy.1) dz.1))
        (by simp [MAX_UNPARSED]) (hlit _ _ rfl rfl) s hp _ (by simp [spellAll, Terminal.spell])
    · exact FromString_text (Derives.term (Derives.div (Derives.times dx.2.1 dy.1) dz.1))
        (by simp [MAX_UNPARSED]) (hlit _ _ rfl rfl) s hp _ (by simp [spellAll, Terminal.spell])
    · exact FromString_text (Derives.term (Derives.times (Derives.div dx.2.1 dy.1) dz.1))
        (by simp [MAX_UNPARSED]) (hlit _ _ rfl rfl) s hp _ (by simp [spellAll, Terminal.spell])
    · exact FromString_text (Derives.term (Derives.div (Derives.div dx.2.1 dy.1) dz.1))
        (by simp [MAX_UNPARSED]) (hlit _ _ rfl rfl) s hp _ (by simp [spellAll, Terminal.spell])

/-- Witness for C5: `2-3-4` is read as `Minus(Minus(2, 3), 4)` and evaluates
to -5. -/
theorem C5_left_associativity_witness :
    ∃ t, (FromString ['2', '-', '3', '-', '4'] Statics.init).value = some t ∧
      Eval ⟨Real.sqrt, Real.sin, Real.cos⟩ (fun _ => (0 : ℝ)) (fun _ => (0 : ℝ)) t =
        some (-5) := by
  have h := C5_left_associativity .minus .minus ['2'] ['3'] ['4'] Statics.init
    (Or.inl ⟨Or.inr rfl, Or.inr rfl⟩) rfl rfl rfl (by decide) (by decide) (by decide) rfl
  have e2 : atof ['2'] = 2 := by decide!
  have e3 : atof ['3'] = 3 := by decide!
  have e4 : atof ['4'] = 4 := by decide!
  refine ⟨_, h, ?_⟩
  rw [e2, e3, e4]
  simp [Eval, Expr.AnyOp, Expr.FromConstant, XUnion.getV, Terminal.binOp]
  norm_num

/-- C6 (counterexample): with the 31-digit literal `y = 1111111111111111111111111111111`
the call on `3*-y` does not return `Times(3, Negate(y))`; it returns
`Times(3, Negate(c))` for the constant `c` of the first 30 digits of `y`. -/
theorem C6_counterexample :
    isNumber "1111111111111111111111111111111".toList = true ∧
    (FromString "3*-1111111111111111111111111111111".toList Statics.init).value =
      some ((Expr.FromConstant 3).Times
        (Expr.FromConstant 111111111111111111111111111111).Negate) ∧
    (FromString "3*-1111111111111111111111111111111".toList Statics.init).value ≠
      some ((Expr.FromConstant (atof ['3'])).Times
        (Expr.FromConstant (atof "1111111111111111111111111111111".toList)).Negate) := by
  decide!

/-- C6 (amended): for all number literals `x`, `y` of at most 30 characters,
`FromString` with the token cursor at 0 returns `Plus(Negate(x), y)` on `-x+y`,
`Times(x, Negate(y))` on `x*-y`, `Negate(x)` on `(-x)` and `Minus(x, y)` on `x-y`:
a `-` at the start of an expression, after a binary operator or after `(` is the
unary negate, and a `-` after an operand is the binary minus. -/
theorem C6_unary_minus (x y : List Char) (s : Statics)
    (hx : isNumber x = true) (hy : isNumber y = true)
    (hx30 : x.length ≤ 30) (hy30 : y.length ≤ 30) (hp : s.UnparsedP = 0) :
    (FromString ('-' :: (x ++ '+' :: y)) s).value =
      some ((Expr.FromConstant (atof x)).Negate.Plus (Expr.FromConstant (atof y))) ∧
    (FromString (x ++ '*' :: '-' :: y) s).value =
      some ((Expr.FromConstant (atof x)).Times (Expr.FromConstant (atof y)).Negate) ∧
    (FromString ('(' :: '-' :: (x ++ [')'])) s).value =
      some (Expr.FromConstant (atof x)).Negate ∧
    (FromString (x ++ '-' :: y) s).value =
      some ((Expr.FromConstant (atof x)).Minus (Expr.FromConstant (atof y))) := by
  have dx := Derives.numberAs x hx
  have dy := Derives.numberAs y hy
  have lx := longerThan_number hx30
  have ly := longerThan_number hy30
  refine ⟨?_, ?_, ?_, ?_⟩
  · refine FromString_text
      (Derives.plus (Derives.term (Derives.factor (Derives.negate dx.1))) dy.2.1)
      (by simp [MAX_UNPARSED]) ?_ s hp _ (by simp [spellAll, Terminal.spell])
    intro tm hm
    simp at hm
    rcases hm with rfl | rfl | rfl | rfl <;> first | assumption | rfl
  · refine FromString_text (Derives.term (Derives.times dx.2.1 (Derives.negate dy.1)))
      (by simp [MAX_UNPARSED]) ?_ s hp _ (by simp [spellAll, Terminal.spell])
    intro tm hm
    simp at hm
    rcases hm with rfl | rfl | rfl | rfl <;> first | assumption | rfl
  · refine FromString_text
      (Derives.term (Derives.factor (Derives.paren
        (Derives.term (Derives.factor (Derives.negate dx.1))))))
      (by simp [MAX_UNPARSED]) ?_ s hp _ (by simp [spellAll, Terminal.spell])
    intro tm hm
    simp at hm
    rcases hm with rfl | rfl | rfl | rfl <;> first | assumption | rfl
  · refine FromString_text (Derives.minus dx.2.2 dy.2.1)
      (by simp [MAX_UNPARSED]) ?_ s hp _ (by simp [spellAll, Terminal.spell])
    intro tm hm
    simp at hm
    rcases hm with rfl | rfl | rfl <;> first | assumption | rfl

/-- Witness for C6: `-2+3` evaluates to 1 and `3*-2` evaluates to -6. -/
theorem C6_unary_minus_witness :
    (∃ t, (FromString ['-', '2', '+', '3'] Statics.init).value = some t ∧
      Eval ⟨Real.sqrt, Real.sin, Real.cos⟩ (fun _ => (0 : ℝ)) (fun _ => (0 : ℝ)) t = some 1) ∧
    (∃ t, (FromString ['3', '*', '-', '2'] Statics.init).value = some t ∧
      Eval ⟨Real.sqrt, Real.sin, Real.cos⟩ (fun _ => (0 : ℝ)) (fun _ => (0 : ℝ)) t =
        some (-6)) := by
  have h23 := C6_unary_minus ['2'] ['3'] Statics.init rfl rfl (by decide) (by decide) rfl
  have h32 := C6_unary_minus ['3'] ['2'] Statics.init rfl rfl (by decide) (by decide) rfl
  have e2 : atof ['2'] = 2 := by decide!
  have e3 : atof ['3'] = 3 := by decide!
  refine ⟨⟨_, h23.1, ?_⟩, ⟨_, h32.2.1, ?_⟩⟩
  · rw [e2, e3]
    simp [Eval, Expr.Plus, Expr.Negate, Expr.AnyOp, Expr.FromConstant, XUnion.getV]
    norm_num
  · rw [e2, e3]
    simp [Eval, Expr.Times, Expr.Negate, Expr.AnyOp, Expr.FromConstant, XUnion.getV]
    norm_num

/-- C7 (code at the failing input): on the text `2 3` the call returns the
constant 2, the tree of the first token, and on `sqrt(2 3)` it returns nothing,
not `Sqrt` of that tree: `Parse` throws "expected: )" and the throw leaves
`FromString`. -/
theorem C7_sqrt_of_text_with_leftover :
    (FromString "2 3".toList Statics.init).value = some (Expr.FromConstant 2) ∧
    (FromString "sqrt(2 3)".toList Statics.init).value = none ∧
    (FromString "sqrt(2 3)".toList Statics.init).thrown = some "expected: )" := by
  decide!

/-- C8 (code at the failing input): on `(2+3` the nested `Parse` returns at the end
of the tokens, `Next()` is `NULL`, and the test `n->op != PAREN` dereferences it:
the call neither returns nor throws "expected: )". That throw is met only when a
token other than `)` follows the group, as in `(2+3 4`. -/
theorem C8_missing_paren_at_end :
    FromString "(2+3".toList Statics.init = .oops ∧
    (FromString "(2+3 4".toList Statics.init).value = none ∧
    (FromString "(2+3 4".toList Statics.init).thrown = some "expected: )" := by
  decide!

/-- C9 (code at the failing inputs): on `2 3`, `2)` and `2+3)` the call returns the
tree of the tokens in front of the leftover token; on `2 3` it returns with the
cursor at 1 of 2 tokens. -/
theorem C9_leftover_token_accepted :
    (FromString "2 3".toList Statics.init).value = some (Expr.FromConstant 2) ∧
    (FromString "2)".toList Statics.init).value = some (Expr.FromConstant 2) ∧
    (FromString "2+3)".toList Statics.init).value =
      some ((Expr.FromConstant 2).Plus (Expr.FromConstant 3)) ∧
    (FromString "2 3".toList Statics.init).final.map
      (fun s => (s.UnparsedP, s.Unparsed.length)) = some (1, 2) := by
  decide!

/-- A complete expression followed by a binary operator ends where an operand is
expected. -/
theorem endsOpen_of_derives_binop {ts : List Terminal} {t : Expr} (h : Derives .expr ts t)
    (b : Terminal) (hb : b = .plus ∨ b = .minus ∨ b = .star ∨ b = .slash) :
    EndsOpen .expr (ts ++ [b]) := by
  rcases hb with rfl | rfl | rfl | rfl
  · exact EndsOpen.plus h (EndsOpen.factor EndsOpen.nil)
  · exact EndsOpen.minus h (EndsOpen.factor EndsOpen.nil)
  · cases h with
    | term h1 => exact EndsOpen.term (EndsOpen.times h1 EndsOpen.nil)
    | plus h1 h2 =>
      rw [List.append_assoc]
      exact EndsOpen.plus h1 (EndsOpen.times h2 EndsOpen.nil)
    | minus h1 h2 =>
      rw [List.append_assoc]
      exact EndsOpen.minus h1 (EndsOpen.times h2 EndsOpen.nil)
  · cases h with
    | term h1 => exact EndsOpen.term (EndsOpen.div h1 EndsOpen.nil)
    | plus h1 h2 =>
      rw [List.append_assoc]
      exact EndsOpen.plus h1 (EndsOpen.div h2 EndsOpen.nil)
    | minus h1 h2 =>
      rw [List.append_assoc]
      exact EndsOpen.minus h1 (EndsOpen.div h2 EndsOpen.nil)

/-- C10 (code at the failing inputs): for every text with fewer than 1024 tokens
and number literals of at most 30 characters that is the beginning of a text of
the grammar, cut where an operand is expected (the empty text, a complete
expression followed by a binary operator, a beginning that ends in a unary
operator or in `(`), `Parse` throws "end of expression unexpected" and, entered
with the token cursor at 0, `FromString` does not return `NULL`: the throw leaves
it uncaught. -/
theorem C10_incomplete_input (toks : List Terminal) (s : Statics)
    (h : EndsOpen .expr toks) (hlen : toks.length < 1024)
    (hlit : ∀ tm ∈ toks, Terminal.longerThan 30 tm = false) (hp : s.UnparsedP = 0) :
    (FromString (spellAll toks) s).thrown = some "end of expression unexpected" ∧
    (FromString (spellAll toks) s).value = none ∧
    (TryBlock (spellAll toks) { s with Unparsed := [], Operands := [], Operators := [] }).thrown
      = some "end of expression unexpected" := by
  obtain ⟨s', hs'⟩ := TryBlock_of_open h hlen hlit
  refine ⟨?_, ?_, ?_⟩
  · simp only [FromString, hp, hs', Res.thrown]
  · simp only [FromString, hp, hs', Res.value]
  · simp only [hp, hs', Res.thrown]

/-- Witness for C10: the text `2+`. -/
theorem C10_incomplete_input_witness :
    EndsOpen .expr [.number ['2'], .plus] ∧
    (FromString ['2', '+'] Statics.init).thrown = some "end of expression unexpected" ∧
    (FromString ['2', '+'] Statics.init).value = none ∧
    (TryBlock ['2', '+'] ⟨[], 0, [], []⟩).thrown = some "end of expression unexpected" :=
  have d := endsOpen_of_derives_binop (Derives.numberAs ['2'] rfl).2.2 .plus (Or.inl rfl)
  ⟨d, C10_incomplete_input _ Statics.init d (by decide) (by decide) rfl⟩

/-! ## Facts about `PartialWrt` and `Eval` on finished trees -/

theorem proper_of_finished : ∀ t : Expr, t.finished = true → t.proper = true := by
  intro t
  induction t with
  | null => intro h; simp [Expr.finished] at h
  | node op x a b iha ihb =>
    intro h
    cases op <;> simp_all [Expr.finished, Expr.proper]

theorem Eval_of_finished {α : Type} [DivisionRing α] (m : Libm α) (σ : hParam → α)
    (deref : Nat → α) : ∀ t : Expr, t.finished = true → ∃ v, Eval m σ deref t = some v := by
  intro t
  induction t with
  | null => intro h; simp [Expr.finished] at h
  | node op x a b iha ihb =>
    intro h
    cases op <;> simp only [Expr.finished, Bool.and_eq_true, Bool.false_eq_true] at h
    case PARAM => exact ⟨_, rfl⟩
    case PARAM_PTR => exact ⟨_, rfl⟩
    case CONSTANT => exact ⟨_, rfl⟩
    all_goals
      first
      | (obtain ⟨hfa, hfb⟩ := h
         obtain ⟨va, hva⟩ := iha hfa
         obtain ⟨vb, hvb⟩ := ihb hfb
         simp [Eval, hva, hvb])
      | (obtain ⟨va, hva⟩ := iha h
         simp [Eval, hva])

theorem PartialWrt_none_iff (p : hParam) : ∀ t : Expr, t.proper = true →
    (PartialWrt p t = none ↔ t.hasIllegal = true) := by
  intro t
  induction t with
  | null => intro h; simp [Expr.proper] at h
  | node op x a b iha ihb =>
    intro h
    cases op <;> simp only [Expr.proper, Bool.and_eq_true] at h
    case PARAM => simp [PartialWrt, Expr.hasIllegal]
    case PARAM_PTR => simp [PartialWrt, Expr.hasIllegal]
    case CONSTANT => simp [PartialWrt, Expr.hasIllegal]
    case ALL_RESOLVED => simp [PartialWrt, Expr.hasIllegal]
    case PAREN => simp [PartialWrt, Expr.hasIllegal]
    case BINARY_OP => simp [PartialWrt, Expr.hasIllegal]
    case UNARY_OP => simp [PartialWrt, Expr.hasIllegal]
    all_goals
      first
      | (obtain ⟨hfa, hfb⟩ := h
         have h1 := iha hfa
         have h2 := ihb hfb
         cases ha : PartialWrt p a <;> cases hb : PartialWrt p b <;>
           simp_all [PartialWrt, Expr.hasIllegal])
      | (have h1 := iha h
         cases ha : PartialWrt p a <;> simp_all [PartialWrt, Expr.hasIllegal])

theorem PartialWrt_finished (p : hParam) : ∀ t : Expr, t.finished = true →
    t.hasDirect = false →
    ∃ t', PartialWrt p t = some t' ∧ t'.finished = true ∧ t'.hasDirect = false := by
  intro t
  induction t with
  | null => intro h; simp [Expr.finished] at h
  | node op x a b iha ihb =>
    intro h hd
    simp only [Expr.hasDirect, Bool.or_eq_false_iff, decide_eq_false_iff_not] at hd
    obtain ⟨⟨hop, hda⟩, hdb⟩ := hd
    cases op <;> simp only [Expr.finished, Bool.and_eq_true, Bool.false_eq_true] at h
    case PARAM_PTR => exact absurd rfl hop
    case PARAM =>
      exact ⟨_, rfl, by simp [Expr.FromConstant, Expr.finished],
        by simp [Expr.FromConstant, Expr.hasDirect]⟩
    case CONSTANT =>
      exact ⟨_, rfl, by simp [Expr.FromConstant, Expr.finished],
        by simp [Expr.FromConstant, Expr.hasDirect]⟩
    all_goals
      first
      | (obtain ⟨hfa, hfb⟩ := h
         obtain ⟨da, h1, h2, h3⟩ := iha hfa hda
         obtain ⟨db, h4, h5, h6⟩ := ihb hfb hdb
         refine ⟨_, by simp [PartialWrt, h1, h4]; rfl, ?_, ?_⟩ <;>
           simp [Expr.Plus, Expr.Minus, Expr.Times, Expr.Div, Expr.Square, Expr.AnyOp,
             Expr.finished, Expr.hasDirect, hfa, hfb, hda, hdb, h2, h3, h5, h6])
      | (obtain ⟨da, h1, h2, h3⟩ := iha h hda
         refine ⟨_, by simp [PartialWrt, h1]; rfl, ?_, ?_⟩ <;>
           simp [Expr.Times, Expr.Div, Expr.Sqrt, Expr.Negate, Expr.Sin, Expr.Cos,
             Expr.AnyOp, Expr.FromConstant,
             Expr.finished, Expr.hasDirect, h, hda, h2, h3])

/-- A tree on which `PartialWrt` succeeds is finished, and so is the result. -/
theorem finished_of_PartialWrt (p : hParam) : ∀ (t t' : Expr), PartialWrt p t = some t' →
    t.finished = true ∧ t'.finished = true := by
  intro t
  induction t with
  | null => intro t' h; simp [PartialWrt] at h
  | node op x a b iha ihb =>
    intro t' h
    cases op <;> simp only [PartialWrt] at h
    case PARAM => cases h; exact ⟨rfl, rfl⟩
    case CONSTANT => cases h; exact ⟨rfl, rfl⟩
    case PARAM_PTR => cases h
    case ALL_RESOLVED => cases h
    case PAREN => cases h
    case BINARY_OP => cases h
    case UNARY_OP => cases h
    all_goals
      cases ha : PartialWrt p a with
      | none => simp [ha] at h
      | some da =>
        obtain ⟨h1, h2⟩ := iha da ha
        first
        | (cases hb : PartialWrt p b with
           | none => simp [ha, hb] at h
           | some db =>
             simp [ha, hb] at h
             obtain ⟨h3, h4⟩ := ihb db hb
             subst h
             simp [Expr.Plus, Expr.Minus, Expr.Times, Expr.Div, Expr.Square, Expr.AnyOp,
               Expr.finished, h1, h2, h3, h4])
        | (simp [ha] at h
           subst h
           simp [Expr.Times, Expr.Div, Expr.Sqrt, Expr.Negate, Expr.Sin, Expr.Cos,
             Expr.AnyOp, Expr.FromConstant, Expr.finished, h1, h2])

/-! ## Claims about `PartialWrt` -/

/-- C14: leaf rules of differentiation. For every handle `p`, `PartialWrt` of a
Constant node is `Constant(0)`, and `PartialWrt` of `ParamRef(q)` is `Constant(1)`
when `q` equals `p` and `Constant(0)` otherwise; in every field the derivative of
a constant evaluates to 0 and the derivative of `ParamRef(q)` to 1 for `q = p` and
to 0 for every other handle. -/
theorem C14_leaf_rules (p q : hParam) (v : ℚ) (x : XUnion) (a b : Expr)
    (α : Type) [DivisionRing α] (m : Libm α) (σ : hParam → α) (deref : Nat → α) :
    PartialWrt p (Expr.FromConstant v) = some (Expr.FromConstant 0) ∧
    PartialWrt p (.node .CONSTANT x a b) = some (Expr.FromConstant 0) ∧
    PartialWrt p (Expr.FromParam q) = some (Expr.FromConstant (if q = p then 1 else 0)) ∧
    (PartialWrt p (Expr.FromConstant v)).bind (Eval m σ deref) = some 0 ∧
    (PartialWrt p (Expr.FromParam p)).bind (Eval m σ deref) = some 1 ∧
    (PartialWrt p (Expr.FromParam q)).bind (Eval m σ deref) = some (if q = p then 1 else 0) := by
  have hq : (if p.v = q.v then (1 : ℚ) else 0) = (if q = p then 1 else 0) := by
    by_cases h : q = p
    · subst h; simp
    · have h2 : ¬ p.v = q.v := by
        intro h3; apply h; cases p; cases q; simp_all
      simp [h, h2]
  refine ⟨rfl, rfl, ?_, ?_, ?_, ?_⟩
  · simp [PartialWrt, Expr.FromParam, XUnion.getParh, hq]
  · simp [PartialWrt, Expr.FromConstant, Eval, XUnion.getV]
  · simp [PartialWrt, Expr.FromConstant, Expr.FromParam, Eval, XUnion.getV, XUnion.getParh]
  · simp only [PartialWrt, Expr.FromParam, XUnion.getParh, hq]
    by_cases h : q = p <;> simp [h, Expr.FromConstant, Eval, XUnion.getV]

/-- C15: `PartialWrt` fails exactly on the trees that contain a ParamDirect node
or a node with a transient token tag, and on a finished tree with no ParamDirect
node it returns a tree that is again finished and has no ParamDirect node. Here
`t` is a tree: every child that one of its nodes uses is present. -/
theorem C15_failure_and_closure (t : Expr) (p : hParam) (ht : t.proper = true) :
    (PartialWrt p t = none ↔ t.hasIllegal = true) ∧
    (t.finished = true → t.hasDirect = false →
      ∃ t', PartialWrt p t = some t' ∧ t'.finished = true ∧ t'.hasDirect = false) :=
  ⟨PartialWrt_none_iff p t ht, PartialWrt_finished p t⟩

theorem C15_failure_and_closure_witness :
    ((Expr.FromParam ⟨1⟩).Times (Expr.FromConstant 2).Sqrt).proper = true ∧
    (PartialWrt ⟨1⟩ ((Expr.FromParam ⟨1⟩).Times (Expr.FromConstant 2).Sqrt) = none ↔
      ((Expr.FromParam ⟨1⟩).Times (Expr.FromConstant 2).Sqrt).hasIllegal = true) ∧
    ∃ t', PartialWrt ⟨1⟩ ((Expr.FromParam ⟨1⟩).Times (Expr.FromConstant 2).Sqrt) = some t' ∧
      t'.finished = true ∧ t'.hasDirect = false :=
  ⟨by decide,
    (C15_failure_and_closure ((Expr.FromParam ⟨1⟩).Times (Expr.FromConstant 2).Sqrt) ⟨1⟩
      (by decide)).1,
    (C15_failure_and_closure ((Expr.FromParam ⟨1⟩).Times (Expr.FromConstant 2).Sqrt) ⟨1⟩
      (by decide)).2 (by decide) (by decide)⟩

/-- C16: linearity. When `PartialWrt` succeeds on `a` and on `b`, giving `da` and
`db`, then at every parameter assignment and in every field both `da` and `db`
evaluate, `PartialWrt` succeeds on `Plus(a, b)` and on `Minus(a, b)`, and the
results evaluate to the sum and to the difference of the values of `da` and
`db`. -/
theorem C16_linearity (α : Type) [DivisionRing α] (m : Libm α) (σ : hParam → α)
    (deref : Nat → α) (p : hParam) (a b da db : Expr)
    (ha : PartialWrt p a = some da) (hb : PartialWrt p b = some db) :
    ∃ va vb, Eval m σ deref da = some va ∧ Eval m σ deref db = some vb ∧
      (PartialWrt p (a.Plus b)).bind (Eval m σ deref) = some (va + vb) ∧
      (PartialWrt p (a.Minus b)).bind (Eval m σ deref) = some (va - vb) := by
  obtain ⟨va, hva⟩ := Eval_of_finished m σ deref da (finished_of_PartialWrt p a da ha).2
  obtain ⟨vb, hvb⟩ := Eval_of_finished m σ deref db (finished_of_PartialWrt p b db hb).2
  refine ⟨va, vb, hva, hvb, ?_, ?_⟩
  · simp [Expr.Plus, Expr.AnyOp, PartialWrt, ha, hb, Eval, hva, hvb]
  · simp [Expr.Minus, Expr.AnyOp, PartialWrt, ha, hb, Eval, hva, hvb]

theorem C16_linearity_witness :
    PartialWrt ⟨1⟩ ((Expr.FromParam ⟨1⟩).Times (Expr.FromParam ⟨1⟩)) =
      some (((Expr.FromParam ⟨1⟩).Times (Expr.FromConstant 1)).Plus
        ((Expr.FromParam ⟨1⟩).Times (Expr.FromConstant 1))) ∧
    PartialWrt ⟨1⟩ (Expr.FromParam ⟨2⟩) = some (Expr.FromConstant 0) ∧
    ∃ va vb : ℚ,
      Eval ⟨id, id, id⟩ (fun _ => (3 : ℚ)) (fun _ => (0 : ℚ))
        (((Expr.FromParam ⟨1⟩).Times (Expr.FromConstant 1)).Plus
          ((Expr.FromParam ⟨1⟩).Times (Expr.FromConstant 1))) = some va ∧
      Eval ⟨id, id, id⟩ (fun _ => (3 : ℚ)) (fun _ => (0 : ℚ)) (Expr.FromConstant 0) = some vb ∧
      (PartialWrt ⟨1⟩ (((Expr.FromParam ⟨1⟩).Times (Expr.FromParam ⟨1⟩)).Plus
        (Expr.FromParam ⟨2⟩))).bind
          (Eval ⟨id, id, id⟩ (fun _ => (3 : ℚ)) (fun _ => (0 : ℚ))) = some (va + vb) ∧
      (PartialWrt ⟨1⟩ (((Expr.FromParam ⟨1⟩).Times (Expr.FromParam ⟨1⟩)).Minus
        (Expr.FromParam ⟨2⟩))).bind
          (Eval ⟨id, id, id⟩ (fun _ => (3 : ℚ)) (fun _ => (0 : ℚ))) = some (va - vb) :=
  ⟨by decide, by decide,
    C16_linearity ℚ ⟨id, id, id⟩ (fun _ => 3) (fun _ => 0) ⟨1⟩
      ((Expr.FromParam ⟨1⟩).Times (Expr.FromParam ⟨1⟩)) (Expr.FromParam ⟨2⟩) _ _
      (by decide) (by decide)⟩

/-- C18, counterexample: for `a = ParamRef(1)`, `b = ParamRef(2)` and `p = 1` the
tree that `PartialWrt(Times(a, b), p)` returns is `Plus(Times(a, b'), Times(b, a'))`
and not `Plus(Times(a', b), Times(b', a))`. -/
theorem C18_counterexample :
    PartialWrt ⟨1⟩ (Expr.FromParam ⟨1⟩) = some (Expr.FromConstant 1) ∧
    PartialWrt ⟨1⟩ (Expr.FromParam ⟨2⟩) = some (Expr.FromConstant 0) ∧
    PartialWrt ⟨1⟩ ((Expr.FromParam ⟨1⟩).Times (Expr.FromParam ⟨2⟩)) =
      some (((Expr.FromParam ⟨1⟩).Times (Expr.FromConstant 0)).Plus
        ((Expr.FromParam ⟨2⟩).Times (Expr.FromConstant 1))) ∧
    PartialWrt ⟨1⟩ ((Expr.FromParam ⟨1⟩).Times (Expr.FromParam ⟨2⟩)) ≠
      some (((Expr.FromConstant 1).Times (Expr.FromParam ⟨2⟩)).Plus
        ((Expr.FromConstant 0).Times (Expr.FromParam ⟨1⟩))) := by
  refine ⟨by decide, by decide, by decide, by decide⟩

/-- C18, amended: product rule, tree shape. When `PartialWrt` succeeds on `a` and
on `b`, giving `a'` and `b'`, then `PartialWrt(Times(a, b), p)` returns the tree
`Plus(Times(a, b'), Times(b, a'))`, with no simplification. -/
theorem C18_product_rule_shape (a b da db : Expr) (p : hParam)
    (ha : PartialWrt p a = some da) (hb : PartialWrt p b = some db) :
    PartialWrt p (a.Times b) = some ((a.Times db).Plus (b.Times da)) := by
  simp [Expr.Times, Expr.Plus, Expr.AnyOp, PartialWrt, ha, hb]

theorem C18_product_rule_shape_witness :
    PartialWrt ⟨1⟩ (Expr.FromParam ⟨1⟩) = some (Expr.FromConstant 1) ∧
    PartialWrt ⟨1⟩ (Expr.FromParam ⟨2⟩) = some (Expr.FromConstant 0) ∧
    PartialWrt ⟨1⟩ ((Expr.FromParam ⟨1⟩).Times (Expr.FromParam ⟨2⟩)) =
      some (((Expr.FromParam ⟨1⟩).Times (Expr.FromConstant 0)).Plus
        ((Expr.FromParam ⟨2⟩).Times (Expr.FromConstant 1))) :=
  ⟨by decide, by decide,
    C18_product_rule_shape (Expr.FromParam ⟨1⟩) (Expr.FromParam ⟨2⟩) _ _ ⟨1⟩
      (by decide) (by decide)⟩

/-! ## Texts the lexer rejects -/

theorem not_digit_of_alpha {c : Char} (h : (isalpha c || c == '_') = true) :
    (isdigit c || c == '.') = false := by
  simp only [isalpha, isdigit, Bool.or_eq_true, decide_eq_true_eq, beq_iff_eq,
    Bool.or_eq_false_iff, decide_eq_false_iff_not, not_and, not_le] at *
  rcases h with (⟨h1, _⟩ | ⟨h1, _⟩) | h1
  · refine ⟨fun _ => lt_of_lt_of_le (by decide) h1, ?_⟩
    rw [beq_eq_false_iff_ne]
    intro h2; subst h2; exact absurd h1 (by decide)
  · refine ⟨fun _ => lt_of_lt_of_le (by decide) h1, ?_⟩
    rw [beq_eq_false_iff_ne]
    intro h2; subst h2; exact absurd h1 (by decide)
  · subst h1; exact ⟨fun _ => by decide, by decide⟩

theorem scanNumber_stop (suf : List Char)
    (hs : ∃ x r, suf = x :: r ∧ (isdigit x || x == '.') = false) :
    ∀ (pre : List Char) (k : Nat),
      ∃ p1 p2, pre = p1 ++ p2 ∧ (scanNumber (pre ++ suf) k).2 = p2 ++ suf := by
  obtain ⟨x, r, rfl, hx⟩ := hs
  intro pre
  induction pre with
  | nil => intro k; exact ⟨[], [], rfl, by simp [scanNumber, hx]⟩
  | cons c pre ih =>
    intro k
    by_cases hc : ((isdigit c || c == '.') && decide (k < 30)) = true
    · obtain ⟨p1, p2, h1, h2⟩ := ih (k + 1)
      refine ⟨c :: p1, p2, by simp [h1], ?_⟩
      simp only [List.cons_append, scanNumber, hc, if_true]
      exact h2
    · refine ⟨[], c :: pre, rfl, ?_⟩
      simp only [List.cons_append, scanNumber, hc]
      rfl

theorem scanName_stop (suf : List Char)
    (hs : ∃ x r, suf = x :: r ∧ isforname x = false) :
    ∀ (pre : List Char) (k : Nat),
      ∃ p1 p2, pre = p1 ++ p2 ∧ (scanName (pre ++ suf) k).2 = p2 ++ suf := by
  obtain ⟨x, r, rfl, hx⟩ := hs
  intro pre
  induction pre with
  | nil => intro k; exact ⟨[], [], rfl, by simp [scanName, hx]⟩
  | cons c pre ih =>
    intro k
    by_cases hc : (isforname c && decide (k < 30)) = true
    · obtain ⟨p1, p2, h1, h2⟩ := ih (k + 1)
      refine ⟨c :: p1, p2, by simp [h1], ?_⟩
      simp only [List.cons_append, scanName, hc, if_true]
      exact h2
    · refine ⟨[], c :: pre, rfl, ?_⟩
      simp only [List.cons_append, scanName, hc]
      rfl

theorem scanName_fst (post : List Char) (hpost : ∀ c, post.head? = some c → isforname c = false) :
    ∀ (name : List Char) (k : Nat), name.all isforname = true →
      (scanName (name ++ post) k).1 = name.take (30 - k) := by
  intro name
  induction name with
  | nil =>
    intro k _
    cases post with
    | nil => simp [scanName]
    | cons c cs => simp [scanName, hpost c rfl]
  | cons c name ih =>
    intro k hall
    simp only [List.all_cons, Bool.and_eq_true] at hall
    by_cases hk : k < 30
    · simp only [List.cons_append, scanName, hall.1, hk, decide_True, Bool.and_self, if_true,
        List.append_eq]
      rw [ih (k + 1) hall.2]
      have : 30 - k = (30 - (k + 1)) + 1 := by omega
      rw [this, List.take_succ_cons]
    · simp only [List.cons_append, scanName, hk, decide_False, Bool.and_false]
      have : 30 - k = 0 := by omega
      simp [this]

theorem getLast?_of_suffix {P : Char → Prop} {p1 p2 : List Char}
    (h : ∀ c, (p1 ++ p2).getLast? = some c → P c) : ∀ c, p2.getLast? = some c → P c := by
  intro c hc
  apply h
  cases p2 with
  | nil => simp at hc
  | cons x xs =>
    rw [List.getLast?_append_of_ne_nil _ (by simp)]
    exact hc

theorem Bad_of_suffix (p1 p2 suf : List Char) (hs : StuckHead suf)
    (hg : (∃ c cs, suf = c :: cs ∧ isforname c = false) ∨
      (∀ c, (p1 ++ p2).getLast? = some c → isforname c = false)) : Bad (p2 ++ suf) := by
  refine ⟨p2, suf, rfl, hs, ?_⟩
  rcases hg with hg | hg
  · exact Or.inl hg
  · exact Or.inr (getLast?_of_suffix hg)

theorem Bad_scanNumber {inp : List Char} (h : Bad inp) (k : Nat) :
    Bad (scanNumber inp k).2 := by
  obtain ⟨pre, suf, rfl, hs, hg⟩ := h
  have hstop : ∃ x r, suf = x :: r ∧ (isdigit x || x == '.') = false := by
    obtain ⟨c, cs, h1, h2, -⟩ := hs
    exact ⟨c, cs, h1, h2⟩
  obtain ⟨p1, p2, h1, h2⟩ := scanNumber_stop suf hstop pre k
  rw [h2]
  subst h1
  exact Bad_of_suffix _ _ _ hs hg

theorem Bad_unstuck {inp : List Char} (h : Bad inp) (hn : ¬ StuckHead inp) :
    ∃ c pre suf, inp = (c :: pre) ++ suf ∧ StuckHead suf ∧
      ((∃ c cs, suf = c :: cs ∧ isforname c = false) ∨
        (∀ x, (c :: pre).getLast? = some x → isforname x = false)) := by
  obtain ⟨pre, suf, rfl, hs, hg⟩ := h
  cases pre with
  | nil => exact absurd hs hn
  | cons c pre => exact ⟨c, pre, suf, rfl, hs, hg⟩

theorem Bad_tail {c : Char} {cs : List Char} (h : Bad (c :: cs)) (hn : ¬ StuckHead (c :: cs)) :
    Bad cs := by
  obtain ⟨c', pre, suf, h1, hs, hg⟩ := Bad_unstuck h hn
  simp only [List.cons_append, List.cons.injEq] at h1
  obtain ⟨rfl, rfl⟩ := h1
  exact Bad_of_suffix [c] _ _ hs hg

theorem Bad_scanName {inp : List Char} (h : Bad inp) (hn : ¬ StuckHead inp) (k : Nat) :
    Bad (scanName inp k).2 := by
  obtain ⟨c, pre, suf, rfl, hs, hg⟩ := Bad_unstuck h hn
  rcases hg with hg | hg
  · obtain ⟨p1, p2, h1, h2⟩ := scanName_stop suf hg (c :: pre) k
    rw [h2]
    exact Bad_of_suffix p1 _ _ hs (Or.inl hg)
  · obtain ⟨pre0, l, hl⟩ : ∃ pre0 l, c :: pre = pre0 ++ [l] :=
      ⟨(c :: pre).dropLast, (c :: pre).getLast (by simp),
        (List.dropLast_append_getLast (by simp)).symm⟩
    have hlf : isforname l = false := hg l (by rw [hl]; simp)
    obtain ⟨p1, p2, h1, h2⟩ := scanName_stop (l :: suf) ⟨l, suf, rfl, hlf⟩ pre0 k
    rw [hl, List.append_assoc]
    simp only [List.singleton_append]
    rw [h2]
    have : p2 ++ l :: suf = (p2 ++ [l]) ++ suf := by simp
    rw [this]
    refine Bad_of_suffix p1 _ _ hs (Or.inr ?_)
    intro x hx
    have : p1 ++ (p2 ++ [l]) = c :: pre := by rw [hl, h1, List.append_assoc]
    rw [this] at hx
    exact hg x hx

theorem Lex_throws_of_bad : ∀ (f : Nat) (inp : List Char) (s : Statics),
    inp.length ≤ f → Bad inp → ∃ e s', Lex f inp s = .throw e s' ∧
      (e = "too long" ∨ e = "unknown name" ∨ e = "unexpected characters") := by
  intro f
  induction f with
  | zero =>
    intro inp s hlen hb
    obtain ⟨pre, suf, rfl, ⟨c, cs, rfl, -⟩, -⟩ := hb
    simp at hlen
  | succ f ih =>
    intro inp s hlen hb
    cases inp with
    | nil =>
      obtain ⟨pre, suf, h1, ⟨c, cs, rfl, -⟩, -⟩ := hb
      simp at h1
    | cons c cs =>
      have hcs : cs.length ≤ f := by simpa using hlen
      simp only [Lex, bind, M.bind]
      by_cases hcnt : s.Unparsed.length ≥ MAX_UNPARSED
      · exact ⟨"too long", s, by simp [hcnt, raise], Or.inl rfl⟩
      rw [if_neg hcnt]
      by_cases hnum : (isdigit c || c == '.') = true
      · rw [if_pos hnum]
        simp only [M.bind, Emit]
        exact ih _ _ (le_trans (scanNumber_first cs hnum) hcs) (Bad_scanNumber hb 0)
      rw [if_neg hnum]
      by_cases halpha : (isalpha c || c == '_') = true
      · rw [if_pos halpha]
        by_cases hname : (scanName (c :: cs) 0).1 = ['s', 'q', 'r', 't']
        · rw [if_pos hname]
          simp only [M.bind, Emit]
          have hn : ¬ StuckHead (c :: cs) := by
            rintro ⟨c', cs', h1, -, h2⟩
            simp only [List.cons.injEq] at h1
            obtain ⟨rfl, rfl⟩ := h1
            rcases h2 with h2 | ⟨-, h2⟩
            · simp only [lexable, Bool.or_eq_false_iff] at h2
              simp only [Bool.or_eq_true] at halpha
              rcases halpha with h3 | h3
              · rw [h2.1.1.1.2] at h3; cases h3
              · rw [h2.1.1.2] at h3; cases h3
            · exact h2 hname
          exact ih _ _ (le_trans (scanName_first cs halpha) hcs) (Bad_scanName hb hn 0)
        · rw [if_neg hname]
          exact ⟨_, s, rfl, Or.inr (Or.inl rfl)⟩
      rw [if_neg halpha]
      have hn : lexable c = true → ¬ StuckHead (c :: cs) := by
        rintro hl ⟨c', cs', h1, -, h2⟩
        simp only [List.cons.injEq] at h1
        obtain ⟨rfl, rfl⟩ := h1
        rcases h2 with h2 | ⟨h2, -⟩
        · rw [hl] at h2; cases h2
        · exact halpha h2
      by_cases hop : c = '+' ∨ c = '-' ∨ c = '*' ∨ c = '/' ∨ c = '(' ∨ c = ')'
      · rw [if_pos hop]
        simp only [M.bind, Emit]
        refine ih _ _ hcs (Bad_tail hb (hn ?_))
        rcases hop with h | h | h | h | h | h <;> subst h <;> decide
      rw [if_neg hop]
      by_cases hsp : isspace c = true
      · rw [if_pos hsp]
        refine ih _ _ hcs (Bad_tail hb (hn ?_))
        simp [lexable, hsp]
      · rw [if_neg hsp]
        exact ⟨_, s, rfl, Or.inr (Or.inr rfl)⟩

theorem FromString_of_Lex_throw {inp : List Char} (s : Statics) {e : String} {s' : Statics}
    (h : Lex inp.length inp { s with Unparsed := [], Operands := [], Operators := [] } =
      .throw e s') :
    FromString inp s = .throw e s' := by
  simp [FromString, TryBlock, bind, M.bind, h]

theorem Bad_of_identifier {text name : List Char} (h : IsIdentifierOf text name)
    (hne : name ≠ ['s', 'q', 'r', 't']) : Bad text := by
  obtain ⟨pre, post, rfl, ⟨c, cs, hname, hc⟩, hall, hpre, hpost⟩ := h
  rw [List.append_assoc]
  refine ⟨pre, name ++ post, rfl, ⟨c, cs ++ post, by simp [hname], not_digit_of_alpha hc,
    Or.inr ⟨hc, ?_⟩⟩, Or.inr hpre⟩
  rw [scanName_fst post hpost name 0 hall]
  intro h4
  apply hne
  have hl : (List.take (30 - 0) name).length = 4 := by rw [h4]; rfl
  rw [List.length_take] at hl
  have : name.length ≤ 30 := by omega
  rw [List.take_of_length_le (by omega)] at h4
  exact h4

theorem Bad_of_unknown_char {text : List Char} {c : Char} (hc : c ∈ text)
    (hl : lexable c = false) : Bad text := by
  obtain ⟨pre, post, rfl⟩ := List.append_of_mem hc
  have h2 := hl
  simp only [lexable, Bool.or_eq_false_iff] at h2
  refine ⟨pre, c :: post, rfl, ⟨c, post, rfl, ?_, Or.inl hl⟩, Or.inl ⟨c, post, rfl, ?_⟩⟩
  · simp [h2.1.1.1.1.1, h2.1.1.1.1.2]
  · simp [isforname, h2.1.1.1.2, h2.1.1.1.1.1, h2.1.1.2]

/-- C11 (code at the failing inputs): a text that contains an identifier (a
maximal run of letters, digits and `_` that starts with a letter or `_`) other
than `sqrt`, or a character that is not a digit, `.`, a letter, `_`, one of
`+-*/()` or whitespace, makes `Lex` throw "unknown name", "unexpected characters"
or "too long", whatever the rest of the text and whatever statics an earlier call
left behind, and the throw leaves `FromString` uncaught: the call does not return
`NULL`. -/
theorem C11_unknown_identifier_or_character (text : List Char) (s : Statics)
    (h : (∃ name, IsIdentifierOf text name ∧ name ≠ ['s', 'q', 'r', 't']) ∨
      (∃ c ∈ text, lexable c = false)) :
    (FromString text s).value = none ∧
    ∃ e, (FromString text s).thrown = some e ∧
      (e = "too long" ∨ e = "unknown name" ∨ e = "unexpected characters") := by
  have hb : Bad text := by
    rcases h with ⟨name, h1, h2⟩ | ⟨c, h1, h2⟩
    · exact Bad_of_identifier h1 h2
    · exact Bad_of_unknown_char h1 h2
  obtain ⟨e, s', hL, he⟩ := Lex_throws_of_bad text.length text
    { s with Unparsed := [], Operands := [], Operators := [] } (le_refl _) hb
  rw [FromString_of_Lex_throw s hL]
  exact ⟨rfl, e, rfl, he⟩

theorem C11_unknown_identifier_or_character_witness :
    (IsIdentifierOf "foo(2)".toList "foo".toList ∧ "foo".toList ≠ ['s', 'q', 'r', 't']) ∧
    (FromString "foo(2)".toList Statics.init).thrown = some "unknown name" ∧
    (FromString "foo(2)".toList Statics.init).value = none ∧
    ∃ e, (FromString "foo(2)".toList Statics.init).thrown = some e ∧
      (e = "too long" ∨ e = "unknown name" ∨ e = "unexpected characters") :=
  ⟨⟨⟨[], "(2)".toList, by decide, ⟨'f', "oo".toList, by decide, by decide⟩, by decide,
      by simp, by simp; decide⟩, by decide⟩, by decide!,
    C11_unknown_identifier_or_character "foo(2)".toList Statics.init
      (Or.inl ⟨"foo".toList, ⟨[], "(2)".toList, by decide, ⟨'f', "oo".toList, by decide,
        by decide⟩, by decide, by simp, by simp; decide⟩, by decide⟩)⟩

/-! ## Invariants of the parser -/

theorem Triple_bind {α β : Type} {P : Statics → Prop} {Q : α → Statics → Prop}
    {R : β → Statics → Prop} {E : Statics → Prop} {m : M α} {k : α → M β}
    (h1 : Triple P m Q E) (h2 : ∀ a, Triple (Q a) (k a) R E) : Triple P (m >>= k) R E := by
  intro s hs
  have h := h1 s hs
  rw [M.bind_apply]
  cases hm : m s with
  | ok a s1 => rw [hm] at h; exact h2 a s1 h
  | throw e s1 => rw [hm] at h; exact h
  | oops => trivial
  | timeout => trivial

theorem Triple_pure {α : Type} {P : Statics → Prop} {Q : α → Statics → Prop}
    {E : Statics → Prop} (a : α) (h : ∀ s, P s → Q a s) : Triple P (pure a : M α) Q E :=
  fun s hs => h s hs

theorem Triple_raise {α : Type} {P : Statics → Prop} {Q : α → Statics → Prop}
    {E : Statics → Prop} (e : String) (h : ∀ s, P s → E s) : Triple P (raise e : M α) Q E :=
  fun s hs => h s hs

theorem Triple_oops {α : Type} {P : Statics → Prop} {Q : α → Statics → Prop}
    {E : Statics → Prop} : Triple P (oops : M α) Q E :=
  fun _ _ => trivial

theorem Triple_outOfFuel {α : Type} {P : Statics → Prop} {Q : α → Statics → Prop}
    {E : Statics → Prop} : Triple P (outOfFuel : M α) Q E :=
  fun _ _ => trivial

theorem Triple_weaken {α : Type} {P P' : Statics → Prop} {Q Q' : α → Statics → Prop}
    {E E' : Statics → Prop} {m : M α} (h : Triple P m Q E)
    (hP : ∀ s, P' s → P s) (hQ : ∀ a s, Q a s → Q' a s) (hE : ∀ s, E s → E' s) :
    Triple P' m Q' E' := by
  intro s hs
  have h1 := h s (hP s hs)
  cases hm : m s with
  | ok a s1 => rw [hm] at h1; exact hQ a s1 h1
  | throw e s1 => rw [hm] at h1; exact hE s1 h1
  | oops => trivial
  | timeout => trivial

/-- A fact that does not depend on the statics can be taken out of the
precondition. -/
theorem Triple_assume {α : Type} {P : Statics → Prop} {φ : Prop} {Q : α → Statics → Prop}
    {E : Statics → Prop} {m : M α} (h : φ → Triple P m Q E) :
    Triple (fun s => P s ∧ φ) m Q E :=
  fun s hs => h hs.2 s hs.1

/-- A computation whose fuel is read from the statics. -/
theorem Triple_fuel {α : Type} {P : Statics → Prop} {Q : α → Statics → Prop}
    {E : Statics → Prop} {F : Nat → M α} (g : Statics → Nat)
    (h : ∀ k, Triple P (F k) Q E) : Triple P (fun s => F (g s) s) Q E :=
  fun s hs => h (g s) s hs

/-- A computation that reads the statics and leaves them alone. -/
theorem Triple_read {α : Type} {P : Statics → Prop} {E : Statics → Prop} {m : M α}
    (h : ∀ s, (∃ a, m s = .ok a s) ∨ (∃ e, m s = .throw e s) ∨ m s = .oops)
    (hE : ∀ s, P s → E s) :
    Triple P m (fun a s => P s ∧ m s = .ok a s) E := by
  intro s hs
  rcases h s with ⟨a, ha⟩ | ⟨e, he⟩ | ho
  · rw [ha]; exact ⟨hs, ha⟩
  · rw [he]; exact hE s hs
  · rw [ho]; trivial

theorem Next_reads (s : Statics) :
    (∃ a, Next s = .ok a s) ∨ (∃ e, Next s = .throw e s) ∨ Next s = .oops := by
  unfold Next; split <;> exact Or.inl ⟨_, rfl⟩

theorem TopOperator_reads (s : Statics) :
    (∃ a, TopOperator s = .ok a s) ∨ (∃ e, TopOperator s = .throw e s) ∨
      TopOperator s = .oops := by
  unfold TopOperator; split
  · exact Or.inr (Or.inl ⟨_, rfl⟩)
  · exact Or.inl ⟨_, rfl⟩

theorem Precedence_reads (e : Expr) (s : Statics) :
    (∃ a, Precedence e s = .ok a s) ∨ (∃ e', Precedence e s = .throw e' s) ∨
      Precedence e s = .oops := by
  rw [Precedence_eq]
  cases prec e with
  | none => exact Or.inr (Or.inr rfl)
  | some k => exact Or.inl ⟨k, rfl⟩

theorem Keeps_bind {α β : Type} {I : Statics → Prop} {m : M α} {k : α → M β}
    (h1 : Keeps I m) (h2 : ∀ a, Keeps I (k a)) : Keeps I (m >>= k) :=
  Triple_bind h1 h2

theorem Keeps_of_reads {α : Type} {I : Statics → Prop} {m : M α}
    (h : ∀ s, (∃ a, m s = .ok a s) ∨ (∃ e, m s = .throw e s) ∨ m s = .oops) : Keeps I m :=
  Triple_weaken (Triple_read h (fun _ hs => hs)) (fun _ hs => hs) (fun _ _ hs => hs.1) (fun _ hs => hs)

theorem Reduce_keeps {I : Statics → Prop} {φ : Expr → Prop} (h : Respects I φ) :
    Keeps I Reduce := by
  obtain ⟨h1, h2, h3, h4, h5, h6, h7, h8, h9, h10⟩ := h
  unfold Reduce
  refine Triple_bind h2 ?_
  intro op
  cases op with
  | null => exact Triple_oops
  | node o x a b =>
    dsimp only
    split
    · rename_i hx
      refine Triple_bind h4 (fun b1 => Triple_assume (fun hb => ?_))
      refine Triple_bind h4 (fun a1 => Triple_assume (fun ha => ?_))
      refine h3 _ (h8 a1 b1 _ ha hb ?_)
      split
      · exact Or.inl rfl
      · split
        · exact Or.inr (Or.inl rfl)
        · split
          · exact Or.inr (Or.inr (Or.inl rfl))
          · exact Or.inr (Or.inr (Or.inr rfl))
    · split
      · exact Triple_bind h4 (fun a1 => Triple_assume (fun ha => h3 _ (h9 a1 ha)))
      · split
        · exact Triple_bind h4 (fun a1 => Triple_assume (fun ha => h3 _ (h10 a1 ha)))
        · exact Triple_oops

theorem ReduceWhile_keeps {I : Statics → Prop} {φ : Expr → Prop} (h : Respects I φ)
    (n : Expr) : ∀ f, Keeps I (ReduceWhile n f) := by
  intro f
  induction f with
  | zero => exact Triple_outOfFuel
  | succ f ih =>
    unfold ReduceWhile
    refine Keeps_bind (Keeps_of_reads (Precedence_reads n)) (fun pn => ?_)
    refine Keeps_bind (Keeps_of_reads TopOperator_reads) (fun top => ?_)
    refine Keeps_bind (Keeps_of_reads (Precedence_reads top)) (fun pt => ?_)
    split
    · exact Keeps_bind (Reduce_keeps h) (fun _ => ih)
    · exact Triple_pure _ (fun _ hs => hs)

theorem ReduceAndPush_keeps {I : Statics → Prop} {φ : Expr → Prop} (h : Respects I φ)
    (n : Expr) : Keeps I (ReduceAndPush n) := by
  unfold ReduceAndPush
  exact Keeps_bind (Triple_fuel _ (ReduceWhile_keeps h n)) (fun _ => h.1 n)

theorem Drain_keeps {I : Statics → Prop} {φ : Expr → Prop} (h : Respects I φ) :
    ∀ f, Keeps I (Drain f) := by
  intro f
  induction f with
  | zero => exact Triple_outOfFuel
  | succ f ih =>
    unfold Drain
    refine Keeps_bind (Keeps_of_reads TopOperator_reads) (fun top => ?_)
    cases top with
    | null => exact Triple_oops
    | node o x a b =>
      dsimp only
      split
      · exact Keeps_bind (Reduce_keeps h) (fun _ => ih)
      · exact Triple_pure _ (fun _ hs => hs)

theorem AfterOperand_keeps {I : Statics → Prop} {φ : Expr → Prop} (h : Respects I φ)
    {loop : M Unit} (hl : Keeps I loop) : Keeps I (AfterOperand loop) := by
  unfold AfterOperand
  refine Keeps_bind (Keeps_of_reads Next_reads) (fun n => ?_)
  cases n with
  | null => exact Triple_pure _ (fun _ hs => hs)
  | node o x a b =>
    dsimp only
    split
    · exact Keeps_bind (ReduceAndPush_keeps h _) (fun _ => Keeps_bind h.2.2.2.2.1 (fun _ => hl))
    · exact Triple_pure _ (fun _ hs => hs)

theorem Parse_keeps {I : Statics → Prop} {φ : Expr → Prop} (h : Respects I φ) :
    ∀ f, Keeps I (ParseLoop f) ∧ Keeps I (Parse f) := by
  intro f
  induction f with
  | zero => exact ⟨by unfold ParseLoop; exact Triple_outOfFuel,
      by unfold Parse; exact Triple_outOfFuel⟩
  | succ f ih =>
    obtain ⟨h1, h2, h3, h4, h5, h6, h7, h8, h9, h10⟩ := id h
    constructor
    · unfold ParseLoop
      refine Keeps_bind (Keeps_of_reads Next_reads) (fun n => ?_)
      cases n with
      | null => exact Triple_raise _ (fun _ hs => hs)
      | node o x a b =>
        dsimp only
        split
        · exact Keeps_bind (h3 _ (by rename_i ho; rw [ho]; exact h7 x a b))
            (fun _ => Keeps_bind h5 (fun _ => AfterOperand_keeps h ih.1))
        · split
          · refine Keeps_bind h5 (fun _ => Keeps_bind ih.2 (fun _ => ?_))
            refine Keeps_bind (Keeps_of_reads Next_reads) (fun n => ?_)
            cases n with
            | null => exact Triple_oops
            | node o x a b =>
              dsimp only
              split
              · exact Triple_raise _ (fun _ hs => hs)
              · exact Keeps_bind h5 (fun _ => AfterOperand_keeps h ih.1)
          · split
            · exact Keeps_bind (h1 _) (fun _ => Keeps_bind h5 (fun _ => ih.1))
            · split
              · exact Keeps_bind (h6 _) (fun _ => Keeps_bind (h1 _)
                  (fun _ => Keeps_bind h5 (fun _ => ih.1)))
              · exact Triple_raise _ (fun _ hs => hs)
    · unfold Parse
      refine Keeps_bind (h1 _) (fun _ => Keeps_bind ih.1 (fun _ => ?_))
      refine Keeps_bind (Triple_fuel _ (Drain_keeps h)) (fun _ => ?_)
      exact Keeps_bind h2 (fun _ => Triple_pure _ (fun _ hs => hs))

/-! ## The counters stay in range -/

theorem PushOperator_bounded (e : Expr) : Keeps Bounded (PushOperator e) := by
  intro s hs
  simp only [PushOperator]
  by_cases h : s.Operators.length ≥ MAX_UNPARSED
  · rw [if_pos h]; exact hs
  · rw [if_neg h]
    exact ⟨hs.1, hs.2.1, by simp only [List.length_cons]; omega⟩

theorem PushOperand_bounded (e : Expr) : Keeps Bounded (PushOperand e) := by
  intro s hs
  simp only [PushOperand]
  by_cases h : s.Operands.length ≥ MAX_UNPARSED
  · rw [if_pos h]; exact hs
  · rw [if_neg h]
    exact ⟨hs.1, by simp only [List.length_cons]; omega, hs.2.2⟩

theorem PopOperator_bounded : Keeps Bounded PopOperator := by
  intro s hs
  cases hops : s.Operators with
  | nil => simp only [PopOperator, hops]; exact hs
  | cons e rest =>
    simp only [PopOperator, hops]
    have h2 := hs.2.2
    rw [hops] at h2
    exact ⟨hs.1, hs.2.1, by simp only [List.length_cons] at h2; show rest.length ≤ _; omega⟩

theorem PopOperand_bounded : Keeps Bounded PopOperand := by
  intro s hs
  cases hops : s.Operands with
  | nil => simp only [PopOperand, hops]; exact hs
  | cons e rest =>
    simp only [PopOperand, hops]
    have h2 := hs.2.1
    rw [hops] at h2
    exact ⟨hs.1, by simp only [List.length_cons] at h2; show rest.length ≤ _; omega, hs.2.2⟩

theorem Consume_bounded : Keeps Bounded Consume := by
  intro s hs
  simp only [Consume]
  by_cases h : s.UnparsedP ≥ s.Unparsed.length
  · rw [if_pos h]; exact hs
  · rw [if_neg h]; exact hs

theorem Retag_bounded (n : Expr) : Keeps Bounded (Retag n) := by
  intro s hs
  exact ⟨by simp only [List.length_set]; exact hs.1, hs.2.1, hs.2.2⟩

theorem Respects_bounded : Respects Bounded (fun _ => True) :=
  ⟨PushOperator_bounded, PopOperator_bounded, fun e _ => PushOperand_bounded e,
    Triple_weaken PopOperand_bounded (fun _ h => h) (fun _ _ h => ⟨h, trivial⟩) (fun _ h => h),
    Consume_bounded, Retag_bounded, fun _ _ _ => trivial, fun _ _ _ _ _ _ => trivial,
    fun _ _ => trivial, fun _ _ => trivial⟩

theorem Lex_keeps {I : Statics → Prop}
    (hE : ∀ e cnt, isTokenNode e = true → cnt < MAX_UNPARSED →
      Triple (fun s => I s ∧ cnt = s.Unparsed.length) (Emit e) (fun _ s => I s) I) :
    ∀ (f : Nat) (inp : List Char), Keeps I (Lex f inp) := by
  intro f
  induction f with
  | zero =>
    intro inp
    cases inp with
    | nil => unfold Lex; exact Triple_pure _ (fun _ hs => hs)
    | cons c cs => unfold Lex; exact Triple_outOfFuel
  | succ f ih =>
    intro inp
    cases inp with
    | nil => unfold Lex; exact Triple_pure _ (fun _ hs => hs)
    | cons c cs =>
      unfold Lex
      have hread : Triple I (fun s => Res.ok s.Unparsed.length s : M Nat)
          (fun cnt s => I s ∧ cnt = s.Unparsed.length) I := fun s hs => ⟨hs, rfl⟩
      refine Triple_bind hread (fun cnt => ?_)
      have hdrop : ∀ m : M Unit, Keeps I m →
          Triple (fun s => I s ∧ cnt = s.Unparsed.length) m (fun _ s => I s) I :=
        fun m hm => Triple_weaken hm (fun _ h => h.1) (fun _ _ h => h) (fun _ h => h)
      split
      · exact Triple_raise _ (fun _ hs => hs.1)
      · rename_i hcnt
        have hlt : cnt < MAX_UNPARSED := by omega
        split
        · exact Triple_bind (hE _ cnt rfl hlt) (fun _ => ih _)
        · split
          · dsimp only
            split
            · exact Triple_bind (hE _ cnt rfl hlt) (fun _ => ih _)
            · exact Triple_raise _ (fun _ hs => hs.1)
          · split
            · rename_i hop
              refine Triple_bind (hE _ cnt ?_ hlt) (fun _ => ih _)
              rcases hop with h | h | h | h | h | h <;> subst h <;> rfl
            · split
              · exact hdrop _ (ih _)
              · exact Triple_raise _ (fun _ hs => hs.1)

theorem Lex_bounded (f : Nat) (inp : List Char) : Keeps Bounded (Lex f inp) := by
  apply Lex_keeps
  intro e cnt _ hcnt s hs
  exact ⟨by simp only [List.length_append, List.length_singleton]; omega, hs.1.2.1, hs.1.2.2⟩

theorem Lex_grows (k : Nat) (f : Nat) (inp : List Char) :
    Keeps (fun s => k ≤ s.Unparsed.length) (Lex f inp) := by
  apply Lex_keeps
  intro e cnt _ hcnt s hs
  show k ≤ (s.Unparsed ++ [e]).length
  simp only [List.length_append, List.length_singleton]
  have := hs.1
  omega

theorem TryBlock_bounded (inp : List Char) : Keeps Bounded (TryBlock inp) := by
  unfold TryBlock
  refine Keeps_bind (Lex_bounded _ _) (fun _ => ?_)
  refine Keeps_bind (Triple_fuel _ (fun k => (Parse_keeps Respects_bounded k).2)) (fun _ => ?_)
  exact Keeps_bind PopOperand_bounded (fun _ => Triple_pure _ (fun _ hs => hs))

theorem FromString_bounded (inp : List Char) :
    Triple (fun _ => True) (FromString inp) (fun _ s => Bounded s) Bounded := by
  intro s _
  have h := TryBlock_bounded inp { s with Unparsed := [], Operands := [], Operators := [] }
    ⟨by simp [MAX_UNPARSED], by simp [MAX_UNPARSED], by simp [MAX_UNPARSED]⟩
  unfold FromString
  cases hT : TryBlock inp { s with Unparsed := [], Operands := [], Operators := [] } with
  | ok r s1 => rw [hT] at h; exact h
  | throw e s1 => rw [hT] at h; exact h
  | oops => trivial
  | timeout => trivial

theorem space_not_token_char {c : Char} (h : isspace c = true) :
    (isdigit c || c == '.') = false ∧ (isalpha c || c == '_') = false ∧
    ¬ (c = '+' ∨ c = '-' ∨ c = '*' ∨ c = '/' ∨ c = '(' ∨ c = ')') := by
  simp only [isspace, decide_eq_true_eq] at h
  have key : c.toNat = 32 ∨ (9 ≤ c.toNat ∧ c.toNat ≤ 13) := by
    rcases h with h | h
    · subst h; left; rfl
    · right; exact h
  have hle : ∀ d : Char, d ≤ c → d.toNat ≤ c.toNat := by
    intro d hd
    exact Char.le_def.mp hd
  refine ⟨?_, ?_, ?_⟩
  · simp only [isdigit, Bool.or_eq_false_iff, decide_eq_false_iff_not, not_and, beq_eq_false_iff_ne]
    constructor
    · intro h0
      have := hle _ h0
      have h48 : ('0' : Char).toNat = 48 := rfl
      omega
    · rintro rfl
      have h46 : ('.' : Char).toNat = 46 := rfl
      omega
  · simp only [isalpha, Bool.or_eq_false_iff, decide_eq_false_iff_not, beq_eq_false_iff_ne]
    constructor
    · rintro (⟨h1, -⟩ | ⟨h1, -⟩)
      · have := hle _ h1
        have h97 : ('a' : Char).toNat = 97 := rfl
        omega
      · have := hle _ h1
        have h65 : ('A' : Char).toNat = 65 := rfl
        omega
    · rintro rfl
      have h95 : ('_' : Char).toNat = 95 := rfl
      omega
  · rintro (rfl | rfl | rfl | rfl | rfl | rfl) <;>
      simp at key

/-! ## The operands are finished trees -/

theorem Respects_parsed : Respects OperandsParsed (fun e => e.parsed = true) := by
  refine ⟨?_, ?_, ?_, ?_, ?_, ?_, ?_, ?_, ?_, ?_⟩
  · intro e s hs
    simp only [PushOperator]
    by_cases h : s.Operators.length ≥ MAX_UNPARSED
    · rw [if_pos h]; exact hs
    · rw [if_neg h]; exact hs
  · intro s hs
    cases hops : s.Operators with
    | nil => simp only [PopOperator, hops]; exact hs
    | cons e rest => simp only [PopOperator, hops]; exact hs
  · intro e he s hs
    simp only [PushOperand]
    by_cases h : s.Operands.length ≥ MAX_UNPARSED
    · rw [if_pos h]; exact hs
    · rw [if_neg h]
      intro x hx
      simp only [List.mem_cons] at hx
      rcases hx with rfl | hx
      · exact he
      · exact hs x hx
  · intro s hs
    cases hops : s.Operands with
    | nil => simp only [PopOperand, hops]; exact hs
    | cons e rest =>
      simp only [PopOperand, hops]
      have h2 : ∀ x ∈ e :: rest, x.parsed = true := by rw [← hops]; exact hs
      exact ⟨fun x hx => h2 x (List.mem_cons_of_mem _ hx), h2 e (List.mem_cons_self _ _)⟩
  · intro s hs
    simp only [Consume]
    by_cases h : s.UnparsedP ≥ s.Unparsed.length
    · rw [if_pos h]; exact hs
    · rw [if_neg h]; exact hs
  · intro n s hs
    exact hs
  · intro x a b; rfl
  · intro a b o ha hb ho
    rcases ho with rfl | rfl | rfl | rfl <;> simp [Expr.AnyOp, Expr.parsed, ha, hb]
  · intro a ha; simp [Expr.Negate, Expr.AnyOp, Expr.parsed, ha]
  · intro a ha; simp [Expr.Sqrt, Expr.AnyOp, Expr.parsed, ha]

theorem Lex_parsed (f : Nat) (inp : List Char) : Keeps OperandsParsed (Lex f inp) := by
  apply Lex_keeps
  intro e cnt _ hcnt s hs
  exact hs.1

theorem TryBlock_parsed (inp : List Char) :
    Triple OperandsParsed (TryBlock inp) (fun r _ => r.parsed = true) (fun _ => True) := by
  unfold TryBlock
  refine Triple_bind (Triple_weaken (Lex_parsed _ _) (fun _ h => h) (fun _ _ h => h)
    (fun _ _ => trivial)) (fun _ => ?_)
  refine Triple_bind (Triple_weaken (Triple_fuel _ (fun k => (Parse_keeps Respects_parsed k).2))
    (fun _ h => h) (fun _ _ h => h) (fun _ _ => trivial)) (fun _ => ?_)
  refine Triple_bind (Triple_weaken Respects_parsed.2.2.2.1 (fun _ h => h) (fun _ _ h => h)
    (fun _ _ => trivial)) (fun r => ?_)
  exact Triple_pure _ (fun _ hs => hs.2)

theorem FromString_parsed {inp : List Char} {s : Statics} {r : Expr}
    (h : (FromString inp s).value = some r) (hr : r ≠ .null) : r.parsed = true := by
  have h1 := TryBlock_parsed inp { s with Unparsed := [], Operands := [], Operators := [] }
    (by intro e he; simp at he)
  unfold FromString at h
  cases hT : TryBlock inp { s with Unparsed := [], Operands := [], Operators := [] } with
  | ok r1 s1 =>
    rw [hT] at h h1
    simp only [Res.value, Option.some.injEq] at h
    subst h
    exact h1
  | throw e s1 => rw [hT] at h; simp [Res.value] at h
  | oops => rw [hT] at h; simp [Res.value] at h
  | timeout => rw [hT] at h; simp [Res.value] at h

theorem Eval_of_parsed {α : Type} [DivisionRing α] (m : Libm α) :
    ∀ t : Expr, t.parsed = true →
      ∃ v, ∀ (σ : hParam → α) (deref : Nat → α), Eval m σ deref t = some v := by
  intro t
  induction t with
  | null => intro h; simp [Expr.parsed] at h
  | node op x a b iha ihb =>
    intro h
    cases op <;> simp only [Expr.parsed, Bool.and_eq_true, Bool.false_eq_true] at h
    case CONSTANT => exact ⟨_, fun _ _ => rfl⟩
    all_goals
      first
      | (obtain ⟨hfa, hfb⟩ := h
         obtain ⟨va, hva⟩ := iha hfa
         obtain ⟨vb, hvb⟩ := ihb hfb
         exact ⟨_, fun σ deref => by simp only [Eval, hva, hvb]; rfl⟩)
      | (obtain ⟨va, hva⟩ := iha h
         exact ⟨_, fun σ deref => by simp only [Eval, hva]; rfl⟩)

/-- C17: finished-tree invariant of the parser. Whenever `FromString` returns a
tree, every node of it is a Constant, a Plus, Minus, Times or Div with both
children present, or a Negate or Sqrt with its operand present; so `Eval` on the
result returns a value, the same at every parameter store. -/
theorem C17_finished_tree_invariant (inp : List Char) (s : Statics) (r : Expr)
    (h : (FromString inp s).value = some r) (hr : r ≠ .null) :
    r.parsed = true ∧
    ∀ (α : Type) [DivisionRing α] (m : Libm α), ∃ v : α,
      ∀ (σ : hParam → α) (deref : Nat → α), Eval m σ deref r = some v :=
  ⟨FromString_parsed h hr, fun _ _ m => Eval_of_parsed m r (FromString_parsed h hr)⟩

theorem C17_finished_tree_invariant_witness :
    (FromString "-2*sqrt(3)".toList Statics.init).value =
      some ((Expr.FromConstant 2).Negate.Times (Expr.FromConstant 3).Sqrt) ∧
    ((Expr.FromConstant 2).Negate.Times (Expr.FromConstant 3).Sqrt).parsed = true ∧
    ∀ (α : Type) [DivisionRing α] (m : Libm α), ∃ v : α,
      ∀ (σ : hParam → α) (deref : Nat → α),
        Eval m σ deref ((Expr.FromConstant 2).Negate.Times (Expr.FromConstant 3).Sqrt) = some v :=
  ⟨by decide!,
    C17_finished_tree_invariant "-2*sqrt(3)".toList Statics.init _ (by decide!) (by decide)⟩

/-! ## Lexing a text that is laid out in tokens -/

theorem Lex_spaces : ∀ (ws rest : List Char) (f : Nat) (U : List Expr) (p : Nat)
    (opnds ops : List Expr), ws.all isspace = true → (ws = [] ∨ U.length < MAX_UNPARSED) →
    Lex (ws.length + f) (ws ++ rest) ⟨U, p, opnds, ops⟩ = Lex f rest ⟨U, p, opnds, ops⟩ := by
  intro ws
  induction ws with
  | nil => intro rest f U p opnds ops _ _; simp
  | cons c ws ih =>
    intro rest f U p opnds ops hall hU
    simp only [List.all_cons, Bool.and_eq_true] at hall
    have hU' : U.length < MAX_UNPARSED := by
      rcases hU with h | h
      · cases h
      · exact h
    obtain ⟨h1, h2, h3⟩ := space_not_token_char hall.1
    have hf : (c :: ws).length + f = (ws.length + f) + 1 := by
      simp only [List.length_cons]; omega
    rw [hf, List.cons_append]
    simp only [Lex, bind, M.bind]
    rw [if_neg (by omega), if_neg (by simp [h1]), if_neg (by simp [h2]), if_neg h3,
      if_pos hall.1]
    exact ih rest f U p opnds ops hall.2 (Or.inr hU')

theorem Lex_token (f : Nat) (t : Terminal) (rest : List Char) (U : List Expr) (p : Nat)
    (opnds ops : List Expr) (hok : okTerminal t = true)
    (hd : needsDelim t = true → delim rest = true) (hU : U.length < MAX_UNPARSED) :
    Lex (f + 1) (t.spell ++ rest) ⟨U, p, opnds, ops⟩ =
      Lex f rest ⟨U ++ [t.tok], p, opnds, ops⟩ := by
  cases t with
  | number lit =>
    simp only [okTerminal, Bool.and_eq_true, decide_eq_true_eq] at hok
    exact Lex_number f lit rest U p opnds ops hok.1 hok.2 (hd rfl) hU
  | sqrt => exact Lex_sqrt f rest U p opnds ops (hd rfl) hU
  | plus => exact Lex_op f _ rest U p opnds ops (by simp) hU
  | minus => exact Lex_op f _ rest U p opnds ops (by simp) hU
  | star => exact Lex_op f _ rest U p opnds ops (by simp) hU
  | slash => exact Lex_op f _ rest U p opnds ops (by simp) hU
  | lparen => exact Lex_op f _ rest U p opnds ops (by simp) hU
  | rparen => exact Lex_op f _ rest U p opnds ops (by simp) hU

theorem spell_ne_nil {t : Terminal} (hok : okTerminal t = true) : t.spell ≠ [] := by
  cases t with
  | number lit =>
    simp only [okTerminal, isNumber, Bool.and_eq_true, Bool.not_eq_true', List.isEmpty_eq_false]
      at hok
    intro h
    simp only [Terminal.spell] at h
    subst h
    simp at hok
  | _ => simp [Terminal.spell]

theorem layout_append (l1 l2 : List (Terminal × List Char)) :
    layout (l1 ++ l2) = layout l1 ++ layout l2 := by
  induction l1 with
  | nil => rfl
  | cons x l1 ih =>
    obtain ⟨t, ws⟩ := x
    simp [layout, ih]

theorem wellLaid_append (l1 l2 : List (Terminal × List Char)) (rest : List Char) :
    wellLaid (l1 ++ l2) rest = (wellLaid l1 (layout l2 ++ rest) && wellLaid l2 rest) := by
  induction l1 with
  | nil => simp [wellLaid]
  | cons x l1 ih =>
    obtain ⟨t, ws⟩ := x
    simp only [List.cons_append, wellLaid, List.append_eq, ih, layout_append, List.append_assoc,
      Bool.and_assoc]

theorem Lex_layout : ∀ (l : List (Terminal × List Char)) (rest : List Char) (U : List Expr)
    (p : Nat) (opnds ops : List Expr) (f : Nat),
    wellLaid l rest = true → U.length + l.length < MAX_UNPARSED →
    (layout l ++ rest).length ≤ f →
    ∃ f', rest.length ≤ f' ∧
      Lex f (layout l ++ rest) ⟨U, p, opnds, ops⟩ =
        Lex f' rest ⟨U ++ l.map (fun x => x.1.tok), p, opnds, ops⟩ := by
  intro l
  induction l with
  | nil => intro rest U p opnds ops f _ _ hf; exact ⟨f, by simpa [layout] using hf, by simp [layout]⟩
  | cons x l ih =>
    obtain ⟨t, ws⟩ := x
    intro rest U p opnds ops f hw hU hf
    simp only [wellLaid, Bool.and_eq_true, Bool.or_eq_true, Bool.not_eq_true'] at hw
    obtain ⟨⟨⟨hok, hws⟩, hdl⟩, hrest⟩ := hw
    simp only [List.length_cons] at hU
    have hne := spell_ne_nil hok
    have hlen : (layout ((t, ws) :: l) ++ rest).length =
        t.spell.length + (ws.length + (layout l ++ rest).length) := by
      simp [layout, List.length_append]
    have hpos : 0 < t.spell.length := List.length_pos.mpr hne
    obtain ⟨f0, rfl⟩ : ∃ f0, f = f0 + 1 := ⟨f - 1, by omega⟩
    have h1 : layout ((t, ws) :: l) ++ rest = t.spell ++ (ws ++ (layout l ++ rest)) := by
      simp [layout]
    rw [h1, Lex_token f0 t _ U p opnds ops hok
      (fun hn => by rcases hdl with h | h; · rw [hn] at h; cases h
                    · exact h) (by omega)]
    obtain ⟨f1, rfl⟩ : ∃ f1, f0 = ws.length + f1 := ⟨f0 - ws.length, by omega⟩
    rw [Lex_spaces ws _ f1 _ p opnds ops hws
      (Or.inr (by simp only [List.length_append, List.length_singleton]; omega))]
    obtain ⟨f', hf', heq⟩ := ih rest (U ++ [t.tok]) p opnds ops f1 hrest
      (by simp only [List.length_append, List.length_singleton]; omega) (by omega)
    refine ⟨f', hf', ?_⟩
    rw [heq]
    simp

theorem Lex_too_long (l : List (Terminal × List Char)) (hw : wellLaid l [] = true)
    (hlen : MAX_UNPARSED < l.length) (p : Nat) (opnds ops : List Expr) :
    ∃ s', Lex (layout l).length (layout l) ⟨[], p, opnds, ops⟩ = .throw "too long" s' := by
  obtain ⟨l1, l2, hl, hl1⟩ : ∃ l1 l2, l = l1 ++ l2 ∧ l1.length = MAX_UNPARSED - 1 :=
    ⟨l.take (MAX_UNPARSED - 1), l.drop (MAX_UNPARSED - 1), (List.take_append_drop _ _).symm,
      by rw [List.length_take]; omega⟩
  subst hl
  rw [wellLaid_append, Bool.and_eq_true] at hw
  simp only [List.length_append] at hlen
  have hM : MAX_UNPARSED = 1024 := rfl
  cases l2 with
  | nil => simp at hlen; omega
  | cons x l2 =>
    obtain ⟨t, ws⟩ := x
    cases l2 with
    | nil => simp at hlen; omega
    | cons y l2 =>
      obtain ⟨t2, ws2⟩ := y
      rw [layout_append]
      obtain ⟨f', hf', heq⟩ := Lex_layout l1 (layout ((t, ws) :: (t2, ws2) :: l2)) [] p opnds ops
        (layout l1 ++ layout ((t, ws) :: (t2, ws2) :: l2)).length (by simpa using hw.1)
        (by simp only [List.length_nil]; omega) (le_refl _)
      rw [heq]
      have hw2 := hw.2
      simp only [wellLaid, Bool.and_eq_true, Bool.or_eq_true, Bool.not_eq_true'] at hw2
      obtain ⟨⟨⟨hok, hws⟩, hdl⟩, ⟨⟨⟨hok2, hws2⟩, hdl2⟩, hrest⟩⟩ := hw2
      have hpos : 0 < t.spell.length := List.length_pos.mpr (spell_ne_nil hok)
      have hpos2 : 0 < t2.spell.length := List.length_pos.mpr (spell_ne_nil hok2)
      have hlay : layout ((t, ws) :: (t2, ws2) :: l2) =
          t.spell ++ (ws ++ layout ((t2, ws2) :: l2)) := rfl
      have hlay2 : layout ((t2, ws2) :: l2) = t2.spell ++ (ws2 ++ layout l2) := rfl
      rw [hlay] at hf' ⊢
      simp only [List.length_append] at hf'
      obtain ⟨f0, rfl⟩ : ∃ f0, f' = f0 + 1 := ⟨f' - 1, by omega⟩
      rw [Lex_token f0 t _ _ p opnds ops hok
        (fun hn => by rcases hdl with h | h; · rw [hn] at h; cases h
                      · simpa using h)
        (by simp only [List.nil_append, List.length_map]; omega)]
      have hne : ws ++ layout ((t2, ws2) :: l2) ≠ [] := by
        rw [hlay2]
        intro h
        have := congrArg List.length h
        simp only [List.length_append, List.length_nil] at this
        omega
      obtain ⟨c, cs, hc⟩ := List.exists_cons_of_ne_nil hne
      rw [hc]
      have hf0 : 0 < f0 := by
        rw [hlay2] at hf'
        simp only [List.length_append] at hf'
        omega
      obtain ⟨f1, rfl⟩ : ∃ f1, f0 = f1 + 1 := ⟨f0 - 1, by omega⟩
      refine ⟨⟨[] ++ List.map (fun x => x.1.tok) l1 ++ [t.tok], p, opnds, ops⟩, ?_⟩
      simp only [Lex, bind, M.bind]
      rw [if_pos (by simp only [List.nil_append, List.length_append, List.length_map,
        List.length_singleton]; omega)]
      rfl

theorem FromString_of_thrown {inp : List Char} {s : Statics} {e : String}
    (h : (TryBlock inp { s with Unparsed := [], Operands := [], Operators := [] }).thrown =
      some e) :
    (FromString inp s).thrown = some e ∧ (FromString inp s).value = none := by
  unfold FromString
  cases hT : TryBlock inp { s with Unparsed := [], Operands := [], Operators := [] } with
  | ok r s1 => rw [hT] at h; cases h
  | throw msg s1 => rw [hT] at h; exact ⟨h, rfl⟩
  | oops => rw [hT] at h; cases h
  | timeout => rw [hT] at h; cases h

theorem TryBlock_too_long (l : List (Terminal × List Char)) (hw : wellLaid l [] = true)
    (hlen : MAX_UNPARSED < l.length) (s : Statics) :
    (FromString (layout l) s).thrown = some "too long" ∧
    (FromString (layout l) s).value = none := by
  obtain ⟨s', h⟩ := Lex_too_long l hw hlen s.UnparsedP [] []
  have hT : TryBlock (layout l) { s with Unparsed := [], Operands := [], Operators := [] } =
      .throw "too long" s' := by
    simp only [TryBlock, bind, M.bind, h]
  exact FromString_of_thrown (by rw [hT]; rfl)

theorem Keeps_bounded_of_reads {α : Type} {m : M α}
    (h : ∀ s, (∃ a, m s = .ok a s) ∨ (∃ e, m s = .throw e s) ∨ m s = .oops) :
    Keeps Bounded m := Keeps_of_reads h

/-- C12 (code, with the failing inputs): bounded stacks. From any statics, `FromString` ends with the token
count, the operand stack pointer and the operator stack pointer within
`0 .. 1024`, and every function of the lexer and parser that is entered with the
counters in range leaves them in range, by a return or by a `throw`. A push
writes at the index of the old stack pointer, which is below 1024; a pop or a
look at the top reads below a stack pointer that is at least 1; `Next` reads
`Unparsed` only at a cursor below the token count; `Lex` only lets the token
count grow, so it stays below 1024 at every write. A text of more than 1024
tokens makes `Lex` throw "too long" and 1024 opening parentheses make `Parse`
throw "operator stack full!"; either throw leaves `FromString` uncaught, so the
call does not return `NULL`. -/
theorem C12_bounded_stacks (inp : List Char) (e n : Expr) (f : Nat) :
    Triple (fun _ => True) (FromString inp) (fun _ s => Bounded s) Bounded ∧
    (Keeps Bounded (PushOperator e) ∧ Keeps Bounded TopOperator ∧ Keeps Bounded PopOperator ∧
      Keeps Bounded (PushOperand e) ∧ Keeps Bounded PopOperand ∧ Keeps Bounded Next ∧
      Keeps Bounded Consume ∧ Keeps Bounded (Retag n) ∧ Keeps Bounded (Precedence e) ∧
      Keeps Bounded Reduce ∧ Keeps Bounded (ReduceAndPush n) ∧ Keeps Bounded (ParseLoop f) ∧
      Keeps Bounded (Parse f) ∧ Keeps Bounded (Lex f inp) ∧ Keeps Bounded (TryBlock inp)) ∧
    (∀ s s' : Statics, Bounded s →
      (PushOperator e s = .ok () s' →
        s.Operators.length < MAX_UNPARSED ∧ s'.Operators = e :: s.Operators) ∧
      (PushOperand e s = .ok () s' →
        s.Operands.length < MAX_UNPARSED ∧ s'.Operands = e :: s.Operands) ∧
      (∀ r, TopOperator s = .ok r s' →
        0 < s.Operators.length ∧ s.Operators.length ≤ MAX_UNPARSED ∧
          s.Operators.head? = some r) ∧
      (∀ r, PopOperator s = .ok r s' →
        0 < s.Operators.length ∧ s.Operators.length ≤ MAX_UNPARSED ∧
          s.Operators = r :: s'.Operators) ∧
      (∀ r, PopOperand s = .ok r s' →
        0 < s.Operands.length ∧ s.Operands.length ≤ MAX_UNPARSED ∧
          s.Operands = r :: s'.Operands) ∧
      (∀ r, Next s = .ok r s' →
        (s.Unparsed.length ≤ s.UnparsedP ∧ r = .null) ∨
        (s.UnparsedP < s.Unparsed.length ∧ s.Unparsed.length ≤ MAX_UNPARSED ∧
          s.Unparsed[s.UnparsedP]? = some r)) ∧
      ((Lex f inp s = .ok () s' ∨ ∃ msg, Lex f inp s = .throw msg s') →
        s.Unparsed.length ≤ s'.Unparsed.length ∧ s'.Unparsed.length ≤ MAX_UNPARSED)) ∧
    (∀ (l : List (Terminal × List Char)) (s : Statics), wellLaid l [] = true →
      MAX_UNPARSED < l.length →
      (FromString (layout l) s).thrown = some "too long" ∧
      (FromString (layout l) s).value = none) ∧
    ((FromString (List.replicate 1024 '(') Statics.init).thrown =
        some "operator stack full!" ∧
      (FromString (List.replicate 1024 '(') Statics.init).value = none) := by
  refine ⟨FromString_bounded inp, ⟨PushOperator_bounded e, Keeps_of_reads TopOperator_reads,
    PopOperator_bounded, PushOperand_bounded e, PopOperand_bounded, Keeps_of_reads Next_reads,
    Consume_bounded, Retag_bounded n, Keeps_of_reads (Precedence_reads e),
    Reduce_keeps Respects_bounded, ReduceAndPush_keeps Respects_bounded n,
    (Parse_keeps Respects_bounded f).1, (Parse_keeps Respects_bounded f).2,
    Lex_bounded f inp, TryBlock_bounded inp⟩, ?_, ?_, ?_⟩
  · intro s s' hs
    refine ⟨?_, ?_, ?_, ?_, ?_, ?_, ?_⟩
    · intro h
      simp only [PushOperator] at h
      by_cases hc : s.Operators.length ≥ MAX_UNPARSED
      · rw [if_pos hc] at h; cases h
      · rw [if_neg hc] at h; cases h; exact ⟨by omega, rfl⟩
    · intro h
      simp only [PushOperand] at h
      by_cases hc : s.Operands.length ≥ MAX_UNPARSED
      · rw [if_pos hc] at h; cases h
      · rw [if_neg hc] at h; cases h; exact ⟨by omega, rfl⟩
    · intro r h
      cases hops : s.Operators with
      | nil => simp only [TopOperator, hops] at h; cases h
      | cons x rest =>
        simp only [TopOperator, hops] at h
        cases h
        have := hs.2.2
        rw [hops] at this
        exact ⟨by simp, this, rfl⟩
    · intro r h
      cases hops : s.Operators with
      | nil => simp only [PopOperator, hops] at h; cases h
      | cons x rest =>
        simp only [PopOperator, hops] at h
        cases h
        have := hs.2.2
        rw [hops] at this
        exact ⟨by simp, this, rfl⟩
    · intro r h
      cases hops : s.Operands with
      | nil => simp only [PopOperand, hops] at h; cases h
      | cons x rest =>
        simp only [PopOperand, hops] at h
        cases h
        have := hs.2.1
        rw [hops] at this
        exact ⟨by simp, this, rfl⟩
    · intro r h
      simp only [Next] at h
      by_cases hc : s.UnparsedP ≥ s.Unparsed.length
      · rw [if_pos hc] at h; cases h; exact Or.inl ⟨hc, rfl⟩
      · rw [if_neg hc] at h
        cases h
        refine Or.inr ⟨by omega, hs.1, ?_⟩
        rw [List.getD_eq_getElem?_getD, List.getElem?_eq_getElem (by omega)]
        rfl
    · intro h
      have h1 := Lex_grows s.Unparsed.length f inp s (le_refl _)
      have h2 := Lex_bounded f inp s hs
      rcases h with h | ⟨msg, h⟩
      · rw [h] at h1 h2; exact ⟨h1, h2.1⟩
      · rw [h] at h1 h2; exact ⟨h1, h2.1⟩
  · intro l s hw hlen
    exact TryBlock_too_long l hw hlen s
  · exact FromString_of_thrown (TryBlock_parens 1024 rfl)

theorem C12_bounded_stacks_witness :
    Bounded Statics.init ∧
    PushOperator marker Statics.init = .ok () ⟨[], 0, [], [marker]⟩ ∧
    (Statics.init.Operators.length < MAX_UNPARSED ∧
      (⟨[], 0, [], [marker]⟩ : Statics).Operators = marker :: Statics.init.Operators) ∧
    Keeps Bounded (Parse 8) :=
  ⟨by simp [Bounded, Statics.init, MAX_UNPARSED], rfl,
    ((C12_bounded_stacks [] marker .null 0).2.2.1 Statics.init ⟨[], 0, [], [marker]⟩
      (by simp [Bounded, Statics.init, MAX_UNPARSED])).1 rfl,
    (C12_bounded_stacks [] .null .null 8).2.1.2.2.2.2.2.2.2.2.2.2.2.2.1⟩

/-! ## The stack discipline of `Parse` -/

theorem Triple_of_state {α : Type} {P : Statics → Prop} {Q : α → Statics → Prop}
    {E : Statics → Prop} {m : M α}
    (h : ∀ s0, P s0 → Triple (fun s => s = s0) m Q E) : Triple P m Q E :=
  fun s hs => h s hs s rfl

theorem Next_token {s s' : Statics} {n : Expr} (ht : Tokens s) (h : Next s = .ok n s') :
    n = .null ∨ isTokenNode n = true := by
  simp only [Next] at h
  by_cases hc : s.UnparsedP ≥ s.Unparsed.length
  · rw [if_pos hc] at h; cases h; exact Or.inl rfl
  · rw [if_neg hc] at h
    cases h
    right
    apply ht
    rw [List.getD_eq_getElem?_getD, List.getElem?_eq_getElem (by omega)]
    exact List.getElem_mem _

theorem Consume_open (ops0 opnds0 : List Expr) (k : Nat) :
    Triple (Open ops0 opnds0 k) Consume (fun _ => Open ops0 opnds0 k) (fun _ => True) := by
  intro s hs
  simp only [Consume]
  by_cases h : s.UnparsedP ≥ s.Unparsed.length
  · rw [if_pos h]; trivial
  · rw [if_neg h]; exact hs

theorem Retag_open (ops0 opnds0 : List Expr) (k : Nat) (n : Expr) (hn : isTokenNode n = true) :
    Triple (Open ops0 opnds0 k) (Retag n) (fun _ => Open ops0 opnds0 k) (fun _ => True) := by
  intro s hs
  refine ⟨?_, hs.2⟩
  intro e he
  rcases List.mem_or_eq_of_mem_set he with h | h
  · exact hs.1 e h
  · rw [h]; exact hn

theorem PushOperand_open (ops0 opnds0 : List Expr) (e : Expr) :
    Triple (Open ops0 opnds0 0) (PushOperand e) (fun _ => Open ops0 opnds0 1)
      (fun _ => True) := by
  intro s hs
  simp only [PushOperand]
  by_cases h : s.Operands.length ≥ MAX_UNPARSED
  · rw [if_pos h]; trivial
  · rw [if_neg h]
    obtain ⟨ht, us, xs, h1, h2, h3, h4⟩ := hs
    exact ⟨ht, us, e :: xs, h1, by simp [h2], h3, by simp only [List.length_cons]; omega⟩

theorem nbin_unary {u : Expr} (us : List Expr) {x : XUnion} {a b : Expr}
    (h : u = .node .UNARY_OP x a b) : nbin (u :: us) = nbin us := by
  subst h; rfl

theorem PushOperator_open_unary (ops0 opnds0 : List Expr) (x : XUnion) (a b : Expr)
    (hu : isPending (.node .UNARY_OP x a b) = true) :
    Triple (Open ops0 opnds0 0) (PushOperator (.node .UNARY_OP x a b))
      (fun _ => Open ops0 opnds0 0) (fun _ => True) := by
  intro s hs
  simp only [PushOperator]
  by_cases h : s.Operators.length ≥ MAX_UNPARSED
  · rw [if_pos h]; trivial
  · rw [if_neg h]
    obtain ⟨ht, us, xs, h1, h2, h3, h4⟩ := hs
    refine ⟨ht, .node .UNARY_OP x a b :: us, xs, by simp [h1], h2, ?_, ?_⟩
    · intro u hu'
      simp only [List.mem_cons] at hu'
      rcases hu' with rfl | hu'
      · exact hu
      · exact h3 u hu'
    · rw [nbin_unary us rfl]; exact h4

theorem PushOperator_open_binary (ops0 opnds0 : List Expr) (x : XUnion) (a b : Expr)
    (hu : isPending (.node .BINARY_OP x a b) = true) :
    Triple (Open ops0 opnds0 1) (PushOperator (.node .BINARY_OP x a b))
      (fun _ => Open ops0 opnds0 0) (fun _ => True) := by
  intro s hs
  simp only [PushOperator]
  by_cases h : s.Operators.length ≥ MAX_UNPARSED
  · rw [if_pos h]; trivial
  · rw [if_neg h]
    obtain ⟨ht, us, xs, h1, h2, h3, h4⟩ := hs
    refine ⟨ht, .node .BINARY_OP x a b :: us, xs, by simp [h1], h2, ?_, ?_⟩
    · intro u hu'
      simp only [List.mem_cons] at hu'
      rcases hu' with rfl | hu'
      · exact hu
      · exact h3 u hu'
    · show xs.length = nbin us + 1 + 0
      omega

/-- One `Reduce` inside an invocation whose top operator is not the marker. -/
theorem Reduce_open (ops0 opnds0 : List Expr) :
    Triple (fun s => Open ops0 opnds0 1 s ∧
        ∃ o x a b r, s.Operators = .node o x a b :: r ∧ o ≠ .ALL_RESOLVED)
      Reduce (fun _ => Open ops0 opnds0 1) (fun _ => True) := by
  rintro ⟨U, p, opnds, ops⟩ ⟨⟨ht, us, xs, h1, h2, h3, h4⟩, o, x, a, b, r, h5, h6⟩
  simp only at h1 h2 h5
  cases us with
  | nil =>
    simp only [List.nil_append] at h1
    rw [h1] at h5
    simp only [marker, List.cons.injEq, Expr.node.injEq] at h5
    exact absurd h5.1.1.symm h6
  | cons u us =>
    simp only [List.cons_append] at h1
    rw [h1] at h5
    simp only [List.cons.injEq] at h5
    obtain ⟨hu, -⟩ := h5
    have hp := h3 u (List.mem_cons_self _ _)
    have h3' : ∀ v ∈ us, isPending v = true := fun v hv => h3 v (List.mem_cons_of_mem _ hv)
    subst hu h1 h2
    cases o <;> simp only [isPending, decide_eq_true_eq, Bool.false_eq_true] at hp
    case BINARY_OP =>
      have hn : nbin (.node .BINARY_OP x a b :: us) = nbin us + 1 := rfl
      rw [hn] at h4
      match xs, h4 with
      | t2 :: t1 :: xs', h4 =>
        simp only [List.length_cons] at h4
        simp only [Reduce, bind, M.bind, PopOperator, PopOperand, List.cons_append, hp, if_true,
          PushOperand]
        by_cases hcap : (xs' ++ opnds0).length ≥ MAX_UNPARSED
        · rw [if_pos hcap]; trivial
        · rw [if_neg hcap]
          exact ⟨ht, us, _ :: xs', rfl, rfl, h3', by simp only [List.length_cons]; omega⟩
    case UNARY_OP =>
      have hn : nbin (.node .UNARY_OP x a b :: us) = nbin us := rfl
      rw [hn] at h4
      have hnb : ¬ (x.getC = '+' ∨ x.getC = '-' ∨ x.getC = '*' ∨ x.getC = '/') := by
        rcases hp with h | h <;> rw [h] <;> decide
      match xs, h4 with
      | t1 :: xs', h4 =>
        simp only [List.length_cons] at h4
        simp only [Reduce, bind, M.bind, PopOperator, PopOperand, List.cons_append, hnb, if_false,
          PushOperand]
        rcases hp with h | h
        · have h' : ¬ x.getC = 'n' := by rw [h]; decide
          rw [if_neg h', if_pos h]
          simp only [M.bind, PopOperand, PushOperand]
          by_cases hcap : (xs' ++ opnds0).length ≥ MAX_UNPARSED
          · rw [if_pos hcap]; trivial
          · rw [if_neg hcap]
            exact ⟨ht, us, _ :: xs', rfl, rfl, h3', by simp only [List.length_cons]; omega⟩
        · rw [if_pos h]
          simp only [M.bind, PopOperand, PushOperand]
          by_cases hcap : (xs' ++ opnds0).length ≥ MAX_UNPARSED
          · rw [if_pos hcap]; trivial
          · rw [if_neg hcap]
            exact ⟨ht, us, _ :: xs', rfl, rfl, h3', by simp only [List.length_cons]; omega⟩

theorem prec_pending {u : Expr} (h : isPending u = true) : ∃ k, prec u = some k ∧ 10 ≤ k := by
  cases u with
  | null => simp [isPending] at h
  | node o x a b =>
    cases o <;> simp only [isPending, decide_eq_true_eq, Bool.false_eq_true] at h
    case BINARY_OP =>
      rcases h with h | h | h | h <;> simp [prec, h]
    case UNARY_OP =>
      rcases h with h | h <;> simp [prec, h]

theorem top_not_marker {s : Statics} {top : Expr} {pt : Int}
    (h1 : TopOperator s = .ok top s) (h2 : Precedence top s = .ok pt s) (h3 : 10 ≤ pt) :
    ∃ o x a b r, s.Operators = .node o x a b :: r ∧ o ≠ .ALL_RESOLVED := by
  cases hops : s.Operators with
  | nil => simp only [TopOperator, hops] at h1; cases h1
  | cons u r =>
    simp only [TopOperator, hops] at h1
    cases h1
    rw [Precedence_eq] at h2
    cases top with
    | null => simp [prec] at h2
    | node o x a b =>
      refine ⟨o, x, a, b, r, rfl, ?_⟩
      rintro rfl
      simp only [prec, if_true] at h2
      cases h2
      omega

theorem ReduceWhile_open (ops0 opnds0 : List Expr) (n : Expr) (hn : isPending n = true) :
    ∀ f, Triple (Open ops0 opnds0 1) (ReduceWhile n f) (fun _ => Open ops0 opnds0 1)
      (fun _ => True) := by
  intro f
  induction f with
  | zero => exact Triple_outOfFuel
  | succ f ih =>
    unfold ReduceWhile
    refine Triple_bind (Triple_read (Precedence_reads n) (fun _ _ => trivial)) (fun pn => ?_)
    refine Triple_bind (Triple_read TopOperator_reads (fun _ _ => trivial)) (fun top => ?_)
    refine Triple_bind (Triple_read (Precedence_reads top) (fun _ _ => trivial)) (fun pt => ?_)
    split
    · rename_i hle
      refine Triple_bind (Q := fun _ => Open ops0 opnds0 1) ?_ (fun _ => ih)
      refine Triple_weaken (Reduce_open ops0 opnds0) ?_ (fun _ _ h => h) (fun _ h => h)
      rintro s ⟨⟨⟨ho, hpn⟩, htop⟩, hpt⟩
      refine ⟨ho, top_not_marker htop hpt ?_⟩
      obtain ⟨k, hk, hk10⟩ := prec_pending hn
      rw [Precedence_eq, hk] at hpn
      cases hpn
      omega
    · exact Triple_pure _ (fun _ hs => hs.1.1.1)

theorem ReduceAndPush_open (ops0 opnds0 : List Expr) (x : XUnion) (a b : Expr)
    (hn : isPending (.node .BINARY_OP x a b) = true) :
    Triple (Open ops0 opnds0 1) (ReduceAndPush (.node .BINARY_OP x a b))
      (fun _ => Open ops0 opnds0 0) (fun _ => True) := by
  unfold ReduceAndPush
  exact Triple_bind (Triple_fuel _ (ReduceWhile_open ops0 opnds0 _ hn))
    (fun _ => PushOperator_open_binary ops0 opnds0 x a b hn)

theorem Drain_open (ops0 opnds0 : List Expr) :
    ∀ f, Triple (Open ops0 opnds0 1) (Drain f)
      (fun _ s => Tokens s ∧ s.Operators = marker :: ops0 ∧ ∃ e, s.Operands = e :: opnds0)
      (fun _ => True) := by
  intro f
  induction f with
  | zero => exact Triple_outOfFuel
  | succ f ih =>
    unfold Drain
    refine Triple_bind (Triple_read TopOperator_reads (fun _ _ => trivial)) (fun top => ?_)
    cases top with
    | null => exact Triple_oops
    | node o x a b =>
      dsimp only
      split
      · rename_i ho
        refine Triple_bind (Q := fun _ => Open ops0 opnds0 1) ?_ (fun _ => ih)
        refine Triple_weaken (Reduce_open ops0 opnds0) ?_ (fun _ _ h => h) (fun _ h => h)
        rintro s ⟨hopen, htop⟩
        refine ⟨hopen, ?_⟩
        cases hops : s.Operators with
        | nil => simp only [TopOperator, hops] at htop; cases htop
        | cons u r =>
          simp only [TopOperator, hops] at htop
          cases htop
          exact ⟨o, x, a, b, r, rfl, ho⟩
      · rename_i ho
        have ho' : o = .ALL_RESOLVED := by
          by_contra hne; exact ho hne
        subst ho'
        refine Triple_pure _ ?_
        rintro s ⟨⟨ht, us, xs, h1, h2, h3, h4⟩, htop⟩
        cases us with
        | nil =>
          simp only [nbin, Nat.zero_add] at h4
          match xs, h4 with
          | [e], _ => exact ⟨ht, h1, e, h2⟩
        | cons u us =>
          exfalso
          simp only [TopOperator, h1, List.cons_append] at htop
          cases htop
          have := h3 _ (List.mem_cons_self _ _)
          simp [isPending] at this

theorem AfterOperand_open (ops0 opnds0 : List Expr) {loop : M Unit}
    (hl : Triple (Open ops0 opnds0 0) loop (fun _ => Open ops0 opnds0 1) (fun _ => True)) :
    Triple (Open ops0 opnds0 1) (AfterOperand loop) (fun _ => Open ops0 opnds0 1)
      (fun _ => True) := by
  unfold AfterOperand
  refine Triple_bind (Triple_read Next_reads (fun _ _ => trivial)) (fun n => ?_)
  cases n with
  | null => exact Triple_pure _ (fun _ hs => hs.1)
  | node o x a b =>
    dsimp only
    split
    · rename_i ho
      subst ho
      refine Triple_weaken (P := fun s => Open ops0 opnds0 1 s ∧
        isTokenNode (.node .BINARY_OP x a b) = true) ?_ ?_ (fun _ _ h => h) (fun _ h => h)
      · refine Triple_assume (fun htok => ?_)
        have hp : isPending (.node .BINARY_OP x a b) = true := htok
        exact Triple_bind (ReduceAndPush_open ops0 opnds0 x a b hp)
          (fun _ => Triple_bind (Consume_open ops0 opnds0 0) (fun _ => hl))
      · rintro s ⟨ho, hn⟩
        refine ⟨ho, ?_⟩
        rcases Next_token ho.1 hn with h | h
        · cases h
        · exact h
    · exact Triple_pure _ (fun _ hs => hs.1)

theorem Parse_open : ∀ f,
    (∀ ops0 opnds0, Triple (Open ops0 opnds0 0) (ParseLoop f) (fun _ => Open ops0 opnds0 1)
      (fun _ => True)) ∧
    (∀ ops0 opnds0, Triple (fun s => Tokens s ∧ s.Operators = ops0 ∧ s.Operands = opnds0)
      (Parse f) (fun _ s => Tokens s ∧ s.Operators = ops0 ∧ ∃ e, s.Operands = e :: opnds0)
      (fun _ => True)) := by
  intro f
  induction f with
  | zero =>
    exact ⟨fun _ _ => by unfold ParseLoop; exact Triple_outOfFuel,
      fun _ _ => by unfold Parse; exact Triple_outOfFuel⟩
  | succ f ih =>
    constructor
    · intro ops0 opnds0
      unfold ParseLoop
      refine Triple_bind (Triple_read Next_reads (fun _ _ => trivial)) (fun n => ?_)
      cases n with
      | null => exact Triple_raise _ (fun _ _ => trivial)
      | node o x a b =>
        dsimp only
        refine Triple_weaken (P := fun s => Open ops0 opnds0 0 s ∧
          isTokenNode (.node o x a b) = true) ?_ ?_ (fun _ _ h => h) (fun _ h => h)
        swap
        · rintro s ⟨ho, hn⟩
          refine ⟨ho, ?_⟩
          rcases Next_token ho.1 hn with h | h
          · cases h
          · exact h
        refine Triple_assume (fun htok => ?_)
        have hafter := AfterOperand_open ops0 opnds0 (ih.1 ops0 opnds0)
        split
        · exact Triple_bind (PushOperand_open ops0 opnds0 _)
            (fun _ => Triple_bind (Consume_open ops0 opnds0 1) (fun _ => hafter))
        · split
          · refine Triple_bind (Consume_open ops0 opnds0 0) (fun _ => ?_)
            refine Triple_bind (Q := fun _ => Open ops0 opnds0 1) ?_ (fun _ => ?_)
            · refine Triple_of_state (fun s0 hs0 => ?_)
              obtain ⟨ht, us, xs, h1, h2, h3, h4⟩ := hs0
              refine Triple_weaken (ih.2 s0.Operators s0.Operands) ?_ ?_ (fun _ h => h)
              · rintro s rfl; exact ⟨ht, rfl, rfl⟩
              · rintro _ s ⟨ht', h5, e, h6⟩
                exact ⟨ht', us, e :: xs, by rw [h5, h1], by rw [h6, h2]; rfl, h3,
                  by simp only [List.length_cons]; omega⟩
            · refine Triple_bind (Triple_read Next_reads (fun _ _ => trivial)) (fun n => ?_)
              cases n with
              | null => exact Triple_oops
              | node o x a b =>
                dsimp only
                split
                · exact Triple_raise _ (fun _ _ => trivial)
                · exact Triple_bind (Triple_weaken (Consume_open ops0 opnds0 1) (fun _ h => h.1)
                    (fun _ _ h => h) (fun _ h => h)) (fun _ => hafter)
          · split
            · rename_i ho
              subst ho
              exact Triple_bind (PushOperator_open_unary ops0 opnds0 x a b htok)
                (fun _ => Triple_bind (Consume_open ops0 opnds0 0) (fun _ => ih.1 ops0 opnds0))
            · split
              · exact Triple_bind (Retag_open ops0 opnds0 0 _ rfl)
                  (fun _ => Triple_bind (PushOperator_open_unary ops0 opnds0 _ a b rfl)
                    (fun _ => Triple_bind (Consume_open ops0 opnds0 0)
                      (fun _ => ih.1 ops0 opnds0)))
              · exact Triple_raise _ (fun _ _ => trivial)
    · intro ops0 opnds0
      unfold Parse
      refine Triple_bind (Q := fun _ => Open ops0 opnds0 0) ?_ (fun _ => ?_)
      · rintro s ⟨ht, h1, h2⟩
        simp only [PushOperator]
        by_cases h : s.Operators.length ≥ MAX_UNPARSED
        · rw [if_pos h]; trivial
        · rw [if_neg h]
          refine ⟨ht, [], [], ?_, ?_, ?_, rfl⟩
          · simp [h1, marker]
          · simp [h2]
          · intro u hu; cases hu
      · refine Triple_bind (ih.1 ops0 opnds0) (fun _ => ?_)
        refine Triple_bind (Triple_fuel _ (Drain_open ops0 opnds0)) (fun _ => ?_)
        refine Triple_bind (Q := fun _ s => Tokens s ∧ s.Operators = ops0 ∧
          ∃ e, s.Operands = e :: opnds0) ?_ (fun _ => Triple_pure _ (fun _ h => h))
        rintro s ⟨ht, h1, h2⟩
        simp only [PopOperator, h1]
        exact ⟨ht, trivial, h2⟩

theorem Lex_tokens (A B : List Expr) (f : Nat) (inp : List Char) :
    Keeps (fun s => Tokens s ∧ s.Operators = A ∧ s.Operands = B) (Lex f inp) := by
  apply Lex_keeps
  rintro e cnt he hcnt s ⟨⟨ht, h1, h2⟩, -⟩
  refine ⟨?_, h1, h2⟩
  intro x hx
  simp only [List.mem_append, List.mem_singleton] at hx
  rcases hx with hx | rfl
  · exact ht x hx
  · exact he

/-- C19: stack discipline of `Parse`. An invocation of `Parse` that returns
normally, entered with a token array of lexer tokens, leaves the operator stack
exactly as it was on entry and the operand stack as it was on entry with one new
operand on top, and the token array still holds lexer tokens, so the same is true
of every nested invocation. In `FromString` the lexer leaves lexer tokens and
empty stacks, hence after a successful top-level `Parse` the operator stack is
empty and the operand stack holds exactly one operand. -/
theorem C19_stack_discipline (f : Nat) (s s' : Statics) (htok : Tokens s)
    (h : Parse f s = .ok () s') :
    s'.Operators = s.Operators ∧ (∃ e, s'.Operands = e :: s.Operands) ∧ Tokens s' ∧
    (∀ (inp : List Char) (s0 s1 s2 : Statics) (k : Nat),
      Lex inp.length inp { s0 with Unparsed := [], Operands := [], Operators := [] } =
        .ok () s1 →
      Parse k s1 = .ok () s2 →
      Tokens s1 ∧ s1.Operators = [] ∧ s1.Operands = [] ∧
        s2.Operators = [] ∧ ∃ e, s2.Operands = [e]) := by
  have key : ∀ (f : Nat) (s s' : Statics), Tokens s → Parse f s = .ok () s' →
      Tokens s' ∧ s'.Operators = s.Operators ∧ ∃ e, s'.Operands = e :: s.Operands := by
    intro f s s' htok h
    have h1 := (Parse_open f).2 s.Operators s.Operands s ⟨htok, rfl, rfl⟩
    rw [h] at h1
    exact h1
  obtain ⟨h1, h2, h3⟩ := key f s s' htok h
  refine ⟨h2, h3, h1, ?_⟩
  intro inp s0 s1 s2 k hL hP
  have h4 := Lex_tokens [] [] inp.length inp
    { s0 with Unparsed := [], Operands := [], Operators := [] }
    ⟨by intro e he; simp at he, rfl, rfl⟩
  rw [hL] at h4
  obtain ⟨h5, h6, h7⟩ := h4
  obtain ⟨-, h8, e, h9⟩ := key k s1 s2 h5 hP
  exact ⟨h5, h6, h7, by rw [h8, h6], e, by rw [h9, h7]⟩

theorem C19_stack_discipline_witness :
    Tokens ⟨[Expr.FromConstant 2, Terminal.tok .plus, Expr.FromConstant 3], 0,
      [Expr.FromConstant 9], [Terminal.tok .star]⟩ ∧
    Parse 8 ⟨[Expr.FromConstant 2, Terminal.tok .plus, Expr.FromConstant 3], 0,
      [Expr.FromConstant 9], [Terminal.tok .star]⟩ =
      .ok () ⟨[Expr.FromConstant 2, Terminal.tok .plus, Expr.FromConstant 3], 3,
        [(Expr.FromConstant 2).Plus (Expr.FromConstant 3), Expr.FromConstant 9],
        [Terminal.tok .star]⟩ ∧
    ([Terminal.tok .star] = [Terminal.tok .star] ∧
      ∃ e, [(Expr.FromConstant 2).Plus (Expr.FromConstant 3), Expr.FromConstant 9] =
        e :: [Expr.FromConstant 9]) :=
  ⟨by unfold Tokens; decide, by decide!,
    ⟨(C19_stack_discipline 8
      ⟨[Expr.FromConstant 2, Terminal.tok .plus, Expr.FromConstant 3], 0,
        [Expr.FromConstant 9], [Terminal.tok .star]⟩
      ⟨[Expr.FromConstant 2, Terminal.tok .plus, Expr.FromConstant 3], 3,
        [(Expr.FromConstant 2).Plus (Expr.FromConstant 3), Expr.FromConstant 9],
        [Terminal.tok .star]⟩ (by unfold Tokens; decide) (by decide!)).1,
     (C19_stack_discipline 8
      ⟨[Expr.FromConstant 2, Terminal.tok .plus, Expr.FromConstant 3], 0,
        [Expr.FromConstant 9], [Terminal.tok .star]⟩
      ⟨[Expr.FromConstant 2, Terminal.tok .plus, Expr.FromConstant 3], 3,
        [(Expr.FromConstant 2).Plus (Expr.FromConstant 3), Expr.FromConstant 9],
        [Terminal.tok .star]⟩ (by unfold Tokens; decide) (by decide!)).2.1⟩⟩

/-! ## The printed form of a constant -/

end SolveSpace
